import Mathlib

/-!
Verification of the incremental SLS scoring core (`src/formula.py`,
`src/solver/utils.py`): CNF formulas, bit-list assignments, the falselist,
the DIFF (GSAT) and BREAK_ONLY (WalkSAT/ProbSAT) scoreboards, the DIMACS
printer/parser, and the planted-satisfiable generator.

The embedding is shallow: each Python class becomes a structure, each
method a pure function on it.  Python dicts whose keys are created on
demand (`score`, `buckets`, the falselist `mapping`) are modelled as total
functions with the dict's default reading (`∅` for a bucket that was never
created, `none` for an absent mapping key); Python `int` becomes `Int`
(`Nat` where the source can only ever hold a machine-enumerated
non-negative value, such as variable indices).  The standard-library PRNG
(`random.seed/sample/choices/randrange`) is not repository code; it is
modelled as an explicit state threaded through the generator, with its
documented behaviour as an interface (`RNGSpec`).
-/

set_option maxHeartbeats 1000000

namespace SlsVerify

/-! ## Assignment (`src/formula.py`, class `Assignment`) -/

structure Assignment where
  atoms : List Bool
  num_vars : Nat
deriving DecidableEq

namespace Assignment

/-- `Assignment.atoms_from_integer`: repeated division by two, little-endian.
The Python loop `while n > 0` terminates because `n` shrinks; here the first
argument is a structural bound on the number of iterations (`n` itself always
suffices). -/
def atomsFromIntegerAux : Nat → Nat → List Bool
  | 0, _ => []
  | fuel + 1, n => if n = 0 then [] else (n % 2 == 1) :: atomsFromIntegerAux fuel (n / 2)

def atoms_from_integer (n : Nat) : List Bool :=
  atomsFromIntegerAux n n

/-- `Assignment.integer_from_atoms`: pops from the end, so the head of the
list is the least-significant bit. -/
def integer_from_atoms (l : List Bool) : Nat :=
  l.foldr (fun b n => 2 * n + (if b then 1 else 0)) 0

/-- `Assignment.__init__(number, num_vars)` -/
def mk' (number : Nat) (num_vars : Nat) : Assignment :=
  let a := atoms_from_integer number
  ⟨a ++ List.replicate (num_vars - a.length) false, num_vars⟩

/-- `Assignment.get_value` (1-based variable index). -/
def get_value (a : Assignment) (v : Nat) : Bool :=
  a.atoms.getD (v - 1) false

/-- `Assignment.flip` -/
def flip (a : Assignment) (v : Nat) : Assignment :=
  ⟨a.atoms.set (v - 1) (!(a.atoms.getD (v - 1) false)), a.num_vars⟩

/-- `Assignment.is_true` on a signed literal. -/
def is_true (a : Assignment) (lit : Int) : Bool :=
  let t := a.get_value lit.natAbs
  if 0 < lit then t else !t

end Assignment

/-! ## Formula (`src/formula.py`, class `Formula`) -/

structure Formula where
  clauses : List (List Int)
  num_clauses : Nat
  num_vars : Nat
  comments : List String
  satisfying_assignment : Option Assignment
deriving DecidableEq

/-- The occurrence index: Python builds `occurrences[num_vars + lit]` by one
pass over the clauses in index order, appending the clause index once per
occurrence of the literal.  `occAux lit cls k` is that traversal starting at
clause index `k`. -/
def occAux (lit : Int) : List (List Int) → Nat → List Nat
  | [], _ => []
  | cl :: rest, k =>
      cl.filterMap (fun l => if l = lit then some k else none) ++ occAux lit rest (k + 1)

namespace Formula

/-- `Formula.get_occurrences` -/
def get_occurrences (F : Formula) (lit : Int) : List Nat :=
  occAux lit F.clauses 0

/-- `Formula.is_satisfied_by` -/
def is_satisfied_by (F : Formula) (a : Assignment) : Bool :=
  F.clauses.all (fun cl => cl.any (fun l => a.is_true l))

/-- Construction from parts (`Formula(clauses=…, num_vars=…, sat_assignment=…)`):
comments empty, `num_clauses = len(clauses)`. -/
def fromParts (clauses : List (List Int)) (num_vars : Nat) (sat : Assignment) : Formula :=
  ⟨clauses, clauses.length, num_vars, [], some sat⟩

end Formula

/-- Well-formedness used by the scoreboard claims: every literal is nonzero
with variable in `1..N`, and a clause contains at most one literal per
variable. -/
def ClauseWf (N : Nat) (cl : List Int) : Prop :=
  (∀ l ∈ cl, l ≠ 0 ∧ l.natAbs ≤ N) ∧ (cl.map Int.natAbs).Nodup

def FormulaWf (F : Formula) : Prop :=
  ∀ cl ∈ F.clauses, ClauseWf F.num_vars cl

instance (N : Nat) (cl : List Int) : Decidable (ClauseWf N cl) := by
  unfold ClauseWf; infer_instance

instance (F : Formula) : Decidable (FormulaWf F) := by
  unfold FormulaWf; infer_instance

/-! ## Falselist (`src/solver/utils.py`, class `Falselist`) -/

structure Falselist where
  lst : List Nat
  mapping : Nat → Option Nat

namespace Falselist

def empty : Falselist := ⟨[], fun _ => none⟩

/-- `Falselist.add` -/
def add (fl : Falselist) (e : Nat) : Falselist :=
  ⟨fl.lst ++ [e], Function.update fl.mapping e (some fl.lst.length)⟩

/-- `Falselist.remove`: swap-with-last removal.  Python asserts
`elem in self.mapping`; an absent element is a precondition violation and
the state is returned unchanged here. -/
def remove (fl : Falselist) (e : Nat) : Falselist :=
  match fl.mapping e with
  | none => fl
  | some idx =>
      let tmp := fl.lst.getD idx 0
      if idx = fl.lst.length - 1 then
        ⟨fl.lst.dropLast, Function.update fl.mapping tmp none⟩
      else
        let last := fl.lst.getD (fl.lst.length - 1) 0
        ⟨(fl.lst.set idx last).dropLast,
         Function.update (Function.update fl.mapping last (some idx)) tmp none⟩

end Falselist

/-! ## DiffScores (`src/solver/utils.py`, class `DiffScores`) -/

structure DiffScores where
  crit_var : List (Option Nat)
  num_true_lit : List Int
  score : Nat → Int
  best_score : Int
  buckets : Int → Finset Nat

namespace DiffScores

def getNtl (ds : DiffScores) (c : Nat) : Int :=
  ds.num_true_lit.getD c 0

def getCrit (ds : DiffScores) (c : Nat) : Option Nat :=
  ds.crit_var.getD c none

/-- `DiffScores.increment_score` -/
def increment_score (ds : DiffScores) (v : Nat) : DiffScores :=
  let s := ds.score v
  let best' := if ds.best_score = s then ds.best_score + 1 else ds.best_score
  let b1 := Function.update ds.buckets s ((ds.buckets s).erase v)
  { ds with
    best_score := best'
    score := Function.update ds.score v (s + 1)
    buckets := Function.update b1 (s + 1) (insert v (b1 (s + 1))) }

/-- `DiffScores.decrement_score` -/
def decrement_score (ds : DiffScores) (v : Nat) : DiffScores :=
  let s := ds.score v
  let best' :=
    if ds.best_score = s ∧ (ds.buckets s).erase v = ∅ then ds.best_score - 1
    else ds.best_score
  let b1 := Function.update ds.buckets s ((ds.buckets s).erase v)
  { ds with
    best_score := best'
    score := Function.update ds.score v (s - 1)
    buckets := Function.update b1 (s - 1) (insert v (b1 (s - 1))) }

/-- `DiffScores.self_test` (consistency check, returns a Bool). -/
def self_test (F : Formula) (a : Assignment) (ds : DiffScores) : Bool :=
  (F.clauses.enum.all (fun p =>
     ((p.2.countP (fun l => a.is_true l) : Int) == ds.getNtl p.1))) &&
  ((List.range' 1 F.num_vars).all (fun v =>
     let sat_lit : Int := if a.get_value v then (v : Int) else -(v : Int)
     let breaks := (F.get_occurrences sat_lit).countP
       (fun c => ds.getNtl c == 1 && ds.getCrit c == some v)
     let makes := (F.get_occurrences (-sat_lit)).countP (fun c => ds.getNtl c == 0)
     (((makes : Int) - (breaks : Int)) == ds.score v) &&
       decide (v ∈ ds.buckets (ds.score v))))

end DiffScores

/-- The solver-state triple mutated by `DiffScores.flip`:
the assignment, the falselist and the scoreboard. -/
structure SState where
  assignment : Assignment
  falselist : Falselist
  ds : DiffScores

namespace DiffScores

/-- Body of the first loop of `DiffScores.flip` (over occurrences of the
now-satisfying literal), acting on one clause index. -/
def flipStep1 (F : Formula) (v : Nat) (st : DiffScores × Falselist) (c : Nat) :
    DiffScores × Falselist :=
  let ds := st.1
  let fl := st.2
  let t := ds.getNtl c
  if t = 0 then
    let fl' := fl.remove c
    let ds1 := ds.decrement_score v
    let ds2 := (F.clauses.getD c []).foldl (fun d l => d.decrement_score l.natAbs) ds1
    let ds3 := { ds2 with crit_var := ds2.crit_var.set c (some v) }
    ({ ds3 with num_true_lit := ds3.num_true_lit.set c (t + 1) }, fl')
  else if t = 1 then
    let ds1 := ds.increment_score ((ds.getCrit c).getD 0)
    ({ ds1 with num_true_lit := ds1.num_true_lit.set c (t + 1) }, fl)
  else
    ({ ds with num_true_lit := ds.num_true_lit.set c (t + 1) }, fl)

/-- Body of the second loop of `DiffScores.flip` (over occurrences of the
now-falsifying literal).  `a` is the already-flipped assignment. -/
def flipStep2 (F : Formula) (v : Nat) (a : Assignment)
    (st : DiffScores × Falselist) (c : Nat) : DiffScores × Falselist :=
  let ds := st.1
  let fl := st.2
  let t := ds.getNtl c
  if t = 1 then
    let fl' := fl.add c
    let ds1 := ds.increment_score v
    let ds2 := (F.clauses.getD c []).foldl (fun d l => d.increment_score l.natAbs) ds1
    let ds3 := { ds2 with crit_var := ds2.crit_var.set c (some v) }
    ({ ds3 with num_true_lit := ds3.num_true_lit.set c (t - 1) }, fl')
  else if t = 2 then
    let ds1 := (F.clauses.getD c []).foldl
      (fun d l =>
        if a.is_true l then
          ({ d with crit_var := d.crit_var.set c (some l.natAbs) }).decrement_score l.natAbs
        else d) ds
    ({ ds1 with num_true_lit := ds1.num_true_lit.set c (t - 1) }, fl)
  else
    ({ ds with num_true_lit := ds.num_true_lit.set c (t - 1) }, fl)

/-- `DiffScores.flip(variable, formula, assignment, falselist)`. -/
def flip (F : Formula) (v : Nat) (st : SState) : SState :=
  let a := st.assignment.flip v
  let sat : Int := if a.is_true (v : Int) then (v : Int) else -(v : Int)
  let uns : Int := -sat
  let r1 := (F.get_occurrences sat).foldl (flipStep1 F v) (st.ds, st.falselist)
  let r2 := (F.get_occurrences uns).foldl (flipStep2 F v a) r1
  ⟨a, r2.2, r2.1⟩

/-- One clause of the `DiffScores.__init__` loop: count true literals,
remember the last true variable, classify. -/
def initStep (a : Assignment) (st : DiffScores × Falselist) (idx : Nat)
    (cl : List Int) : DiffScores × Falselist :=
  let ds := st.1
  let fl := st.2
  let t : Nat := cl.countP (fun l => a.is_true l)
  let cv : Nat := cl.foldl (fun acc l => if a.is_true l then l.natAbs else acc) 0
  let ds1 := { ds with
    crit_var := ds.crit_var ++ [if t = 1 then some cv else none]
    num_true_lit := ds.num_true_lit ++ [(t : Int)] }
  if t = 1 then
    (ds1.decrement_score cv, fl)
  else if t = 0 then
    let fl' := fl.add idx
    ((cl.foldl (fun d l => d.increment_score l.natAbs) ds1), fl')
  else
    (ds1, fl)

def initLoop (a : Assignment) : List (List Int) → Nat → DiffScores × Falselist →
    DiffScores × Falselist
  | [], _, st => st
  | cl :: rest, idx, st => initLoop a rest (idx + 1) (initStep a st idx cl)

/-- `DiffScores.__init__(formula, assignment, falselist)` with a fresh empty
falselist, packaged as a solver state. -/
def initState (F : Formula) (a : Assignment) : SState :=
  let ds0 : DiffScores :=
    { crit_var := []
      num_true_lit := []
      score := fun _ => 0
      best_score := 0
      buckets := fun s => if s = 0 then Finset.Icc 1 F.num_vars else ∅ }
  let r := initLoop a F.clauses 0 (ds0, Falselist.empty)
  ⟨a, r.2, r.1⟩

/-- A sequence of flips through the scoreboard. -/
def applyFlips (F : Formula) (st : SState) (ws : List Nat) : SState :=
  ws.foldl (fun s v => flip F v s) st

end DiffScores

/-! ## Scores (`src/solver/utils.py`, class `Scores`, BREAK_ONLY mode) -/

structure Scores where
  crit_var : List Nat
  num_true_lit : List Int
  breaks : Nat → Int
  best_score : Int
  buckets : Int → Finset Nat

namespace Scores

def getNtl (sc : Scores) (c : Nat) : Int :=
  sc.num_true_lit.getD c 0

def getCrit (sc : Scores) (c : Nat) : Nat :=
  sc.crit_var.getD c 0

/-- `Scores.increment_break_score`: note the rule for `best_score` is the
mirror image of the DIFF one — it moves only when the best bucket empties. -/
def increment_break_score (sc : Scores) (v : Nat) : Scores :=
  let s := sc.breaks v
  let best' :=
    if sc.best_score = s ∧ (sc.buckets s).erase v = ∅ then sc.best_score + 1
    else sc.best_score
  let b1 := Function.update sc.buckets s ((sc.buckets s).erase v)
  { sc with
    best_score := best'
    breaks := Function.update sc.breaks v (s + 1)
    buckets := Function.update b1 (s + 1) (insert v (b1 (s + 1))) }

/-- `Scores.decrement_break_score`: decrements `best_score` eagerly whenever
the decremented variable sat in the best bucket. -/
def decrement_break_score (sc : Scores) (v : Nat) : Scores :=
  let s := sc.breaks v
  let best' := if sc.best_score = s then sc.best_score - 1 else sc.best_score
  let b1 := Function.update sc.buckets s ((sc.buckets s).erase v)
  { sc with
    best_score := best'
    breaks := Function.update sc.breaks v (s - 1)
    buckets := Function.update b1 (s - 1) (insert v (b1 (s - 1))) }

end Scores

/-- Solver state for the BREAK_ONLY scoreboard. -/
structure BState where
  assignment : Assignment
  falselist : Falselist
  sc : Scores

namespace Scores

/-- Body of the first loop of `Scores.flip`. -/
def flipStep1 (v : Nat) (st : Scores × Falselist) (c : Nat) : Scores × Falselist :=
  let sc := st.1
  let fl := st.2
  let t := sc.getNtl c
  if t = 0 then
    let fl' := fl.remove c
    let sc1 := sc.increment_break_score v
    let sc2 := { sc1 with crit_var := sc1.crit_var.set c v }
    ({ sc2 with num_true_lit := sc2.num_true_lit.set c (t + 1) }, fl')
  else if t = 1 then
    let sc1 := sc.decrement_break_score (sc.getCrit c)
    ({ sc1 with num_true_lit := sc1.num_true_lit.set c (t + 1) }, fl)
  else
    ({ sc with num_true_lit := sc.num_true_lit.set c (t + 1) }, fl)

/-- Body of the second loop of `Scores.flip` (`a` is the flipped assignment). -/
def flipStep2 (F : Formula) (v : Nat) (a : Assignment)
    (st : Scores × Falselist) (c : Nat) : Scores × Falselist :=
  let sc := st.1
  let fl := st.2
  let t := sc.getNtl c
  if t = 1 then
    let fl' := fl.add c
    let sc1 := sc.decrement_break_score v
    let sc2 := { sc1 with crit_var := sc1.crit_var.set c v }
    ({ sc2 with num_true_lit := sc2.num_true_lit.set c (t - 1) }, fl')
  else if t = 2 then
    let sc1 := (F.clauses.getD c []).foldl
      (fun d l =>
        if a.is_true l then
          ({ d with crit_var := d.crit_var.set c l.natAbs }).increment_break_score l.natAbs
        else d) sc
    ({ sc1 with num_true_lit := sc1.num_true_lit.set c (t - 1) }, fl)
  else
    ({ sc with num_true_lit := sc.num_true_lit.set c (t - 1) }, fl)

/-- `Scores.flip(variable, formula, assignment, falselist)`. -/
def flip (F : Formula) (v : Nat) (st : BState) : BState :=
  let a := st.assignment.flip v
  let sat : Int := if a.is_true (v : Int) then (v : Int) else -(v : Int)
  let uns : Int := -sat
  let r1 := (F.get_occurrences sat).foldl (flipStep1 v) (st.sc, st.falselist)
  let r2 := (F.get_occurrences uns).foldl (flipStep2 F v a) r1
  ⟨a, r2.2, r2.1⟩

/-- One clause of the `Scores.__init__` loop. -/
def initStep (a : Assignment) (st : Scores × Falselist) (idx : Nat)
    (cl : List Int) : Scores × Falselist :=
  let sc := st.1
  let fl := st.2
  let t : Nat := cl.countP (fun l => a.is_true l)
  let cv : Nat := cl.foldl (fun acc l => if a.is_true l then l.natAbs else acc) 0
  let sc1 := { sc with
    crit_var := sc.crit_var ++ [if t = 1 then cv else 0]
    num_true_lit := sc.num_true_lit ++ [(t : Int)] }
  if t = 1 then
    (sc1.increment_break_score cv, fl)
  else if t = 0 then
    (sc1, fl.add idx)
  else
    (sc1, fl)

def initLoop (a : Assignment) : List (List Int) → Nat → Scores × Falselist →
    Scores × Falselist
  | [], _, st => st
  | cl :: rest, idx, st => initLoop a rest (idx + 1) (initStep a st idx cl)

/-- `Scores.__init__(formula, assignment, falselist)` with a fresh falselist. -/
def initState (F : Formula) (a : Assignment) : BState :=
  let sc0 : Scores :=
    { crit_var := []
      num_true_lit := []
      breaks := fun _ => 0
      best_score := 0
      buckets := fun s => if s = 0 then Finset.Icc 1 F.num_vars else ∅ }
  let r := initLoop a F.clauses 0 (sc0, Falselist.empty)
  ⟨a, r.2, r.1⟩

def applyFlips (F : Formula) (st : BState) (ws : List Nat) : BState :=
  ws.foldl (fun s v => flip F v s) st

end Scores

/-! ## Falselist well-formedness

The dense array and the position map stay in sync: `mapping` is exactly
first-index-of over `lst`, and `lst` has no duplicates. -/

/-- First index of `x` in a list, or `none`. -/
def idxOf? (x : Nat) : List Nat → Option Nat
  | [] => none
  | y :: t => if y = x then some 0 else (idxOf? x t).map (· + 1)

def FlWf (fl : Falselist) : Prop :=
  fl.lst.Nodup ∧ ∀ x, fl.mapping x = idxOf? x fl.lst

theorem idxOf?_eq_none_iff {x : Nat} {l : List Nat} : idxOf? x l = none ↔ x ∉ l := by
  induction l with
  | nil => simp [idxOf?]
  | cons y t ih =>
    by_cases h : y = x
    · subst h
      simp [idxOf?]
    · simp [idxOf?, h, Option.map_eq_none', ih, Ne.symm h]

theorem idxOf?_eq_some_iff {x : Nat} {l : List Nat} (hnd : l.Nodup) {i : Nat} :
    idxOf? x l = some i ↔ l[i]? = some x := by
  induction l generalizing i with
  | nil => simp [idxOf?]
  | cons y t ih =>
    rcases List.nodup_cons.mp hnd with ⟨hy, hnd'⟩
    by_cases h : y = x
    · subst h
      cases i with
      | zero => simp [idxOf?]
      | succ j =>
        simp only [idxOf?, if_pos rfl, List.getElem?_cons_succ]
        constructor
        · intro hc; exact absurd hc (by simp)
        · intro hc; exact absurd (List.getElem?_mem hc) hy
    · cases i with
      | zero =>
        simp only [idxOf?, if_neg h, List.getElem?_cons_zero]
        constructor
        · intro hc
          rcases Option.map_eq_some'.mp hc with ⟨j, _, hj⟩
          exact absurd hj (by simp)
        · intro hc; exact absurd (Option.some.inj hc) h
      | succ j =>
        simp only [idxOf?, if_neg h, List.getElem?_cons_succ]
        rw [← ih hnd']
        constructor
        · intro hc
          rcases Option.map_eq_some'.mp hc with ⟨k, hk, hkj⟩
          obtain rfl : k = j := by omega
          exact hk
        · intro hc; exact Option.map_eq_some'.mpr ⟨j, hc, rfl⟩

theorem idxOf?_append_self {x : Nat} {l : List Nat} (hx : x ∉ l) :
    idxOf? x (l ++ [x]) = some l.length := by
  induction l with
  | nil => simp [idxOf?]
  | cons y t ih =>
    have hyx : y ≠ x := by rintro rfl; exact hx (by simp)
    have ht : x ∉ t := fun hc => hx (List.mem_cons_of_mem _ hc)
    show (if y = x then some 0 else (idxOf? x (t ++ [x])).map (· + 1)) = _
    rw [if_neg hyx, ih ht]
    rfl

theorem idxOf?_append_ne {x y : Nat} {l : List Nat} (hxy : y ≠ x) :
    idxOf? y (l ++ [x]) = idxOf? y l := by
  induction l with
  | nil =>
    show (if x = y then some 0 else (idxOf? y ([] : List Nat)).map (· + 1)) = _
    rw [if_neg (fun hc => hxy hc.symm)]
    rfl
  | cons z t ih =>
    show (if z = y then some 0 else (idxOf? y (t ++ [x])).map (· + 1))
      = (if z = y then some 0 else (idxOf? y t).map (· + 1))
    rw [ih]

theorem flwf_add {fl : Falselist} {x : Nat} (h : FlWf fl) (hx : x ∉ fl.lst) :
    FlWf (fl.add x) ∧ (fl.add x).lst = fl.lst ++ [x] := by
  constructor
  · constructor
    · show (fl.lst ++ [x]).Nodup
      rw [List.nodup_append]
      refine ⟨h.1, List.nodup_singleton x, ?_⟩
      intro a ha hb
      rw [List.mem_singleton] at hb
      subst hb
      exact hx ha
    · intro y
      show Function.update fl.mapping x (some fl.lst.length) y = idxOf? y (fl.lst ++ [x])
      by_cases hyx : y = x
      · subst hyx
        rw [Function.update_same, idxOf?_append_self hx]
      · rw [Function.update_noteq hyx, h.2 y, idxOf?_append_ne hyx]
  · rfl

theorem getD_eq_of_getElem? {l : List Nat} {i x d : Nat} (h : l[i]? = some x) :
    l.getD i d = x := by
  simp [List.getD_eq_getElem?_getD, h]

theorem getElem?_dropLast' {α : Type} {l : List α} {j : Nat} (hj : j < l.length - 1) :
    l.dropLast[j]? = l[j]? := by
  rw [List.dropLast_eq_take, List.getElem?_take, if_pos hj]

/-- Correctness of swap-with-last removal. -/
theorem flwf_remove {fl : Falselist} {x : Nat} (h : FlWf fl) (hx : x ∈ fl.lst) :
    FlWf (fl.remove x) ∧ (∀ y, y ∈ (fl.remove x).lst ↔ (y ∈ fl.lst ∧ y ≠ x)) := by
  obtain ⟨hnd, hmap⟩ := h
  obtain ⟨i, hi⟩ : ∃ i, fl.mapping x = some i := by
    rw [hmap]
    cases hidx : idxOf? x fl.lst with
    | none => exact absurd hx (idxOf?_eq_none_iff.mp hidx)
    | some j => exact ⟨j, rfl⟩
  have hgi : fl.lst[i]? = some x := (idxOf?_eq_some_iff hnd).mp (hmap x ▸ hi)
  have hilen : i < fl.lst.length := by
    by_contra hc
    rw [List.getElem?_eq_none (by omega)] at hgi
    cases hgi
  have htmp : fl.lst.getD i 0 = x := getD_eq_of_getElem? hgi
  have hlen0 : fl.lst ≠ [] := by
    intro hc
    rw [hc] at hx
    cases hx
  by_cases hlast : i = fl.lst.length - 1
  · -- x sits at the end; simple pop
    have hres : fl.remove x =
        ⟨fl.lst.dropLast, Function.update fl.mapping x none⟩ := by
      rw [Falselist.remove, hi]; simp only [htmp, if_pos hlast]
    have hdrop : fl.lst = fl.lst.dropLast ++ [x] := by
      conv_lhs => rw [← List.dropLast_append_getLast hlen0]
      have h2 : fl.lst.getLast hlen0 = x := by
        have e : fl.lst[fl.lst.length - 1]? = some x := by rw [← hlast]; exact hgi
        rw [List.getElem?_eq_getElem (by omega)] at e
        rw [List.getLast_eq_getElem fl.lst hlen0]
        exact Option.some.inj e
      rw [h2]
    have hxnd : x ∉ fl.lst.dropLast := by
      intro hc
      have h3 := hnd
      rw [hdrop, List.nodup_append] at h3
      exact h3.2.2 hc (by simp)
    have hndrop : fl.lst.dropLast.Nodup := List.Sublist.nodup (List.dropLast_sublist _) hnd
    refine ⟨⟨by rw [hres]; exact hndrop, ?_⟩, ?_⟩
    · intro y
      rw [hres]
      by_cases hyx : y = x
      · subst hyx
        show Function.update fl.mapping y none y = idxOf? y fl.lst.dropLast
        rw [Function.update_same, idxOf?_eq_none_iff.mpr hxnd]
      · show Function.update fl.mapping x none y = _
        rw [Function.update_noteq hyx, hmap y]
        conv_lhs => rw [hdrop]
        exact idxOf?_append_ne hyx
    · intro y
      rw [hres]
      show y ∈ fl.lst.dropLast ↔ _
      constructor
      · intro hc
        refine ⟨by rw [hdrop]; exact List.mem_append_left _ hc, ?_⟩
        rintro rfl; exact hxnd hc
      · rintro ⟨hy, hyx⟩
        rw [hdrop] at hy
        rcases List.mem_append.mp hy with h1 | h1
        · exact h1
        · simp at h1; exact absurd h1 hyx
  · -- swap the last element into position i, then pop
    set n := fl.lst.length with hn
    have hi2 : i < n - 1 := by omega
    set z := fl.lst.getD (n - 1) 0 with hz
    have hglast : fl.lst[n-1]? = some z := by
      rw [List.getElem?_eq_getElem (by omega), hz,
        List.getD_eq_getElem fl.lst 0 (show n-1 < n by omega)]
    have hzx : z ≠ x := by
      intro hc
      have h1 : idxOf? x fl.lst = some i := hmap x ▸ hi
      have h2 : idxOf? x fl.lst = some (n-1) := (idxOf?_eq_some_iff hnd).mpr (hc ▸ hglast)
      rw [h1] at h2
      exact hlast (Option.some.inj h2)
    have hres : fl.remove x =
        ⟨(fl.lst.set i z).dropLast,
         Function.update (Function.update fl.mapping z (some i)) x none⟩ := by
      rw [Falselist.remove, hi]; simp only [htmp, if_neg hlast]
    set l' := (fl.lst.set i z).dropLast with hl'
    have hlen'' : l'.length = n - 1 := by simp [hl']
    have hset : ∀ j, j < n - 1 → l'[j]? = if j = i then some z else fl.lst[j]? := by
      intro j hj
      rw [hl', getElem?_dropLast' (by simpa using hj), List.getElem?_set]
      by_cases hji : j = i
      · subst hji; simp [hilen]
      · rw [if_neg (fun hc : i = j => hji hc.symm), if_neg hji]
    have hentry : ∀ j (hj : j < n - 1),
        l'[j]? = some (if j = i then z else fl.lst.get ⟨j, by omega⟩) := by
      intro j hj
      rw [hset j hj]
      by_cases hji : j = i
      · simp [hji]
      · simp [hji, List.getElem?_eq_getElem (show j < n by omega)]
    have hlinj : ∀ p q (hp : p < n) (hq : q < n),
        fl.lst.get ⟨p, hp⟩ = fl.lst.get ⟨q, hq⟩ → p = q := by
      intro p q hp hq hpq
      exact (List.Nodup.getElem_inj_iff hnd).mp hpq
    have hnd' : l'.Nodup := by
      rw [List.nodup_iff_injective_get]
      rintro ⟨j, hj⟩ ⟨k, hk⟩ hjk
      have hjn : j < n - 1 := hlen'' ▸ hj
      have hkn : k < n - 1 := hlen'' ▸ hk
      have e1 : l'[j]? = some (l'.get ⟨j, hj⟩) := by
        rw [List.getElem?_eq_getElem hj]; rfl
      have e2 : l'[k]? = some (l'.get ⟨k, hk⟩) := by
        rw [List.getElem?_eq_getElem hk]; rfl
      rw [hentry j hjn] at e1
      rw [hentry k hkn] at e2
      have hv : (if j = i then z else fl.lst.get ⟨j, by omega⟩)
          = (if k = i then z else fl.lst.get ⟨k, by omega⟩) := by
        have q1 := Option.some.inj e1
        have q2 := Option.some.inj e2
        rw [q1, q2, hjk]
      have hzl : z = fl.lst.get ⟨n - 1, by omega⟩ :=
        List.getD_eq_getElem fl.lst 0 (by omega)
      apply Fin.ext
      show j = k
      by_cases h1 : j = i <;> by_cases h2 : k = i
      · omega
      · rw [if_pos h1, if_neg h2] at hv
        have hv2 : fl.lst.get ⟨n - 1, by omega⟩ = fl.lst.get ⟨k, by omega⟩ := by
          rw [← hzl]; exact hv
        have := hlinj _ _ (by omega) (by omega) hv2
        omega
      · rw [if_neg h1, if_pos h2] at hv
        have hv2 : fl.lst.get ⟨j, by omega⟩ = fl.lst.get ⟨n - 1, by omega⟩ := by
          rw [← hzl]; exact hv
        have := hlinj _ _ (by omega) (by omega) hv2
        omega
      · rw [if_neg h1, if_neg h2] at hv
        exact hlinj _ _ (by omega) (by omega) hv
    have hxi : fl.lst.get ⟨i, hilen⟩ = x := by
      rw [List.getElem?_eq_getElem hilen] at hgi
      exact Option.some.inj hgi
    have hmem' : ∀ y, y ∈ l' ↔ (y ∈ fl.lst ∧ y ≠ x) := by
      intro y
      constructor
      · intro hy
        rcases List.mem_iff_getElem?.mp hy with ⟨j, hj⟩
        have hjlen : j < n - 1 := by
          by_contra hc
          rw [List.getElem?_eq_none (by omega)] at hj
          cases hj
        rw [hentry j hjlen] at hj
        have hj' := Option.some.inj hj
        by_cases hji : j = i
        · rw [if_pos hji] at hj'
          subst hj'
          constructor
          · have hzl2 : z = fl.lst.get ⟨n - 1, by omega⟩ :=
              List.getD_eq_getElem fl.lst 0 (by omega)
            rw [hzl2]
            exact List.getElem_mem _
          · exact hzx
        · rw [if_neg hji] at hj'
          subst hj'
          refine ⟨List.getElem_mem _, fun hc => ?_⟩
          exact hji (hlinj _ _ (by omega) hilen (hc.trans hxi.symm))
      · rintro ⟨hy, hyx⟩
        rcases List.mem_iff_getElem?.mp hy with ⟨j, hj⟩
        have hjn : j < n := by
          by_contra hc
          rw [List.getElem?_eq_none (by omega)] at hj
          cases hj
        rw [List.getElem?_eq_getElem hjn] at hj
        have hj' := Option.some.inj hj
        have hji : j ≠ i := by
          intro hc; subst hc
          exact hyx (hj'.symm.trans hxi)
        by_cases hjl : j = n - 1
        · -- y is the last element, i.e. y = z; it now sits at position i
          have hzl2 : z = fl.lst.get ⟨n - 1, by omega⟩ :=
            List.getD_eq_getElem fl.lst 0 (by omega)
          subst hjl
          have hyz : y = z := hj'.symm.trans hzl2.symm
          rw [List.mem_iff_getElem?]
          exact ⟨i, by rw [hentry i hi2, if_pos rfl, hyz]⟩
        · have hjlen : j < n - 1 := by omega
          rw [List.mem_iff_getElem?]
          exact ⟨j, by rw [hentry j hjlen, if_neg hji]; exact congrArg some hj'⟩
    refine ⟨⟨by rw [hres]; exact hnd', ?_⟩, by intro y; rw [hres]; exact hmem' y⟩
    intro y
    rw [hres]
    show Function.update (Function.update fl.mapping z (some i)) x none y = idxOf? y l'
    by_cases hyx : y = x
    · subst hyx
      rw [Function.update_same]
      symm
      rw [idxOf?_eq_none_iff]
      intro hc
      exact ((hmem' y).mp hc).2 rfl
    · rw [Function.update_noteq hyx]
      by_cases hyz : y = z
      · subst hyz
        rw [Function.update_same]
        symm
        rw [idxOf?_eq_some_iff hnd', hentry i hi2, if_pos rfl]
      · rw [Function.update_noteq hyz, hmap y]
        by_cases hy : y ∈ fl.lst
        · rcases List.mem_iff_getElem?.mp hy with ⟨j, hj⟩
          have hjn : j < n := by
            by_contra hc
            rw [List.getElem?_eq_none (by omega)] at hj
            cases hj
          have hji : j ≠ i := by
            intro hc; subst hc
            rw [List.getElem?_eq_getElem hilen] at hj
            exact hyx ((Option.some.inj hj).symm.trans hxi)
          have hjl : j ≠ n - 1 := by
            intro hc; subst hc
            rw [hglast] at hj
            exact hyz (Option.some.inj hj).symm
          rw [(idxOf?_eq_some_iff hnd).mpr hj]
          symm
          rw [idxOf?_eq_some_iff hnd', hentry j (by omega), if_neg hji]
          rw [List.getElem?_eq_getElem hjn] at hj
          exact hj
        · rw [idxOf?_eq_none_iff.mpr hy]
          symm
          rw [idxOf?_eq_none_iff]
          intro hc
          exact hy ((hmem' y).mp hc).1

/-! ## Literal semantics -/

/-- The literal of variable `v` that is true under `a`. -/
def satLit (a : Assignment) (v : Nat) : Int :=
  if a.is_true (v : Int) then (v : Int) else -(v : Int)

/-- Number of literals of a clause that are true under `a`. -/
def trueCount (a : Assignment) (cl : List Int) : Nat :=
  cl.countP (fun l => a.is_true l)

/-- The variable of the first true literal of the clause; when
`trueCount a cl = 1` this is the critical variable. -/
def utv (a : Assignment) (cl : List Int) : Nat :=
  ((cl.filter (fun l => a.is_true l)).headD 0).natAbs

namespace Assignment

theorem is_true_coe (a : Assignment) {v : Nat} (hv : 1 ≤ v) :
    a.is_true (v : Int) = a.get_value v := by
  unfold is_true
  rw [if_pos (by exact_mod_cast hv)]
  simp

theorem is_true_neg_coe (a : Assignment) {v : Nat} (hv : 1 ≤ v) :
    a.is_true (-(v : Int)) = !(a.get_value v) := by
  unfold is_true
  rw [if_neg (by omega)]
  simp

theorem get_value_flip_self (a : Assignment) {v : Nat} (hv : 1 ≤ v)
    (hlen : v ≤ a.atoms.length) : (a.flip v).get_value v = !(a.get_value v) := by
  unfold flip get_value
  simp only [List.getD_eq_getElem?_getD, List.getElem?_set, if_pos rfl]
  rw [if_pos (show v - 1 < a.atoms.length by omega)]
  simp

theorem get_value_flip_ne (a : Assignment) {v w : Nat} (hv : 1 ≤ v) (hw : 1 ≤ w)
    (hne : w ≠ v) : (a.flip v).get_value w = a.get_value w := by
  unfold flip get_value
  simp only [List.getD_eq_getElem?_getD, List.getElem?_set]
  rw [if_neg (show ¬(v - 1 = w - 1) by omega)]

end Assignment

theorem satLit_natAbs (a : Assignment) {v : Nat} (hv : 1 ≤ v) :
    (satLit a v).natAbs = v := by
  unfold satLit
  by_cases h : a.is_true (v : Int) <;> simp [h]

theorem satLit_ne_zero (a : Assignment) {v : Nat} (hv : 1 ≤ v) : satLit a v ≠ 0 := by
  intro hc
  have := satLit_natAbs a hv
  rw [hc] at this
  simp at this
  omega

theorem neg_satLit_ne (a : Assignment) {v : Nat} (hv : 1 ≤ v) :
    -satLit a v ≠ satLit a v := by
  have := satLit_ne_zero a hv
  omega

theorem is_true_satLit (a : Assignment) {v : Nat} (hv : 1 ≤ v) :
    a.is_true (satLit a v) = true := by
  unfold satLit
  by_cases h : a.is_true (v : Int)
  · rw [if_pos h]; exact h
  · rw [if_neg h]
    rw [a.is_true_coe hv] at h
    rw [a.is_true_neg_coe hv]
    simp [Bool.not_eq_true] at h
    simp [h]

theorem is_true_neg_satLit (a : Assignment) {v : Nat} (hv : 1 ≤ v) :
    a.is_true (-satLit a v) = false := by
  unfold satLit
  by_cases h : a.is_true (v : Int)
  · rw [if_pos h]
    rw [a.is_true_coe hv] at h
    rw [a.is_true_neg_coe hv, h]
    rfl
  · rw [if_neg h, neg_neg]
    rw [a.is_true_coe hv] at h ⊢
    simp [Bool.not_eq_true] at h
    simp [h]

/-- A nonzero literal of variable `v` is one of the two `v`-literals. -/
theorem lit_eq_satLit_or (a : Assignment) {v : Nat} {l : Int} (hv : 1 ≤ v)
    (h0 : l ≠ 0) (habs : l.natAbs = v) :
    l = satLit a v ∨ l = -satLit a v := by
  unfold satLit
  rcases Int.natAbs_eq l with h | h <;> rw [habs] at h
  · by_cases ht : a.is_true (v : Int) <;> simp [ht, h]
  · by_cases ht : a.is_true (v : Int) <;> simp [ht, h]

theorem is_true_iff_eq_satLit (a : Assignment) {v : Nat} {l : Int} (hv : 1 ≤ v)
    (h0 : l ≠ 0) (habs : l.natAbs = v) :
    a.is_true l = true ↔ l = satLit a v := by
  rcases lit_eq_satLit_or a hv h0 habs with h | h
  · rw [h]
    simp [is_true_satLit a hv]
  · rw [h]
    simp [is_true_neg_satLit a hv]
    exact neg_satLit_ne a hv

theorem is_true_flip_ne (a : Assignment) {v : Nat} {l : Int} (hv : 1 ≤ v)
    (h0 : l ≠ 0) (habs : l.natAbs ≠ v) :
    (a.flip v).is_true l = a.is_true l := by
  unfold Assignment.is_true
  rw [a.get_value_flip_ne hv (by omega) habs]

theorem is_true_flip_self (a : Assignment) {v : Nat} {l : Int} (hv : 1 ≤ v)
    (hlen : v ≤ a.atoms.length) (h0 : l ≠ 0) (habs : l.natAbs = v) :
    (a.flip v).is_true l = !(a.is_true l) := by
  unfold Assignment.is_true
  rw [habs, a.get_value_flip_self hv hlen]
  by_cases h : 0 < l <;> simp [h]

theorem satLit_flip (a : Assignment) {v : Nat} (hv : 1 ≤ v)
    (hlen : v ≤ a.atoms.length) : satLit (a.flip v) v = -satLit a v := by
  unfold satLit
  rw [(a.flip v).is_true_coe hv, a.is_true_coe hv, a.get_value_flip_self hv hlen]
  by_cases h : a.get_value v <;> simp [h]

/-- Effect of a flip on a clause's number of true literals. -/
theorem trueCount_flip (a : Assignment) {v : Nat} (hv : 1 ≤ v)
    (hlen : v ≤ a.atoms.length) {cl : List Int} (h0 : ∀ l ∈ cl, l ≠ 0)
    (hnd : (cl.map Int.natAbs).Nodup) :
    (trueCount (a.flip v) cl : Int)
      = (trueCount a cl : Int) + (if -satLit a v ∈ cl then 1 else 0)
        - (if satLit a v ∈ cl then 1 else 0) := by
  induction cl with
  | nil => simp [trueCount]
  | cons l t ih =>
    rw [List.map_cons, List.nodup_cons] at hnd
    have h0l : l ≠ 0 := h0 l (List.mem_cons_self l t)
    have h0t : ∀ x ∈ t, x ≠ 0 := fun x hx => h0 x (List.mem_cons_of_mem _ hx)
    have iht := ih h0t hnd.2
    unfold trueCount at iht ⊢
    rw [List.countP_cons, List.countP_cons]
    by_cases habs : l.natAbs = v
    · -- the head is THE v-literal of the clause
      have hnosat : satLit a v ∉ t := by
        intro hc
        apply hnd.1
        have he : (satLit a v).natAbs = l.natAbs := by rw [satLit_natAbs a hv, habs]
        rw [← he]
        exact List.mem_map_of_mem Int.natAbs hc
      have hnonsat : -satLit a v ∉ t := by
        intro hc
        apply hnd.1
        have he : (-satLit a v).natAbs = l.natAbs := by
          rw [Int.natAbs_neg, satLit_natAbs a hv, habs]
        rw [← he]
        exact List.mem_map_of_mem Int.natAbs hc
      have hcongr : t.countP (fun x => (a.flip v).is_true x)
          = t.countP (fun x => a.is_true x) := by
        apply List.countP_congr
        intro x hx
        have hxv : x.natAbs ≠ v := by
          intro hc
          apply hnd.1
          rw [habs, ← hc]
          exact List.mem_map_of_mem Int.natAbs hx
        rw [is_true_flip_ne a hv (h0t x hx) hxv]
      have hl := is_true_flip_self a hv hlen h0l habs
      rcases lit_eq_satLit_or a hv h0l habs with hsg | hsg
      · have ht : a.is_true l = true := by
          rw [hsg]; exact is_true_satLit a hv
        have hmem1 : satLit a v ∈ l :: t := by rw [← hsg]; exact List.mem_cons_self l t
        have hmem2 : -satLit a v ∉ l :: t := by
          intro hc
          rcases List.mem_cons.mp hc with h | h
          · rw [hsg] at h; exact neg_satLit_ne a hv h
          · exact hnonsat h
        rw [if_pos hmem1, if_neg hmem2, hcongr,
          if_neg (show ¬((a.flip v).is_true l = true) by rw [hl, ht]; simp),
          if_pos ht]
        push_cast
        omega
      · have ht : a.is_true l = false := by
          rw [hsg]; exact is_true_neg_satLit a hv
        have hmem1 : satLit a v ∉ l :: t := by
          intro hc
          rcases List.mem_cons.mp hc with h | h
          · rw [hsg] at h; exact neg_satLit_ne a hv h.symm
          · exact hnosat h
        have hmem2 : -satLit a v ∈ l :: t := by rw [← hsg]; exact List.mem_cons_self l t
        rw [if_neg hmem1, if_pos hmem2, hcongr,
          if_pos (show (a.flip v).is_true l = true by rw [hl, ht]; rfl),
          if_neg (show ¬(a.is_true l = true) by rw [ht]; simp)]
        push_cast
        omega
    · -- the head concerns a different variable
      have hlne : (a.flip v).is_true l = a.is_true l := is_true_flip_ne a hv h0l habs
      have hm1 : (satLit a v ∈ l :: t) ↔ (satLit a v ∈ t) := by
        rw [List.mem_cons]
        constructor
        · rintro (h | h)
          · exfalso
            apply habs
            rw [← h]
            exact satLit_natAbs a hv
          · exact h
        · exact fun h => Or.inr h
      have hm2 : (-satLit a v ∈ l :: t) ↔ (-satLit a v ∈ t) := by
        rw [List.mem_cons]
        constructor
        · rintro (h | h)
          · exfalso
            apply habs
            rw [← h, Int.natAbs_neg]
            exact satLit_natAbs a hv
          · exact h
        · exact fun h => Or.inr h
      rw [hlne]
      simp only [hm1, hm2]
      split_ifs at iht ⊢ <;> push_cast at iht ⊢ <;> omega

/-! ## The unique true literal of a clause -/

theorem trueLits_singleton {a : Assignment} {cl : List Int}
    (h : trueCount a cl = 1) :
    ∃ l, cl.filter (fun x => a.is_true x) = [l] := by
  unfold trueCount at h
  rw [List.countP_eq_length_filter] at h
  exact List.length_eq_one.mp h

theorem utv_spec {a : Assignment} {cl : List Int} {l : Int}
    (hf : cl.filter (fun x => a.is_true x) = [l]) :
    utv a cl = l.natAbs ∧ l ∈ cl ∧ a.is_true l = true
    ∧ ∀ x ∈ cl, a.is_true x = true → x = l := by
  have hl : l ∈ cl.filter (fun x => a.is_true x) := by
    rw [hf]; exact List.mem_singleton_self l
  refine ⟨by unfold utv; rw [hf]; rfl, (List.mem_filter.mp hl).1,
    (List.mem_filter.mp hl).2, ?_⟩
  intro x hx ht
  have hm : x ∈ cl.filter (fun x => a.is_true x) := List.mem_filter.mpr ⟨hx, ht⟩
  rw [hf] at hm
  exact List.mem_singleton.mp hm

/-- If the clause has exactly one true literal and `l₀` is a true literal of
it, the critical variable is `|l₀|`. -/
theorem utv_eq_of_true {a : Assignment} {cl : List Int} {l₀ : Int}
    (h : trueCount a cl = 1) (hm : l₀ ∈ cl) (ht : a.is_true l₀ = true) :
    utv a cl = l₀.natAbs := by
  obtain ⟨l, hf⟩ := trueLits_singleton h
  obtain ⟨hu, -, -, huniq⟩ := utv_spec hf
  rw [hu, huniq l₀ hm ht]

theorem utv_mem_Icc {a : Assignment} {cl : List Int} {N : Nat}
    (hwf : ClauseWf N cl) (h : trueCount a cl = 1) :
    utv a cl ∈ Finset.Icc 1 N := by
  obtain ⟨l, hf⟩ := trueLits_singleton h
  obtain ⟨hu, hm, -, -⟩ := utv_spec hf
  obtain ⟨h0, hle⟩ := hwf.1 l hm
  rw [Finset.mem_Icc, hu]
  omega

/-! ## Occurrence lists -/

theorem clauseWf_tail {N : Nat} {l : Int} {t : List Int} (h : ClauseWf N (l :: t)) :
    ClauseWf N t :=
  ⟨fun x hx => h.1 x (List.mem_cons_of_mem _ hx), (List.nodup_cons.mp h.2).2⟩

/-- Under well-formedness a clause contributes its index at most once. -/
theorem filterMap_occ_of_wf {N : Nat} {cl : List Int} (hwf : ClauseWf N cl)
    (lit : Int) (k : Nat) :
    cl.filterMap (fun l => if l = lit then some k else none)
      = if lit ∈ cl then [k] else [] := by
  induction cl with
  | nil => simp
  | cons l t ih =>
    rw [List.filterMap_cons]
    by_cases he : l = lit
    · subst he
      have hnot : l ∉ t := by
        intro hc
        exact (List.nodup_cons.mp hwf.2).1 (List.mem_map_of_mem Int.natAbs hc)
      rw [if_pos rfl]
      have : t.filterMap (fun x => if x = l then some k else none) = [] := by
        rw [List.filterMap_eq_nil]
        intro x hx
        rw [if_neg]
        intro hc
        subst hc
        exact hnot hx
      rw [this, if_pos (List.mem_cons_self l t)]
    · rw [if_neg he, ih (clauseWf_tail hwf)]
      by_cases hm : lit ∈ t
      · rw [if_pos hm, if_pos (List.mem_cons_of_mem _ hm)]
      · rw [if_neg hm, if_neg]
        intro hc
        rcases List.mem_cons.mp hc with h | h
        · exact he h.symm
        · exact hm h

theorem occAux_eq_filterMap {N : Nat} {cls : List (List Int)}
    (hwf : ∀ cl ∈ cls, ClauseWf N cl) (lit : Int) (k : Nat) :
    occAux lit cls k = (List.range cls.length).filterMap
      (fun j => if lit ∈ cls.getD j [] then some (k + j) else none) := by
  induction cls generalizing k with
  | nil => simp [occAux]
  | cons cl rest ih =>
    show (cl.filterMap fun l => if l = lit then some k else none) ++ occAux lit rest (k+1) = _
    rw [List.length_cons, List.range_succ_eq_map, List.filterMap_cons,
      List.filterMap_map]
    have h1 : (if lit ∈ (cl :: rest).getD 0 [] then some (k + 0) else none)
        = if lit ∈ cl then some k else none := by
      rw [List.getD_cons_zero]
      by_cases h : lit ∈ cl <;> simp [h]
    have h2 : ((fun j => if lit ∈ (cl :: rest).getD j [] then some (k + j) else none)
          ∘ Nat.succ)
        = fun j => if lit ∈ rest.getD j [] then some ((k + 1) + j) else none := by
      funext j
      show (if lit ∈ (cl :: rest).getD (j + 1) [] then some (k + (j + 1)) else none) = _
      rw [List.getD_cons_succ]
      have harith : k + (j + 1) = (k + 1) + j := by omega
      rw [harith]
    rw [h1, h2, filterMap_occ_of_wf (hwf cl (List.mem_cons_self _ _)) lit k,
      ih (fun c hc => hwf c (List.mem_cons_of_mem _ hc)) (k + 1)]
    by_cases h : lit ∈ cl <;> simp [h]

theorem get_occurrences_eq {F : Formula} (hwf : FormulaWf F) (lit : Int) :
    F.get_occurrences lit = (List.range F.clauses.length).filterMap
      (fun j => if lit ∈ F.clauses.getD j [] then some j else none) := by
  unfold Formula.get_occurrences
  rw [occAux_eq_filterMap hwf lit 0]
  congr 1
  funext j
  by_cases h : lit ∈ F.clauses.getD j [] <;> simp [h]

theorem mem_get_occurrences {F : Formula} (hwf : FormulaWf F) {lit : Int} {c : Nat} :
    c ∈ F.get_occurrences lit ↔ c < F.clauses.length ∧ lit ∈ F.clauses.getD c [] := by
  rw [get_occurrences_eq hwf, List.mem_filterMap]
  constructor
  · rintro ⟨j, hj, he⟩
    by_cases h : lit ∈ F.clauses.getD j []
    · rw [if_pos h] at he
      obtain rfl : j = c := Option.some.inj he
      exact ⟨List.mem_range.mp hj, h⟩
    · rw [if_neg h] at he; cases he
  · rintro ⟨hc, hm⟩
    exact ⟨c, List.mem_range.mpr hc, by rw [if_pos hm]⟩

theorem get_occurrences_nodup {F : Formula} (hwf : FormulaWf F) (lit : Int) :
    (F.get_occurrences lit).Nodup := by
  rw [get_occurrences_eq hwf]
  apply List.Nodup.filterMap
  · intro a b c ha hb
    by_cases h : lit ∈ F.clauses.getD a []
    · rw [if_pos h] at ha
      by_cases h' : lit ∈ F.clauses.getD b []
      · rw [if_pos h'] at hb
        rw [Option.mem_def] at ha hb
        exact (Option.some.inj ha).trans (Option.some.inj hb).symm
      · rw [if_neg h'] at hb; simp at hb
    · rw [if_neg h] at ha; simp at ha
  · exact List.nodup_range _

/-- A wf clause cannot contain both literals of one variable, so the two
occurrence scans of a flip touch disjoint clause sets. -/
theorem not_mem_both_occ {F : Formula} (hwf : FormulaWf F) {l1 l2 : Int} {c : Nat}
    (hne : l1 ≠ l2) (habs : l1.natAbs = l2.natAbs)
    (h1 : c ∈ F.get_occurrences l1) (h2 : c ∈ F.get_occurrences l2) : False := by
  obtain ⟨hc, hm1⟩ := (mem_get_occurrences hwf).mp h1
  obtain ⟨-, hm2⟩ := (mem_get_occurrences hwf).mp h2
  have hcl : F.clauses.getD c [] ∈ F.clauses := by
    rw [List.getD_eq_getElem _ _ hc]
    exact List.getElem_mem _
  exact hne (List.inj_on_of_nodup_map (hwf _ hcl).2 hm1 hm2 habs)

/-! ## Canonical form of the DIFF bucket structure

The two score primitives each preserve the following invariant outright:
buckets are exactly the score fibers over `1..N`, and `best_score` is the
maximum score.  In particular the spec's "transient violation during a
flip" never occurs at the granularity of whole primitive calls. -/

namespace DiffScores

def Canon (N : Nat) (ds : DiffScores) : Prop :=
  (∀ s : Int, ds.buckets s = (Finset.Icc 1 N).filter (fun w => ds.score w = s)) ∧
  (∃ w ∈ Finset.Icc 1 N, ds.score w = ds.best_score) ∧
  (∀ w ∈ Finset.Icc 1 N, ds.score w ≤ ds.best_score)

/-- Moving one variable between buckets (remove from its current bucket,
insert into its new one) keeps the buckets equal to the score fibers. -/
theorem buckets_move {N : Nat} (buckets : Int → Finset Nat) (score : Nat → Int)
    {v : Nat} {newv : Int}
    (hB : ∀ s : Int, buckets s = (Finset.Icc 1 N).filter (fun w => score w = s))
    (hv : v ∈ Finset.Icc 1 N) (hne : newv ≠ score v) (s : Int) :
    Function.update
      (Function.update buckets (score v) ((buckets (score v)).erase v))
      newv
      (insert v (Function.update buckets (score v)
        ((buckets (score v)).erase v) newv)) s
    = (Finset.Icc 1 N).filter (fun w => Function.update score v newv w = s) := by
  by_cases hs1 : s = newv
  · subst hs1
    rw [Function.update_same, Function.update_noteq hne, hB]
    ext w
    rcases eq_or_ne w v with rfl | hw
    · simp [hv]
    · simp only [Finset.mem_insert, Finset.mem_filter, Function.update_noteq hw]
      constructor
      · rintro (h | h)
        · exact absurd h hw
        · exact h
      · intro h; exact Or.inr h
  · rw [Function.update_noteq hs1]
    by_cases hs0 : s = score v
    · subst hs0
      rw [Function.update_same, hB]
      ext w
      rcases eq_or_ne w v with rfl | hw
      · simp only [Finset.mem_erase, Finset.mem_filter, Function.update_same]
        constructor
        · rintro ⟨hfalse, -⟩
          exact absurd rfl hfalse
        · rintro ⟨-, hc⟩
          exact absurd hc hne
      · simp only [Finset.mem_erase, Finset.mem_filter, Function.update_noteq hw]
        constructor
        · rintro ⟨-, h⟩; exact h
        · intro h; exact ⟨hw, h⟩
    · rw [Function.update_noteq hs0, hB]
      ext w
      rcases eq_or_ne w v with rfl | hw
      · simp only [Finset.mem_filter, Function.update_same]
        constructor
        · rintro ⟨-, h⟩; exact absurd h.symm hs0
        · rintro ⟨-, h⟩; exact absurd h.symm hs1
      · simp only [Finset.mem_filter, Function.update_noteq hw]

theorem increment_score_spec {N : Nat} {ds : DiffScores} {v : Nat}
    (hC : Canon N ds) (hv : v ∈ Finset.Icc 1 N) :
    Canon N (ds.increment_score v)
    ∧ (ds.increment_score v).score = Function.update ds.score v (ds.score v + 1)
    ∧ (ds.increment_score v).num_true_lit = ds.num_true_lit
    ∧ (ds.increment_score v).crit_var = ds.crit_var := by
  obtain ⟨hB, ⟨w₀, hw₀, hbest⟩, hmax⟩ := hC
  refine ⟨⟨?_, ?_, ?_⟩, rfl, rfl, rfl⟩
  · -- buckets remain the fibers of the updated score
    intro s
    exact buckets_move ds.buckets ds.score hB hv (by omega) s
  · -- the new best is attained
    show ∃ w ∈ Finset.Icc 1 N, Function.update ds.score v (ds.score v + 1) w
      = (if ds.best_score = ds.score v then ds.best_score + 1 else ds.best_score)
    by_cases hb : ds.best_score = ds.score v
    · refine ⟨v, hv, ?_⟩
      rw [Function.update_same, if_pos hb, hb]
    · refine ⟨w₀, hw₀, ?_⟩
      have hwv : w₀ ≠ v := by
        intro hc
        subst hc
        exact hb hbest.symm
      rw [Function.update_noteq hwv, if_neg hb, hbest]
  · -- nothing exceeds the new best
    intro w hw
    show Function.update ds.score v (ds.score v + 1) w
      ≤ (if ds.best_score = ds.score v then ds.best_score + 1 else ds.best_score)
    by_cases hwv : w = v
    · rw [hwv, Function.update_same]
      by_cases hb : ds.best_score = ds.score v
      · rw [if_pos hb]; omega
      · rw [if_neg hb]
        have h1 := hmax v hv
        omega
    · rw [Function.update_noteq hwv]
      have h1 := hmax w hw
      by_cases hb : ds.best_score = ds.score v
      · rw [if_pos hb]; omega
      · rw [if_neg hb]; exact h1

theorem decrement_score_spec {N : Nat} {ds : DiffScores} {v : Nat}
    (hC : Canon N ds) (hv : v ∈ Finset.Icc 1 N) :
    Canon N (ds.decrement_score v)
    ∧ (ds.decrement_score v).score = Function.update ds.score v (ds.score v - 1)
    ∧ (ds.decrement_score v).num_true_lit = ds.num_true_lit
    ∧ (ds.decrement_score v).crit_var = ds.crit_var := by
  obtain ⟨hB, ⟨w₀, hw₀, hbest⟩, hmax⟩ := hC
  refine ⟨⟨?_, ?_, ?_⟩, rfl, rfl, rfl⟩
  · intro s
    exact buckets_move ds.buckets ds.score hB hv (by omega) s
  · -- the new best is attained
    show ∃ w ∈ Finset.Icc 1 N, Function.update ds.score v (ds.score v - 1) w
      = (if ds.best_score = ds.score v ∧ (ds.buckets (ds.score v)).erase v = ∅
         then ds.best_score - 1 else ds.best_score)
    by_cases hcond : ds.best_score = ds.score v ∧ (ds.buckets (ds.score v)).erase v = ∅
    · refine ⟨v, hv, ?_⟩
      rw [Function.update_same, if_pos hcond, hcond.1]
    · rw [if_neg hcond]
      by_cases hb : ds.best_score = ds.score v
      · -- the bucket keeps another maximiser
        have hne : (ds.buckets (ds.score v)).erase v ≠ ∅ := by
          intro hc
          exact hcond ⟨hb, hc⟩
        rcases Finset.eq_empty_or_nonempty ((ds.buckets (ds.score v)).erase v) with hc | hne2
        · exact absurd hc hne
        obtain ⟨u, hu⟩ := hne2
        rw [hB] at hu
        obtain ⟨huv, hu2⟩ := Finset.mem_erase.mp hu
        obtain ⟨huI, hus⟩ := Finset.mem_filter.mp hu2
        refine ⟨u, huI, ?_⟩
        rw [Function.update_noteq huv, hus, hb]
      · refine ⟨w₀, hw₀, ?_⟩
        have hwv : w₀ ≠ v := by
          intro hc
          subst hc
          exact hb hbest.symm
        rw [Function.update_noteq hwv, hbest]
  · intro w hw
    show Function.update ds.score v (ds.score v - 1) w
      ≤ (if ds.best_score = ds.score v ∧ (ds.buckets (ds.score v)).erase v = ∅
         then ds.best_score - 1 else ds.best_score)
    by_cases hcond : ds.best_score = ds.score v ∧ (ds.buckets (ds.score v)).erase v = ∅
    · rw [if_pos hcond]
      by_cases hwv : w = v
      · rw [hwv, Function.update_same]
        have h1 := hcond.1
        omega
      · rw [Function.update_noteq hwv]
        -- w is not in the emptied bucket, so its score is below best
        have h1 := hmax w hw
        have h2 : ds.score w ≠ ds.score v := by
          intro hc
          have hwB : w ∈ (ds.buckets (ds.score v)).erase v := by
            rw [hB]
            exact Finset.mem_erase.mpr ⟨hwv, Finset.mem_filter.mpr ⟨hw, hc⟩⟩
          rw [hcond.2] at hwB
          exact absurd hwB (Finset.not_mem_empty w)
        have h3 := hcond.1
        omega
    · rw [if_neg hcond]
      by_cases hwv : w = v
      · rw [hwv, Function.update_same]
        have h1 := hmax v hv
        omega
      · rw [Function.update_noteq hwv]
        exact hmax w hw

/-- Characterisation of the unguarded decrement loop over a clause. -/
theorem foldl_decrement_spec {N : Nat} {cl : List Int} {ds : DiffScores}
    (hC : Canon N ds) (h : ∀ l ∈ cl, l.natAbs ∈ Finset.Icc 1 N) :
    Canon N (cl.foldl (fun d l => d.decrement_score l.natAbs) ds)
    ∧ (cl.foldl (fun d l => d.decrement_score l.natAbs) ds).score
        = (fun w => ds.score w - (cl.countP (fun l => l.natAbs = w) : Int))
    ∧ (cl.foldl (fun d l => d.decrement_score l.natAbs) ds).num_true_lit
        = ds.num_true_lit
    ∧ (cl.foldl (fun d l => d.decrement_score l.natAbs) ds).crit_var
        = ds.crit_var := by
  induction cl generalizing ds with
  | nil =>
    refine ⟨hC, ?_, rfl, rfl⟩
    funext w
    simp
  | cons l t ih =>
    obtain ⟨hC1, hs1, hn1, hc1⟩ :=
      decrement_score_spec hC (h l (List.mem_cons_self l t))
    obtain ⟨hC2, hs2, hn2, hc2⟩ :=
      ih hC1 (fun x hx => h x (List.mem_cons_of_mem _ hx))
    refine ⟨hC2, ?_, by rw [List.foldl_cons] at *; rw [hn2, hn1],
      by rw [List.foldl_cons] at *; rw [hc2, hc1]⟩
    rw [List.foldl_cons] at *
    rw [hs2]
    funext w
    rw [hs1, List.countP_cons]
    by_cases hw : w = l.natAbs
    · subst hw
      rw [Function.update_same, if_pos (by simp)]
      push_cast
      ring
    · rw [Function.update_noteq hw, if_neg (show ¬(decide (l.natAbs = w) = true) by
        simp only [decide_eq_true_eq]
        exact fun hc => hw hc.symm)]
      push_cast
      ring

/-- Characterisation of the unguarded increment loop over a clause. -/
theorem foldl_increment_spec {N : Nat} {cl : List Int} {ds : DiffScores}
    (hC : Canon N ds) (h : ∀ l ∈ cl, l.natAbs ∈ Finset.Icc 1 N) :
    Canon N (cl.foldl (fun d l => d.increment_score l.natAbs) ds)
    ∧ (cl.foldl (fun d l => d.increment_score l.natAbs) ds).score
        = (fun w => ds.score w + (cl.countP (fun l => l.natAbs = w) : Int))
    ∧ (cl.foldl (fun d l => d.increment_score l.natAbs) ds).num_true_lit
        = ds.num_true_lit
    ∧ (cl.foldl (fun d l => d.increment_score l.natAbs) ds).crit_var
        = ds.crit_var := by
  induction cl generalizing ds with
  | nil =>
    refine ⟨hC, ?_, rfl, rfl⟩
    funext w
    simp
  | cons l t ih =>
    obtain ⟨hC1, hs1, hn1, hc1⟩ :=
      increment_score_spec hC (h l (List.mem_cons_self l t))
    obtain ⟨hC2, hs2, hn2, hc2⟩ :=
      ih hC1 (fun x hx => h x (List.mem_cons_of_mem _ hx))
    refine ⟨hC2, ?_, by rw [List.foldl_cons] at *; rw [hn2, hn1],
      by rw [List.foldl_cons] at *; rw [hc2, hc1]⟩
    rw [List.foldl_cons] at *
    rw [hs2]
    funext w
    rw [hs1, List.countP_cons]
    by_cases hw : w = l.natAbs
    · subst hw
      rw [Function.update_same, if_pos (by simp)]
      push_cast
      ring
    · rw [Function.update_noteq hw, if_neg (show ¬(decide (l.natAbs = w) = true) by
        simp only [decide_eq_true_eq]
        exact fun hc => hw hc.symm)]
      push_cast
      ring

end DiffScores

/-! ## Small `getD` helpers for list updates -/

theorem getD_set_eq {α : Type} {l : List α} {c : Nat} {x d : α} (h : c < l.length) :
    (l.set c x).getD c d = x := by
  rw [List.getD_eq_getElem?_getD, List.getElem?_set, if_pos rfl, if_pos h]
  rfl

theorem getD_set_ne {α : Type} {l : List α} {c c' : Nat} {x d : α} (h : c' ≠ c) :
    (l.set c x).getD c' d = l.getD c' d := by
  rw [List.getD_eq_getElem?_getD, List.getElem?_set,
    if_neg (fun hc => h hc.symm), ← List.getD_eq_getElem?_getD]

theorem getD_append_lt {α : Type} {l : List α} {x d : α} {c : Nat} (h : c < l.length) :
    (l ++ [x]).getD c d = l.getD c d := by
  rw [List.getD_eq_getElem?_getD, List.getElem?_append_left h,
    ← List.getD_eq_getElem?_getD]

theorem getD_append_len {α : Type} {l : List α} {x d : α} :
    (l ++ [x]).getD l.length d = x := by
  rw [List.getD_eq_getElem?_getD, List.getElem?_concat_length]
  rfl

/-- Under well-formedness, the number of literals of a clause over variable
`w` is an indicator. -/
theorem countVar_eq {N : Nat} {cl : List Int} (hwf : ClauseWf N cl) (w : Nat) :
    ((cl.countP (fun l => l.natAbs = w) : Nat) : Int)
      = if ∃ l ∈ cl, l.natAbs = w then 1 else 0 := by
  have h1 : cl.countP (fun l => l.natAbs = w) = (cl.map Int.natAbs).count w := by
    rw [List.count_eq_countP, List.countP_map]
    apply List.countP_congr
    intro x hx
    show (decide (x.natAbs = w) = true) ↔ _
    simp [Nat.beq_eq_true_eq]
  rw [h1]
  by_cases h : ∃ l ∈ cl, l.natAbs = w
  · rw [if_pos h]
    obtain ⟨l, hl, hlw⟩ := h
    have : w ∈ cl.map Int.natAbs := hlw ▸ List.mem_map_of_mem Int.natAbs hl
    rw [List.count_eq_one_of_mem hwf.2 this]
    rfl
  · rw [if_neg h]
    have : w ∉ cl.map Int.natAbs := by
      intro hc
      obtain ⟨l, hl, hlw⟩ := List.mem_map.mp hc
      exact h ⟨l, hl, hlw⟩
    rw [List.count_eq_zero_of_not_mem this]
    rfl

/-- If no literal of the clause concerns variable `v`, a flip of `v` leaves
its true-literal list unchanged. -/
theorem trueLits_flip_no_var {a : Assignment} {v : Nat} {cl : List Int}
    (hv : 1 ≤ v) (h0 : ∀ l ∈ cl, l ≠ 0) (hno : ∀ l ∈ cl, l.natAbs ≠ v) :
    cl.filter (fun l => (a.flip v).is_true l) = cl.filter (fun l => a.is_true l) :=
  List.filter_congr (fun l hl => is_true_flip_ne a hv (h0 l hl) (hno l hl))

theorem trueCount_flip_no_var {a : Assignment} {v : Nat} {cl : List Int}
    (hv : 1 ≤ v) (h0 : ∀ l ∈ cl, l ≠ 0) (hno : ∀ l ∈ cl, l.natAbs ≠ v) :
    trueCount (a.flip v) cl = trueCount a cl := by
  unfold trueCount
  rw [List.countP_eq_length_filter, List.countP_eq_length_filter,
    trueLits_flip_no_var hv h0 hno]

theorem utv_flip_no_var {a : Assignment} {v : Nat} {cl : List Int}
    (hv : 1 ≤ v) (h0 : ∀ l ∈ cl, l ≠ 0) (hno : ∀ l ∈ cl, l.natAbs ≠ v) :
    utv (a.flip v) cl = utv a cl := by
  unfold utv
  rw [trueLits_flip_no_var hv h0 hno]

theorem trueCount_pos_of_mem {a : Assignment} {cl : List Int} {l : Int}
    (hl : l ∈ cl) (ht : a.is_true l = true) : 1 ≤ trueCount a cl := by
  unfold trueCount
  exact List.countP_pos.mpr ⟨l, hl, ht⟩

/-- Changing `g` at one point of the summation range shifts the sum by the
difference at that point. -/
theorem sum_single_change {M c : Nat} (hc : c < M) (g g' : Nat → Int)
    (hoff : ∀ x, x < M → x ≠ c → g' x = g x) :
    ∑ x in Finset.range M, g' x = (∑ x in Finset.range M, g x) + (g' c - g c) := by
  have hcm : c ∈ Finset.range M := Finset.mem_range.mpr hc
  rw [← Finset.add_sum_erase _ g' hcm, ← Finset.add_sum_erase _ g hcm]
  have he : ∑ x in (Finset.range M).erase c, g' x
      = ∑ x in (Finset.range M).erase c, g x := by
    apply Finset.sum_congr rfl
    intro x hx
    obtain ⟨hxc, hxm⟩ := Finset.mem_erase.mp hx
    exact hoff x (Finset.mem_range.mp hxm) hxc
  rw [he]
  ring

namespace DiffScores

/-- Per-clause contribution to the self-test score of variable `w`,
computed purely from the scoreboard's own fields. -/
def specTerm (F : Formula) (ds : DiffScores) (w : Nat) (c : Nat) : Int :=
  (if ds.getNtl c = 0 ∧ (∃ l ∈ F.clauses.getD c [], l.natAbs = w) then 1 else 0)
  - (if ds.getNtl c = 1 ∧ ds.getCrit c = some w then 1 else 0)

/-- make − break of variable `w`, recomputed from the scoreboard fields over
the first `k` clauses. -/
def specS (F : Formula) (ds : DiffScores) (k : Nat) (w : Nat) : Int :=
  ∑ c in Finset.range k, specTerm F ds w c

end DiffScores

/-! ## The mid-flip invariant

During `DiffScores.flip`, a clause still waiting in the first scan (`S`) or
the second scan (`T`) is accounted at the pre-flip assignment `a₀`; every
other clause at the post-flip assignment `a'`. -/

def relA (a₀ a' : Assignment) (S T : List Nat) (c : Nat) : Assignment :=
  if c ∈ S ∨ c ∈ T then a₀ else a'

theorem relA_pop {a₀ a' : Assignment} {S T : List Nat} {c c' : Nat} (h : c' ≠ c) :
    relA a₀ a' (c :: S) T c' = relA a₀ a' S T c' := by
  unfold relA
  by_cases hS : c' ∈ S
  · rw [if_pos (Or.inl (List.mem_cons_of_mem _ hS)), if_pos (Or.inl hS)]
  · by_cases hT : c' ∈ T
    · rw [if_pos (Or.inr hT), if_pos (Or.inr hT)]
    · rw [if_neg, if_neg]
      · rintro (h1 | h1)
        · exact hS h1
        · exact hT h1
      · rintro (h1 | h1)
        · rcases List.mem_cons.mp h1 with h2 | h2
          · exact h h2
          · exact hS h2
        · exact hT h1

theorem relA_pop2 {a₀ a' : Assignment} {T : List Nat} {c c' : Nat} (h : c' ≠ c) :
    relA a₀ a' [] (c :: T) c' = relA a₀ a' [] T c' := by
  unfold relA
  by_cases hT : c' ∈ T
  · rw [if_pos (Or.inr (List.mem_cons_of_mem _ hT)), if_pos (Or.inr hT)]
  · rw [if_neg, if_neg]
    · rintro (h1 | h1)
      · simp at h1
      · exact hT h1
    · rintro (h1 | h1)
      · simp at h1
      · rcases List.mem_cons.mp h1 with h2 | h2
        · exact h h2
        · exact hT h2

theorem relA_head {a₀ a' : Assignment} {S T : List Nat} {c : Nat}
    (h : c ∈ S ∨ c ∈ T) : relA a₀ a' S T c = a₀ := if_pos h

theorem relA_out {a₀ a' : Assignment} {S T : List Nat} {c : Nat}
    (h1 : c ∉ S) (h2 : c ∉ T) : relA a₀ a' S T c = a' := by
  unfold relA
  rw [if_neg]
  rintro (h | h)
  · exact h1 h
  · exact h2 h

theorem relA_nil (a₀ a' : Assignment) (c : Nat) : relA a₀ a' [] [] c = a' := by
  unfold relA
  simp

namespace DiffScores

def MidInv (F : Formula) (a₀ a' : Assignment) (S T : List Nat)
    (ds : DiffScores) (fl : Falselist) : Prop :=
  ds.num_true_lit.length = F.clauses.length ∧
  ds.crit_var.length = F.clauses.length ∧
  (∀ c, c < F.clauses.length →
    ds.getNtl c = (trueCount (relA a₀ a' S T c) (F.clauses.getD c []) : Int)) ∧
  (∀ c, c < F.clauses.length →
    trueCount (relA a₀ a' S T c) (F.clauses.getD c []) = 1 →
    ds.getCrit c = some (utv (relA a₀ a' S T c) (F.clauses.getD c []))) ∧
  (∀ w ∈ Finset.Icc 1 F.num_vars, ds.score w = specS F ds F.clauses.length w) ∧
  Canon F.num_vars ds ∧
  FlWf fl ∧
  (∀ x, x ∈ fl.lst ↔ (x < F.clauses.length ∧ ds.getNtl x = 0))

end DiffScores

namespace DiffScores

theorem flipStep1_zero {F : Formula} {v₀ : Nat} {ds : DiffScores} {fl : Falselist}
    {c : Nat} (h : ds.getNtl c = 0) :
    flipStep1 F v₀ (ds, fl) c =
      (let ds2 := (F.clauses.getD c []).foldl (fun d l => d.decrement_score l.natAbs)
          (ds.decrement_score v₀)
       ({ ds2 with
          crit_var := ds2.crit_var.set c (some v₀)
          num_true_lit := ds2.num_true_lit.set c (ds.getNtl c + 1) }, fl.remove c)) := by
  simp only [flipStep1]
  rw [if_pos h]

theorem flipStep1_one {F : Formula} {v₀ : Nat} {ds : DiffScores} {fl : Falselist}
    {c : Nat} (h : ds.getNtl c = 1) :
    flipStep1 F v₀ (ds, fl) c =
      (let ds1 := ds.increment_score ((ds.getCrit c).getD 0)
       ({ ds1 with num_true_lit := ds1.num_true_lit.set c (ds.getNtl c + 1) }, fl)) := by
  simp only [flipStep1]
  rw [if_neg (by rw [h]; decide), if_pos h]

theorem flipStep1_other {F : Formula} {v₀ : Nat} {ds : DiffScores} {fl : Falselist}
    {c : Nat} (h0 : ds.getNtl c ≠ 0) (h1 : ds.getNtl c ≠ 1) :
    flipStep1 F v₀ (ds, fl) c =
      ({ ds with num_true_lit := ds.num_true_lit.set c (ds.getNtl c + 1) }, fl) := by
  simp only [flipStep1]
  rw [if_neg h0, if_neg h1]

theorem flipStep2_one {F : Formula} {v₀ : Nat} {a : Assignment} {ds : DiffScores}
    {fl : Falselist} {c : Nat} (h : ds.getNtl c = 1) :
    flipStep2 F v₀ a (ds, fl) c =
      (let ds2 := (F.clauses.getD c []).foldl (fun d l => d.increment_score l.natAbs)
          (ds.increment_score v₀)
       ({ ds2 with
          crit_var := ds2.crit_var.set c (some v₀)
          num_true_lit := ds2.num_true_lit.set c (ds.getNtl c - 1) }, fl.add c)) := by
  simp only [flipStep2]
  rw [if_pos h]

theorem flipStep2_two {F : Formula} {v₀ : Nat} {a : Assignment} {ds : DiffScores}
    {fl : Falselist} {c : Nat} (h : ds.getNtl c = 2) :
    flipStep2 F v₀ a (ds, fl) c =
      (let ds1 := (F.clauses.getD c []).foldl
          (fun d l =>
            if a.is_true l then
              ({ d with crit_var := d.crit_var.set c (some l.natAbs) }).decrement_score
                l.natAbs
            else d) ds
       ({ ds1 with num_true_lit := ds1.num_true_lit.set c (ds.getNtl c - 1) }, fl)) := by
  simp only [flipStep2]
  rw [if_neg (by rw [h]; decide), if_pos h]

theorem flipStep2_other {F : Formula} {v₀ : Nat} {a : Assignment} {ds : DiffScores}
    {fl : Falselist} {c : Nat} (h1 : ds.getNtl c ≠ 1) (h2 : ds.getNtl c ≠ 2) :
    flipStep2 F v₀ a (ds, fl) c =
      ({ ds with num_true_lit := ds.num_true_lit.set c (ds.getNtl c - 1) }, fl) := by
  simp only [flipStep2]
  rw [if_neg h1, if_neg h2]

end DiffScores

namespace DiffScores

set_option maxHeartbeats 2000000 in
/-- One clause step of the first scan of `DiffScores.flip` preserves the
mid-flip invariant, discharging the pending clause `c`. -/
theorem flipStep1_midinv {F : Formula} (hwf : FormulaWf F) {a₀ : Assignment}
    {v₀ : Nat} (hv : v₀ ∈ Finset.Icc 1 F.num_vars)
    (hlen : a₀.atoms.length = F.num_vars)
    {S T : List Nat} {c : Nat} {ds : DiffScores} {fl : Falselist}
    (hc : c < F.clauses.length) (hcS : c ∉ S) (hcT : c ∉ T)
    (hsat : satLit (a₀.flip v₀) v₀ ∈ F.clauses.getD c [])
    (hinv : MidInv F a₀ (a₀.flip v₀) (c :: S) T ds fl) :
    MidInv F a₀ (a₀.flip v₀) S T
      (flipStep1 F v₀ (ds, fl) c).1 (flipStep1 F v₀ (ds, fl) c).2 := by
  obtain ⟨hL1, hL2, hB, hC, hD, hE, hFw, hFm⟩ := hinv
  obtain ⟨hv1, hv2⟩ := Finset.mem_Icc.mp hv
  have hlenv : v₀ ≤ a₀.atoms.length := by rw [hlen]; exact hv2
  have hclmem : F.clauses.getD c [] ∈ F.clauses := by
    rw [List.getD_eq_getElem _ _ hc]
    exact List.getElem_mem _
  have hclwf : ClauseWf F.num_vars (F.clauses.getD c []) := hwf _ hclmem
  have h0cl : ∀ l ∈ F.clauses.getD c [], l ≠ 0 := fun l hl => (hclwf.1 l hl).1
  have hvars : ∀ l ∈ F.clauses.getD c [], l.natAbs ∈ Finset.Icc 1 F.num_vars := by
    intro l hl
    have hpos : 0 < l.natAbs := Int.natAbs_pos.mpr (hclwf.1 l hl).1
    have hle := (hclwf.1 l hl).2
    rw [Finset.mem_Icc]
    omega
  have hsat' : satLit (a₀.flip v₀) v₀ = -satLit a₀ v₀ := satLit_flip a₀ hv1 hlenv
  have hsat2 : -satLit a₀ v₀ ∈ F.clauses.getD c [] := by rw [← hsat']; exact hsat
  have hnotsat : satLit a₀ v₀ ∉ F.clauses.getD c [] := by
    intro hmem
    have habs : (-satLit a₀ v₀).natAbs = (satLit a₀ v₀).natAbs := Int.natAbs_neg _
    exact neg_satLit_ne a₀ hv1 (List.inj_on_of_nodup_map hclwf.2 hsat2 hmem habs)
  have hTC : (trueCount (a₀.flip v₀) (F.clauses.getD c []) : Int)
      = (trueCount a₀ (F.clauses.getD c []) : Int) + 1 := by
    rw [trueCount_flip a₀ hv1 hlenv h0cl hclwf.2, if_pos hsat2, if_neg hnotsat]
    ring
  have hBc : ds.getNtl c = (trueCount a₀ (F.clauses.getD c []) : Int) := by
    have h := hB c hc
    rwa [relA_head (Or.inl (List.mem_cons_self c S))] at h
  have hrel_out : relA a₀ (a₀.flip v₀) S T c = a₀.flip v₀ := relA_out hcS hcT
  by_cases h0 : trueCount a₀ (F.clauses.getD c []) = 0
  · -- the clause was false: it becomes uniquely satisfied by v₀
    have ht0 : ds.getNtl c = 0 := by rw [hBc, h0]; rfl
    have hTC1 : trueCount (a₀.flip v₀) (F.clauses.getD c []) = 1 := by
      have h := hTC
      rw [h0] at h
      push_cast at h
      omega
    rw [flipStep1_zero ht0]
    show MidInv F a₀ (a₀.flip v₀) S T
      { crit_var := ((F.clauses.getD c []).foldl (fun d l => d.decrement_score l.natAbs)
          (ds.decrement_score v₀)).crit_var.set c (some v₀)
        num_true_lit := ((F.clauses.getD c []).foldl (fun d l => d.decrement_score l.natAbs)
          (ds.decrement_score v₀)).num_true_lit.set c (ds.getNtl c + 1)
        score := ((F.clauses.getD c []).foldl (fun d l => d.decrement_score l.natAbs)
          (ds.decrement_score v₀)).score
        best_score := ((F.clauses.getD c []).foldl (fun d l => d.decrement_score l.natAbs)
          (ds.decrement_score v₀)).best_score
        buckets := ((F.clauses.getD c []).foldl (fun d l => d.decrement_score l.natAbs)
          (ds.decrement_score v₀)).buckets }
      (fl.remove c)
    set D2 := (F.clauses.getD c []).foldl (fun d l => d.decrement_score l.natAbs)
      (ds.decrement_score v₀) with hD2
    obtain ⟨hC1, hs1, hn1, hcr1⟩ := decrement_score_spec hE hv
    obtain ⟨hC2, hs2, hn2, hcr2⟩ := foldl_decrement_spec hC1 hvars
    have hnD : D2.num_true_lit = ds.num_true_lit := by rw [hD2, hn2, hn1]
    have hcrD : D2.crit_var = ds.crit_var := by rw [hD2, hcr2, hcr1]
    have hscD : D2.score = fun w => Function.update ds.score v₀ (ds.score v₀ - 1) w
        - ((F.clauses.getD c []).countP (fun l => l.natAbs = w) : Int) := by
      rw [hD2]
      simp only [hs2, hs1]
    set dsF : DiffScores :=
      { crit_var := D2.crit_var.set c (some v₀)
        num_true_lit := D2.num_true_lit.set c (ds.getNtl c + 1)
        score := D2.score
        best_score := D2.best_score
        buckets := D2.buckets } with hdsF
    have hntlF : dsF.getNtl c = 1 := by
      show (D2.num_true_lit.set c (ds.getNtl c + 1)).getD c 0 = 1
      rw [getD_set_eq (by rw [hnD, hL1]; exact hc), ht0]
      decide
    have hntl_off : ∀ x, x ≠ c → dsF.getNtl x = ds.getNtl x := by
      intro x hxc
      show (D2.num_true_lit.set c (ds.getNtl c + 1)).getD x 0 = _
      rw [getD_set_ne hxc, hnD]
      rfl
    have hcritF : dsF.getCrit c = some v₀ := by
      show (D2.crit_var.set c (some v₀)).getD c none = some v₀
      exact getD_set_eq (by rw [hcrD, hL2]; exact hc)
    have hcrit_off : ∀ x, x ≠ c → dsF.getCrit x = ds.getCrit x := by
      intro x hxc
      show (D2.crit_var.set c (some v₀)).getD x none = _
      rw [getD_set_ne hxc, hcrD]
      rfl
    refine ⟨?_, ?_, ?_, ?_, ?_, ?_, ?_, ?_⟩
    · show (D2.num_true_lit.set c (ds.getNtl c + 1)).length = F.clauses.length
      rw [List.length_set, hnD, hL1]
    · show (D2.crit_var.set c (some v₀)).length = F.clauses.length
      rw [List.length_set, hcrD, hL2]
    · intro x hx
      by_cases hxc : x = c
      · subst hxc
        rw [hntlF, hrel_out, hTC1]
        rfl
      · rw [hntl_off x hxc, ← relA_pop hxc]
        exact hB x hx
    · intro x hx hcount
      by_cases hxc : x = c
      · subst hxc
        rw [hrel_out] at hcount ⊢
        rw [hcritF, utv_eq_of_true hcount hsat (is_true_satLit (a₀.flip v₀) hv1),
          satLit_natAbs (a₀.flip v₀) hv1]
      · rw [hcrit_off x hxc]
        rw [← relA_pop hxc] at hcount ⊢
        exact hC x hx hcount
    · intro w hw
      have hoff : ∀ x, x < F.clauses.length → x ≠ c →
          specTerm F dsF w x = specTerm F ds w x := by
        intro x hx hxc
        unfold specTerm
        rw [hntl_off x hxc, hcrit_off x hxc]
      have hsum : specS F dsF F.clauses.length w
          = specS F ds F.clauses.length w
            + (specTerm F dsF w c - specTerm F ds w c) := by
        unfold specS
        exact sum_single_change hc _ _ hoff
      have hterm_old : specTerm F ds w c
          = (if ∃ l ∈ F.clauses.getD c [], l.natAbs = w then 1 else 0) := by
        unfold specTerm
        rw [if_neg (show ¬(ds.getNtl c = 1 ∧ ds.getCrit c = some w) from
          fun hcc => by rw [ht0] at hcc; exact absurd hcc.1 (by decide))]
        by_cases hex : ∃ l ∈ F.clauses.getD c [], l.natAbs = w
        · rw [if_pos (show ds.getNtl c = 0 ∧ (∃ l ∈ F.clauses.getD c [], l.natAbs = w)
              from ⟨ht0, hex⟩), if_pos hex]
          ring
        · rw [if_neg (show ¬(ds.getNtl c = 0 ∧ (∃ l ∈ F.clauses.getD c [], l.natAbs = w))
              from fun h => hex h.2), if_neg hex]
          ring
      have hterm_new : specTerm F dsF w c = -(if w = v₀ then 1 else 0) := by
        unfold specTerm
        rw [if_neg (show ¬(dsF.getNtl c = 0 ∧ (∃ l ∈ F.clauses.getD c [], l.natAbs = w))
          from fun hcc => by rw [hntlF] at hcc; exact absurd hcc.1 (by decide))]
        by_cases hwv : w = v₀
        · rw [if_pos (show dsF.getNtl c = 1 ∧ dsF.getCrit c = some w from
              ⟨hntlF, by rw [hcritF, hwv]⟩), if_pos hwv]
          ring
        · rw [if_neg (show ¬(dsF.getNtl c = 1 ∧ dsF.getCrit c = some w) from
              fun hcc => hwv (by
                have h := hcc.2
                rw [hcritF] at h
                exact (Option.some.inj h).symm)), if_neg hwv]
          ring
      show D2.score w = specS F dsF F.clauses.length w
      rw [hsum, hterm_new, hterm_old, ← hD w hw]
      simp only [hscD]
      rw [countVar_eq hclwf w]
      by_cases hwv : w = v₀
      · rw [hwv, Function.update_same, if_pos rfl]
        split_ifs <;> ring
      · rw [Function.update_noteq hwv, if_neg hwv]
        split_ifs <;> ring
    · show Canon F.num_vars dsF
      exact hC2
    · exact (flwf_remove hFw ((hFm c).mpr ⟨hc, ht0⟩)).1
    · intro x
      rw [(flwf_remove hFw ((hFm c).mpr ⟨hc, ht0⟩)).2 x, hFm x]
      constructor
      · rintro ⟨⟨hx1, hx2⟩, hxc⟩
        refine ⟨hx1, ?_⟩
        rw [hntl_off x hxc]
        exact hx2
      · rintro ⟨hx1, hx2⟩
        have hxc : x ≠ c := by
          intro hcc
          rw [hcc, hntlF] at hx2
          exact absurd hx2 (by decide)
        rw [hntl_off x hxc] at hx2
        exact ⟨⟨hx1, hx2⟩, hxc⟩
  · by_cases h1 : trueCount a₀ (F.clauses.getD c []) = 1
    · -- the clause had a critical variable which stops breaking it
      have ht1 : ds.getNtl c = 1 := by rw [hBc, h1]; rfl
      have hTC2 : trueCount (a₀.flip v₀) (F.clauses.getD c []) = 2 := by
        have h := hTC
        rw [h1] at h
        push_cast at h
        omega
      have hcrit : ds.getCrit c = some (utv a₀ (F.clauses.getD c [])) := by
        have h := hC c hc
        rw [relA_head (Or.inl (List.mem_cons_self c S))] at h
        exact h h1
      have hw₁ : utv a₀ (F.clauses.getD c []) ∈ Finset.Icc 1 F.num_vars :=
        utv_mem_Icc hclwf h1
      have hgetD : (ds.getCrit c).getD 0 = utv a₀ (F.clauses.getD c []) := by
        rw [hcrit]
        rfl
      rw [flipStep1_one ht1]
      show MidInv F a₀ (a₀.flip v₀) S T
        { crit_var := (ds.increment_score ((ds.getCrit c).getD 0)).crit_var
          num_true_lit := (ds.increment_score ((ds.getCrit c).getD 0)).num_true_lit.set c
            (ds.getNtl c + 1)
          score := (ds.increment_score ((ds.getCrit c).getD 0)).score
          best_score := (ds.increment_score ((ds.getCrit c).getD 0)).best_score
          buckets := (ds.increment_score ((ds.getCrit c).getD 0)).buckets }
        fl
      rw [hgetD]
      obtain ⟨hC1, hs1, hn1, hcr1⟩ :=
        increment_score_spec hE hw₁
      set w₁ := utv a₀ (F.clauses.getD c []) with hw₁def
      set dsF : DiffScores :=
        { crit_var := (ds.increment_score w₁).crit_var
          num_true_lit := (ds.increment_score w₁).num_true_lit.set c (ds.getNtl c + 1)
          score := (ds.increment_score w₁).score
          best_score := (ds.increment_score w₁).best_score
          buckets := (ds.increment_score w₁).buckets } with hdsF
      have hntlF : dsF.getNtl c = 2 := by
        show ((ds.increment_score w₁).num_true_lit.set c (ds.getNtl c + 1)).getD c 0 = 2
        rw [hn1, getD_set_eq (by rw [hL1]; exact hc), ht1]
        decide
      have hntl_off : ∀ x, x ≠ c → dsF.getNtl x = ds.getNtl x := by
        intro x hxc
        show ((ds.increment_score w₁).num_true_lit.set c (ds.getNtl c + 1)).getD x 0 = _
        rw [hn1, getD_set_ne hxc]
        rfl
      have hcrit_all : ∀ x, dsF.getCrit x = ds.getCrit x := by
        intro x
        show (ds.increment_score w₁).crit_var.getD x none = _
        rw [hcr1]
        rfl
      refine ⟨?_, ?_, ?_, ?_, ?_, ?_, hFw, ?_⟩
      · show ((ds.increment_score w₁).num_true_lit.set c (ds.getNtl c + 1)).length
          = F.clauses.length
        rw [List.length_set, hn1, hL1]
      · show (ds.increment_score w₁).crit_var.length = F.clauses.length
        rw [hcr1, hL2]
      · intro x hx
        by_cases hxc : x = c
        · subst hxc
          rw [hntlF, hrel_out, hTC2]
          rfl
        · rw [hntl_off x hxc, ← relA_pop hxc]
          exact hB x hx
      · intro x hx hcount
        by_cases hxc : x = c
        · subst hxc
          rw [hrel_out] at hcount
          rw [hTC2] at hcount
          exact absurd hcount (by decide)
        · rw [hcrit_all x]
          rw [← relA_pop hxc] at hcount ⊢
          exact hC x hx hcount
      · intro w hw
        have hoff : ∀ x, x < F.clauses.length → x ≠ c →
            specTerm F dsF w x = specTerm F ds w x := by
          intro x hx hxc
          unfold specTerm
          rw [hntl_off x hxc, hcrit_all x]
        have hsum : specS F dsF F.clauses.length w
            = specS F ds F.clauses.length w
              + (specTerm F dsF w c - specTerm F ds w c) := by
          unfold specS
          exact sum_single_change hc _ _ hoff
        have hterm_old : specTerm F ds w c = -(if w = w₁ then 1 else 0) := by
          unfold specTerm
          rw [if_neg (show ¬(ds.getNtl c = 0 ∧ (∃ l ∈ F.clauses.getD c [], l.natAbs = w))
            from fun hcc => by rw [ht1] at hcc; exact absurd hcc.1 (by decide))]
          by_cases hwv : w = w₁
          · rw [if_pos (show ds.getNtl c = 1 ∧ ds.getCrit c = some w from
                ⟨ht1, by rw [hcrit, hwv]⟩), if_pos hwv]
            ring
          · rw [if_neg (show ¬(ds.getNtl c = 1 ∧ ds.getCrit c = some w) from
                fun hcc => hwv (by
                  have h := hcc.2
                  rw [hcrit] at h
                  exact (Option.some.inj h).symm)), if_neg hwv]
            ring
        have hterm_new : specTerm F dsF w c = 0 := by
          unfold specTerm
          rw [if_neg (show ¬(dsF.getNtl c = 0 ∧ (∃ l ∈ F.clauses.getD c [], l.natAbs = w))
              from fun hcc => by rw [hntlF] at hcc; exact absurd hcc.1 (by decide)),
            if_neg (show ¬(dsF.getNtl c = 1 ∧ dsF.getCrit c = some w)
              from fun hcc => by rw [hntlF] at hcc; exact absurd hcc.1 (by decide))]
          ring
        show (ds.increment_score w₁).score w = specS F dsF F.clauses.length w
        rw [hsum, hterm_new, hterm_old, ← hD w hw, hs1]
        by_cases hwv : w = w₁
        · rw [hwv, Function.update_same, if_pos rfl]
          ring
        · rw [Function.update_noteq hwv, if_neg hwv]
          ring
      · show Canon F.num_vars dsF
        exact hC1
      · intro x
        rw [hFm x]
        by_cases hxc : x = c
        · subst hxc
          constructor
          · rintro ⟨hx1, hx2⟩
            rw [ht1] at hx2
            exact absurd hx2 (by decide)
          · rintro ⟨hx1, hx2⟩
            rw [hntlF] at hx2
            exact absurd hx2 (by decide)
        · rw [hntl_off x hxc]
    · -- at least two true literals: only the counter moves
      have hge2 : 2 ≤ trueCount a₀ (F.clauses.getD c []) := by omega
      have hne0 : ds.getNtl c ≠ 0 := by
        rw [hBc]
        intro hcc
        have : trueCount a₀ (F.clauses.getD c []) = 0 := by exact_mod_cast hcc
        omega
      have hne1 : ds.getNtl c ≠ 1 := by
        rw [hBc]
        intro hcc
        have : trueCount a₀ (F.clauses.getD c []) = 1 := by exact_mod_cast hcc
        omega
      rw [flipStep1_other hne0 hne1]
      set dsF : DiffScores :=
        { crit_var := ds.crit_var
          num_true_lit := ds.num_true_lit.set c (ds.getNtl c + 1)
          score := ds.score
          best_score := ds.best_score
          buckets := ds.buckets } with hdsF
      show MidInv F a₀ (a₀.flip v₀) S T dsF fl
      have hntlF : dsF.getNtl c = ds.getNtl c + 1 := by
        show (ds.num_true_lit.set c (ds.getNtl c + 1)).getD c 0 = _
        exact getD_set_eq (by rw [hL1]; exact hc)
      have hntl_off : ∀ x, x ≠ c → dsF.getNtl x = ds.getNtl x := by
        intro x hxc
        show (ds.num_true_lit.set c (ds.getNtl c + 1)).getD x 0 = _
        rw [getD_set_ne hxc]
        rfl
      refine ⟨?_, hL2, ?_, ?_, ?_, hE, hFw, ?_⟩
      · show (ds.num_true_lit.set c (ds.getNtl c + 1)).length = F.clauses.length
        rw [List.length_set, hL1]
      · intro x hx
        by_cases hxc : x = c
        · subst hxc
          rw [hntlF, hrel_out, hBc, hTC]
        · rw [hntl_off x hxc, ← relA_pop hxc]
          exact hB x hx
      · intro x hx hcount
        by_cases hxc : x = c
        · subst hxc
          rw [hrel_out] at hcount
          have : (trueCount (a₀.flip v₀) (F.clauses.getD x []) : Int)
              = (trueCount a₀ (F.clauses.getD x []) : Int) + 1 := hTC
          rw [hcount] at this
          have h2 : trueCount a₀ (F.clauses.getD x []) = 0 := by
            push_cast at this
            omega
          omega
        · show ds.getCrit x = _
          rw [← relA_pop hxc] at hcount ⊢
          exact hC x hx hcount
      · intro w hw
        have hoff : ∀ x, x < F.clauses.length → x ≠ c →
            specTerm F dsF w x = specTerm F ds w x := by
          intro x hx hxc
          unfold specTerm
          rw [hntl_off x hxc]
          rfl
        have hsum : specS F dsF F.clauses.length w
            = specS F ds F.clauses.length w
              + (specTerm F dsF w c - specTerm F ds w c) := by
          unfold specS
          exact sum_single_change hc _ _ hoff
        have hge2' : (2:Int) ≤ ds.getNtl c := by
          rw [hBc]
          exact_mod_cast hge2
        have hterm_old : specTerm F ds w c = 0 := by
          unfold specTerm
          rw [if_neg (show ¬(ds.getNtl c = 0 ∧ (∃ l ∈ F.clauses.getD c [], l.natAbs = w))
              from fun hcc => by have h := hcc.1; omega),
            if_neg (show ¬(ds.getNtl c = 1 ∧ ds.getCrit c = some w)
              from fun hcc => by have h := hcc.1; omega)]
          ring
        have hterm_new : specTerm F dsF w c = 0 := by
          unfold specTerm
          rw [hntlF]
          rw [if_neg (show ¬(ds.getNtl c + 1 = 0 ∧ (∃ l ∈ F.clauses.getD c [], l.natAbs = w))
              from fun hcc => by have h := hcc.1; omega),
            if_neg (show ¬(ds.getNtl c + 1 = 1 ∧ dsF.getCrit c = some w)
              from fun hcc => by have h := hcc.1; omega)]
          ring
        show ds.score w = specS F dsF F.clauses.length w
        rw [hsum, hterm_new, hterm_old, ← hD w hw]
        ring
      · intro x
        rw [hFm x]
        by_cases hxc : x = c
        · subst hxc
          rw [hntlF]
          constructor
          · rintro ⟨hx1, hx2⟩
            omega
          · rintro ⟨hx1, hx2⟩
            omega
        · rw [hntl_off x hxc]

end DiffScores

/-- A fold that skips elements failing `p` equals the fold over the filtered
list. -/
theorem foldl_guard {β : Type} (g : β → Int → β) (p : Int → Bool) :
    ∀ (cl : List Int) (b : β),
      cl.foldl (fun d l => if p l then g d l else d) b = (cl.filter p).foldl g b := by
  intro cl
  induction cl with
  | nil => intro b; rfl
  | cons l t ih =>
    intro b
    rw [List.foldl_cons, List.filter_cons]
    by_cases hp : p l
    · rw [if_pos hp, if_pos hp, List.foldl_cons, ih]
    · rw [if_neg hp, if_neg hp, ih]

namespace DiffScores

set_option maxHeartbeats 2000000 in
/-- One clause step of the second scan of `DiffScores.flip` preserves the
mid-flip invariant. -/
theorem flipStep2_midinv {F : Formula} (hwf : FormulaWf F) {a₀ : Assignment}
    {v₀ : Nat} (hv : v₀ ∈ Finset.Icc 1 F.num_vars)
    (hlen : a₀.atoms.length = F.num_vars)
    {T : List Nat} {c : Nat} {ds : DiffScores} {fl : Falselist}
    (hc : c < F.clauses.length) (hcT : c ∉ T)
    (huns : -satLit (a₀.flip v₀) v₀ ∈ F.clauses.getD c [])
    (hinv : MidInv F a₀ (a₀.flip v₀) [] (c :: T) ds fl) :
    MidInv F a₀ (a₀.flip v₀) [] T
      (flipStep2 F v₀ (a₀.flip v₀) (ds, fl) c).1
      (flipStep2 F v₀ (a₀.flip v₀) (ds, fl) c).2 := by
  obtain ⟨hL1, hL2, hB, hC, hD, hE, hFw, hFm⟩ := hinv
  obtain ⟨hv1, hv2⟩ := Finset.mem_Icc.mp hv
  have hlenv : v₀ ≤ a₀.atoms.length := by rw [hlen]; exact hv2
  have hclmem : F.clauses.getD c [] ∈ F.clauses := by
    rw [List.getD_eq_getElem _ _ hc]
    exact List.getElem_mem _
  have hclwf : ClauseWf F.num_vars (F.clauses.getD c []):= hwf _ hclmem
  have h0cl : ∀ l ∈ F.clauses.getD c [], l ≠ 0 := fun l hl => (hclwf.1 l hl).1
  have hvars : ∀ l ∈ F.clauses.getD c [], l.natAbs ∈ Finset.Icc 1 F.num_vars := by
    intro l hl
    have hpos : 0 < l.natAbs := Int.natAbs_pos.mpr (hclwf.1 l hl).1
    have hle := (hclwf.1 l hl).2
    rw [Finset.mem_Icc]
    omega
  have hsat' : satLit (a₀.flip v₀) v₀ = -satLit a₀ v₀ := satLit_flip a₀ hv1 hlenv
  have huns' : -satLit (a₀.flip v₀) v₀ = satLit a₀ v₀ := by rw [hsat', neg_neg]
  have huns2 : satLit a₀ v₀ ∈ F.clauses.getD c [] := by rw [← huns']; exact huns
  have hnotuns : -satLit a₀ v₀ ∉ F.clauses.getD c [] := by
    intro hmem
    have habs : (-satLit a₀ v₀).natAbs = (satLit a₀ v₀).natAbs := Int.natAbs_neg _
    exact neg_satLit_ne a₀ hv1 (List.inj_on_of_nodup_map hclwf.2 hmem huns2 habs)
  have hTC : (trueCount (a₀.flip v₀) (F.clauses.getD c []) : Int)
      = (trueCount a₀ (F.clauses.getD c []) : Int) - 1 := by
    rw [trueCount_flip a₀ hv1 hlenv h0cl hclwf.2, if_neg hnotuns, if_pos huns2]
    ring
  have hTCpos : 1 ≤ trueCount a₀ (F.clauses.getD c []) :=
    trueCount_pos_of_mem huns2 (is_true_satLit a₀ hv1)
  have hBc : ds.getNtl c = (trueCount a₀ (F.clauses.getD c []) : Int) := by
    have h := hB c hc
    rwa [relA_head (Or.inr (List.mem_cons_self c T))] at h
  have hrel_out : relA a₀ (a₀.flip v₀) [] T c = a₀.flip v₀ :=
    relA_out (by simp) hcT
  by_cases h1 : trueCount a₀ (F.clauses.getD c []) = 1
  · -- the clause was uniquely satisfied by v₀ and becomes false
    have ht1 : ds.getNtl c = 1 := by rw [hBc, h1]; rfl
    have hTC0 : trueCount (a₀.flip v₀) (F.clauses.getD c []) = 0 := by
      have h := hTC
      rw [h1] at h
      push_cast at h
      omega
    have hcrit : ds.getCrit c = some v₀ := by
      have h := hC c hc
      rw [relA_head (Or.inr (List.mem_cons_self c T))] at h
      rw [h h1, utv_eq_of_true h1 huns2 (is_true_satLit a₀ hv1),
        satLit_natAbs a₀ hv1]
    rw [flipStep2_one ht1]
    show MidInv F a₀ (a₀.flip v₀) [] T
      { crit_var := ((F.clauses.getD c []).foldl (fun d l => d.increment_score l.natAbs)
          (ds.increment_score v₀)).crit_var.set c (some v₀)
        num_true_lit := ((F.clauses.getD c []).foldl (fun d l => d.increment_score l.natAbs)
          (ds.increment_score v₀)).num_true_lit.set c (ds.getNtl c - 1)
        score := ((F.clauses.getD c []).foldl (fun d l => d.increment_score l.natAbs)
          (ds.increment_score v₀)).score
        best_score := ((F.clauses.getD c []).foldl (fun d l => d.increment_score l.natAbs)
          (ds.increment_score v₀)).best_score
        buckets := ((F.clauses.getD c []).foldl (fun d l => d.increment_score l.natAbs)
          (ds.increment_score v₀)).buckets }
      (fl.add c)
    set D2 := (F.clauses.getD c []).foldl (fun d l => d.increment_score l.natAbs)
      (ds.increment_score v₀) with hD2
    obtain ⟨hC1, hs1, hn1, hcr1⟩ := increment_score_spec hE hv
    obtain ⟨hC2, hs2, hn2, hcr2⟩ := foldl_increment_spec hC1 hvars
    have hnD : D2.num_true_lit = ds.num_true_lit := by rw [hD2, hn2, hn1]
    have hcrD : D2.crit_var = ds.crit_var := by rw [hD2, hcr2, hcr1]
    have hscD : D2.score = fun w => Function.update ds.score v₀ (ds.score v₀ + 1) w
        + ((F.clauses.getD c []).countP (fun l => l.natAbs = w) : Int) := by
      rw [hD2]
      simp only [hs2, hs1]
    set dsF : DiffScores :=
      { crit_var := D2.crit_var.set c (some v₀)
        num_true_lit := D2.num_true_lit.set c (ds.getNtl c - 1)
        score := D2.score
        best_score := D2.best_score
        buckets := D2.buckets } with hdsF
    have hntlF : dsF.getNtl c = 0 := by
      show (D2.num_true_lit.set c (ds.getNtl c - 1)).getD c 0 = 0
      rw [getD_set_eq (by rw [hnD, hL1]; exact hc), ht1]
      decide
    have hntl_off : ∀ x, x ≠ c → dsF.getNtl x = ds.getNtl x := by
      intro x hxc
      show (D2.num_true_lit.set c (ds.getNtl c - 1)).getD x 0 = _
      rw [getD_set_ne hxc, hnD]
      rfl
    have hcritF : dsF.getCrit c = some v₀ := by
      show (D2.crit_var.set c (some v₀)).getD c none = some v₀
      exact getD_set_eq (by rw [hcrD, hL2]; exact hc)
    have hcrit_off : ∀ x, x ≠ c → dsF.getCrit x = ds.getCrit x := by
      intro x hxc
      show (D2.crit_var.set c (some v₀)).getD x none = _
      rw [getD_set_ne hxc, hcrD]
      rfl
    have hcfl : c ∉ fl.lst := by
      intro hmem
      have h := (hFm c).mp hmem
      rw [ht1] at h
      exact absurd h.2 (by decide)
    obtain ⟨hFw', hlst'⟩ := flwf_add hFw hcfl
    refine ⟨?_, ?_, ?_, ?_, ?_, ?_, hFw', ?_⟩
    · show (D2.num_true_lit.set c (ds.getNtl c - 1)).length = F.clauses.length
      rw [List.length_set, hnD, hL1]
    · show (D2.crit_var.set c (some v₀)).length = F.clauses.length
      rw [List.length_set, hcrD, hL2]
    · intro x hx
      by_cases hxc : x = c
      · subst hxc
        rw [hntlF, hrel_out, hTC0]
        rfl
      · rw [hntl_off x hxc, ← relA_pop2 hxc]
        exact hB x hx
    · intro x hx hcount
      by_cases hxc : x = c
      · subst hxc
        rw [hrel_out] at hcount
        rw [hTC0] at hcount
        exact absurd hcount (by decide)
      · rw [hcrit_off x hxc]
        rw [← relA_pop2 hxc] at hcount ⊢
        exact hC x hx hcount
    · intro w hw
      have hoff : ∀ x, x < F.clauses.length → x ≠ c →
          specTerm F dsF w x = specTerm F ds w x := by
        intro x hx hxc
        unfold specTerm
        rw [hntl_off x hxc, hcrit_off x hxc]
      have hsum : specS F dsF F.clauses.length w
          = specS F ds F.clauses.length w
            + (specTerm F dsF w c - specTerm F ds w c) := by
        unfold specS
        exact sum_single_change hc _ _ hoff
      have hterm_old : specTerm F ds w c = -(if w = v₀ then 1 else 0) := by
        unfold specTerm
        rw [if_neg (show ¬(ds.getNtl c = 0 ∧ (∃ l ∈ F.clauses.getD c [], l.natAbs = w))
          from fun hcc => by rw [ht1] at hcc; exact absurd hcc.1 (by decide))]
        by_cases hwv : w = v₀
        · rw [if_pos (show ds.getNtl c = 1 ∧ ds.getCrit c = some w from
              ⟨ht1, by rw [hcrit, hwv]⟩), if_pos hwv]
          ring
        · rw [if_neg (show ¬(ds.getNtl c = 1 ∧ ds.getCrit c = some w) from
              fun hcc => hwv (by
                have h := hcc.2
                rw [hcrit] at h
                exact (Option.some.inj h).symm)), if_neg hwv]
          ring
      have hterm_new : specTerm F dsF w c
          = (if ∃ l ∈ F.clauses.getD c [], l.natAbs = w then 1 else 0) := by
        unfold specTerm
        rw [if_neg (show ¬(dsF.getNtl c = 1 ∧ dsF.getCrit c = some w) from
          fun hcc => by rw [hntlF] at hcc; exact absurd hcc.1 (by decide))]
        by_cases hex : ∃ l ∈ F.clauses.getD c [], l.natAbs = w
        · rw [if_pos (show dsF.getNtl c = 0 ∧ (∃ l ∈ F.clauses.getD c [], l.natAbs = w)
              from ⟨hntlF, hex⟩), if_pos hex]
          ring
        · rw [if_neg (show ¬(dsF.getNtl c = 0 ∧ (∃ l ∈ F.clauses.getD c [], l.natAbs = w))
              from fun h => hex h.2), if_neg hex]
          ring
      show D2.score w = specS F dsF F.clauses.length w
      rw [hsum, hterm_new, hterm_old, ← hD w hw]
      simp only [hscD]
      rw [countVar_eq hclwf w]
      by_cases hwv : w = v₀
      · rw [hwv, Function.update_same, if_pos rfl]
        split_ifs <;> ring
      · rw [Function.update_noteq hwv, if_neg hwv]
        split_ifs <;> ring
    · show Canon F.num_vars dsF
      exact hC2
    · intro x
      rw [hlst', List.mem_append, List.mem_singleton, hFm x]
      constructor
      · rintro (⟨hx1, hx2⟩ | hxc)
        · have hxc : x ≠ c := by
            intro hcc
            rw [hcc, ht1] at hx2
            exact absurd hx2 (by decide)
          refine ⟨hx1, ?_⟩
          rw [hntl_off x hxc]
          exact hx2
        · subst hxc
          exact ⟨hc, hntlF⟩
      · rintro ⟨hx1, hx2⟩
        by_cases hxc : x = c
        · exact Or.inr hxc
        · rw [hntl_off x hxc] at hx2
          exact Or.inl ⟨hx1, hx2⟩
  · by_cases h2 : trueCount a₀ (F.clauses.getD c []) = 2
    · -- two true literals: the remaining one becomes critical
      have ht2 : ds.getNtl c = 2 := by rw [hBc, h2]; rfl
      have hTC1 : trueCount (a₀.flip v₀) (F.clauses.getD c []) = 1 := by
        have h := hTC
        rw [h2] at h
        push_cast at h
        omega
      obtain ⟨lstar, hf⟩ := trueLits_singleton hTC1
      obtain ⟨hutv, hmem, htrue, huniq⟩ := utv_spec hf
      have hw₂ : lstar.natAbs ∈ Finset.Icc 1 F.num_vars := hvars lstar hmem
      rw [flipStep2_two ht2]
      have hfold : (F.clauses.getD c []).foldl
          (fun d l =>
            if (a₀.flip v₀).is_true l then
              ({ d with crit_var := d.crit_var.set c (some l.natAbs) }).decrement_score
                l.natAbs
            else d) ds
          = ({ ds with
                crit_var := ds.crit_var.set c (some lstar.natAbs) }).decrement_score
              lstar.natAbs := by
        refine (foldl_guard
          (fun d l =>
            ({ d with crit_var := d.crit_var.set c (some l.natAbs) }).decrement_score
              l.natAbs)
          (fun l => (a₀.flip v₀).is_true l) (F.clauses.getD c []) ds).trans ?_
        rw [hf]
        rfl
      rw [hfold]
      set dsC : DiffScores :=
        { ds with crit_var := ds.crit_var.set c (some lstar.natAbs) } with hdsC
      have hEC : Canon F.num_vars dsC := hE
      obtain ⟨hC1, hs1, hn1, hcr1⟩ := decrement_score_spec hEC hw₂
      show MidInv F a₀ (a₀.flip v₀) [] T
        { crit_var := (dsC.decrement_score lstar.natAbs).crit_var
          num_true_lit := (dsC.decrement_score lstar.natAbs).num_true_lit.set c
            (ds.getNtl c - 1)
          score := (dsC.decrement_score lstar.natAbs).score
          best_score := (dsC.decrement_score lstar.natAbs).best_score
          buckets := (dsC.decrement_score lstar.natAbs).buckets }
        fl
      set dsF : DiffScores :=
        { crit_var := (dsC.decrement_score lstar.natAbs).crit_var
          num_true_lit := (dsC.decrement_score lstar.natAbs).num_true_lit.set c
            (ds.getNtl c - 1)
          score := (dsC.decrement_score lstar.natAbs).score
          best_score := (dsC.decrement_score lstar.natAbs).best_score
          buckets := (dsC.decrement_score lstar.natAbs).buckets } with hdsF
      have hntlF : dsF.getNtl c = 1 := by
        show ((dsC.decrement_score lstar.natAbs).num_true_lit.set c
          (ds.getNtl c - 1)).getD c 0 = 1
        rw [hn1]
        rw [getD_set_eq (show c < dsC.num_true_lit.length by
          show c < ds.num_true_lit.length
          rw [hL1]; exact hc), ht2]
        decide
      have hntl_off : ∀ x, x ≠ c → dsF.getNtl x = ds.getNtl x := by
        intro x hxc
        show ((dsC.decrement_score lstar.natAbs).num_true_lit.set c
          (ds.getNtl c - 1)).getD x 0 = _
        rw [hn1, getD_set_ne hxc]
        rfl
      have hcritF : dsF.getCrit c = some lstar.natAbs := by
        show (dsC.decrement_score lstar.natAbs).crit_var.getD c none = _
        rw [hcr1]
        show (ds.crit_var.set c (some lstar.natAbs)).getD c none = _
        exact getD_set_eq (by rw [hL2]; exact hc)
      have hcrit_off : ∀ x, x ≠ c → dsF.getCrit x = ds.getCrit x := by
        intro x hxc
        show (dsC.decrement_score lstar.natAbs).crit_var.getD x none = _
        rw [hcr1]
        show (ds.crit_var.set c (some lstar.natAbs)).getD x none = _
        rw [getD_set_ne hxc]
        rfl
      refine ⟨?_, ?_, ?_, ?_, ?_, ?_, hFw, ?_⟩
      · show ((dsC.decrement_score lstar.natAbs).num_true_lit.set c
          (ds.getNtl c - 1)).length = F.clauses.length
        rw [List.length_set, hn1]
        exact hL1
      · show (dsC.decrement_score lstar.natAbs).crit_var.length = F.clauses.length
        rw [hcr1]
        show (ds.crit_var.set c (some lstar.natAbs)).length = _
        rw [List.length_set]
        exact hL2
      · intro x hx
        by_cases hxc : x = c
        · subst hxc
          rw [hntlF, hrel_out, hTC1]
          rfl
        · rw [hntl_off x hxc, ← relA_pop2 hxc]
          exact hB x hx
      · intro x hx hcount
        by_cases hxc : x = c
        · subst hxc
          rw [hrel_out] at hcount ⊢
          rw [hcritF, hutv]
        · rw [hcrit_off x hxc]
          rw [← relA_pop2 hxc] at hcount ⊢
          exact hC x hx hcount
      · intro w hw
        have hoff : ∀ x, x < F.clauses.length → x ≠ c →
            specTerm F dsF w x = specTerm F ds w x := by
          intro x hx hxc
          unfold specTerm
          rw [hntl_off x hxc, hcrit_off x hxc]
        have hsum : specS F dsF F.clauses.length w
            = specS F ds F.clauses.length w
              + (specTerm F dsF w c - specTerm F ds w c) := by
          unfold specS
          exact sum_single_change hc _ _ hoff
        have hterm_old : specTerm F ds w c = 0 := by
          unfold specTerm
          rw [if_neg (show ¬(ds.getNtl c = 0 ∧ (∃ l ∈ F.clauses.getD c [], l.natAbs = w))
              from fun hcc => by rw [ht2] at hcc; exact absurd hcc.1 (by decide)),
            if_neg (show ¬(ds.getNtl c = 1 ∧ ds.getCrit c = some w)
              from fun hcc => by rw [ht2] at hcc; exact absurd hcc.1 (by decide))]
          ring
        have hterm_new : specTerm F dsF w c = -(if w = lstar.natAbs then 1 else 0) := by
          unfold specTerm
          rw [if_neg (show ¬(dsF.getNtl c = 0 ∧ (∃ l ∈ F.clauses.getD c [], l.natAbs = w))
            from fun hcc => by rw [hntlF] at hcc; exact absurd hcc.1 (by decide))]
          by_cases hwv : w = lstar.natAbs
          · rw [if_pos (show dsF.getNtl c = 1 ∧ dsF.getCrit c = some w from
                ⟨hntlF, by rw [hcritF, hwv]⟩), if_pos hwv]
            ring
          · rw [if_neg (show ¬(dsF.getNtl c = 1 ∧ dsF.getCrit c = some w) from
                fun hcc => hwv (by
                  have h := hcc.2
                  rw [hcritF] at h
                  exact (Option.some.inj h).symm)), if_neg hwv]
            ring
        have hsF : dsF.score w = Function.update ds.score lstar.natAbs
            (ds.score lstar.natAbs - 1) w := by
          show (dsC.decrement_score lstar.natAbs).score w = _
          rw [hs1]
        rw [hsF, hsum, hterm_new, hterm_old, ← hD w hw]
        by_cases hwv : w = lstar.natAbs
        · rw [hwv, Function.update_same, if_pos rfl]
          ring
        · rw [Function.update_noteq hwv, if_neg hwv]
          ring
      · show Canon F.num_vars dsF
        exact hC1
      · intro x
        rw [hFm x]
        by_cases hxc : x = c
        · subst hxc
          rw [hntlF, ht2]
          constructor
          · rintro ⟨hx1, hx2⟩
            exact absurd hx2 (by decide)
          · rintro ⟨hx1, hx2⟩
            exact absurd hx2 (by decide)
        · rw [hntl_off x hxc]
    · -- three or more true literals: only the counter moves
      have hge3 : 3 ≤ trueCount a₀ (F.clauses.getD c []) := by omega
      have hne1 : ds.getNtl c ≠ 1 := by
        rw [hBc]
        intro hcc
        have h : trueCount a₀ (F.clauses.getD c []) = 1 := by exact_mod_cast hcc
        omega
      have hne2 : ds.getNtl c ≠ 2 := by
        rw [hBc]
        intro hcc
        have h : trueCount a₀ (F.clauses.getD c []) = 2 := by exact_mod_cast hcc
        omega
      rw [flipStep2_other hne1 hne2]
      set dsF : DiffScores :=
        { crit_var := ds.crit_var
          num_true_lit := ds.num_true_lit.set c (ds.getNtl c - 1)
          score := ds.score
          best_score := ds.best_score
          buckets := ds.buckets } with hdsF
      show MidInv F a₀ (a₀.flip v₀) [] T dsF fl
      have hntlF : dsF.getNtl c = ds.getNtl c - 1 := by
        show (ds.num_true_lit.set c (ds.getNtl c - 1)).getD c 0 = _
        exact getD_set_eq (by rw [hL1]; exact hc)
      have hntl_off : ∀ x, x ≠ c → dsF.getNtl x = ds.getNtl x := by
        intro x hxc
        show (ds.num_true_lit.set c (ds.getNtl c - 1)).getD x 0 = _
        rw [getD_set_ne hxc]
        rfl
      have hge3' : (3:Int) ≤ ds.getNtl c := by
        rw [hBc]
        exact_mod_cast hge3
      refine ⟨?_, hL2, ?_, ?_, ?_, hE, hFw, ?_⟩
      · show (ds.num_true_lit.set c (ds.getNtl c - 1)).length = F.clauses.length
        rw [List.length_set, hL1]
      · intro x hx
        by_cases hxc : x = c
        · subst hxc
          rw [hntlF, hrel_out, hBc, hTC]
        · rw [hntl_off x hxc, ← relA_pop2 hxc]
          exact hB x hx
      · intro x hx hcount
        by_cases hxc : x = c
        · subst hxc
          rw [hrel_out] at hcount
          have h := hTC
          rw [hcount] at h
          have hh : trueCount a₀ (F.clauses.getD x []) = 2 := by
            push_cast at h
            omega
          omega
        · show ds.getCrit x = _
          rw [← relA_pop2 hxc] at hcount ⊢
          exact hC x hx hcount
      · intro w hw
        have hoff : ∀ x, x < F.clauses.length → x ≠ c →
            specTerm F dsF w x = specTerm F ds w x := by
          intro x hx hxc
          unfold specTerm
          rw [hntl_off x hxc]
          rfl
        have hsum : specS F dsF F.clauses.length w
            = specS F ds F.clauses.length w
              + (specTerm F dsF w c - specTerm F ds w c) := by
          unfold specS
          exact sum_single_change hc _ _ hoff
        have hterm_old : specTerm F ds w c = 0 := by
          unfold specTerm
          rw [if_neg (show ¬(ds.getNtl c = 0 ∧ (∃ l ∈ F.clauses.getD c [], l.natAbs = w))
              from fun hcc => by have h := hcc.1; omega),
            if_neg (show ¬(ds.getNtl c = 1 ∧ ds.getCrit c = some w)
              from fun hcc => by have h := hcc.1; omega)]
          ring
        have hterm_new : specTerm F dsF w c = 0 := by
          unfold specTerm
          rw [hntlF]
          rw [if_neg (show ¬(ds.getNtl c - 1 = 0 ∧ (∃ l ∈ F.clauses.getD c [], l.natAbs = w))
              from fun hcc => by have h := hcc.1; omega),
            if_neg (show ¬(ds.getNtl c - 1 = 1 ∧ dsF.getCrit c = some w)
              from fun hcc => by have h := hcc.1; omega)]
          ring
        show ds.score w = specS F dsF F.clauses.length w
        rw [hsum, hterm_new, hterm_old, ← hD w hw]
        ring
      · intro x
        rw [hFm x]
        by_cases hxc : x = c
        · subst hxc
          rw [hntlF]
          constructor
          · rintro ⟨hx1, hx2⟩
            omega
          · rintro ⟨hx1, hx2⟩
            omega
        · rw [hntl_off x hxc]

end DiffScores

namespace DiffScores

/-- Folding the first scan over a pending list of satisfied-occurrence clause
indices discharges the whole pending list. -/
theorem scan1_fold {F : Formula} (hwf : FormulaWf F) {a₀ : Assignment}
    {v₀ : Nat} (hv : v₀ ∈ Finset.Icc 1 F.num_vars)
    (hlen : a₀.atoms.length = F.num_vars) :
    ∀ (S : List Nat) {T : List Nat} {ds : DiffScores} {fl : Falselist},
      S.Nodup →
      (∀ c ∈ S, c < F.clauses.length ∧
        satLit (a₀.flip v₀) v₀ ∈ F.clauses.getD c [] ∧ c ∉ T) →
      MidInv F a₀ (a₀.flip v₀) S T ds fl →
      MidInv F a₀ (a₀.flip v₀) [] T
        (S.foldl (flipStep1 F v₀) (ds, fl)).1
        (S.foldl (flipStep1 F v₀) (ds, fl)).2 := by
  intro S
  induction S with
  | nil =>
    intro T ds fl _ _ hinv
    exact hinv
  | cons c S ih =>
    intro T ds fl hnd hmem hinv
    rw [List.foldl_cons]
    have hcS : c ∉ S := (List.nodup_cons.mp hnd).1
    obtain ⟨hc, hsat, hcT⟩ := hmem c (List.mem_cons_self c S)
    have h1 := flipStep1_midinv hwf hv hlen hc hcS hcT hsat hinv
    exact ih (List.nodup_cons.mp hnd).2
      (fun x hx => hmem x (List.mem_cons_of_mem c hx)) h1

/-- Folding the second scan over a pending list of falsified-occurrence clause
indices discharges the whole pending list. -/
theorem scan2_fold {F : Formula} (hwf : FormulaWf F) {a₀ : Assignment}
    {v₀ : Nat} (hv : v₀ ∈ Finset.Icc 1 F.num_vars)
    (hlen : a₀.atoms.length = F.num_vars) :
    ∀ (T : List Nat) {ds : DiffScores} {fl : Falselist},
      T.Nodup →
      (∀ c ∈ T, c < F.clauses.length ∧
        -satLit (a₀.flip v₀) v₀ ∈ F.clauses.getD c []) →
      MidInv F a₀ (a₀.flip v₀) [] T ds fl →
      MidInv F a₀ (a₀.flip v₀) [] []
        (T.foldl (flipStep2 F v₀ (a₀.flip v₀)) (ds, fl)).1
        (T.foldl (flipStep2 F v₀ (a₀.flip v₀)) (ds, fl)).2 := by
  intro T
  induction T with
  | nil =>
    intro ds fl _ _ hinv
    exact hinv
  | cons c T ih =>
    intro ds fl hnd hmem hinv
    rw [List.foldl_cons]
    have hcT : c ∉ T := (List.nodup_cons.mp hnd).1
    obtain ⟨hc, huns⟩ := hmem c (List.mem_cons_self c T)
    have h1 := flipStep2_midinv hwf hv hlen hc hcT huns hinv
    exact ih (List.nodup_cons.mp hnd).2
      (fun x hx => (hmem x (List.mem_cons_of_mem c hx))) h1

/-- The scoreboard invariant at rest: the counters, critical variables,
scores, buckets, best score and falselist all describe the current
assignment. -/
def Inv (F : Formula) (st : SState) : Prop :=
  st.assignment.atoms.length = F.num_vars ∧
  MidInv F st.assignment st.assignment [] [] st.ds st.falselist

/-- `DiffScores.flip` preserves the scoreboard invariant. -/
theorem flip_inv {F : Formula} (hwf : FormulaWf F) {v₀ : Nat}
    (hv : v₀ ∈ Finset.Icc 1 F.num_vars) {st : SState} (hinv : Inv F st) :
    Inv F (flip F v₀ st) := by
  obtain ⟨hlen, hL1, hL2, hB, hC, hD, hE, hFw, hFm⟩ := hinv
  obtain ⟨hv1, hv2⟩ := Finset.mem_Icc.mp hv
  set a₀ := st.assignment with ha₀
  have hlenv : v₀ ≤ a₀.atoms.length := by rw [hlen]; exact hv2
  have hlen' : (a₀.flip v₀).atoms.length = F.num_vars := by
    show (a₀.atoms.set (v₀ - 1) _).length = F.num_vars
    rw [List.length_set]
    exact hlen
  have hsatdef : (if (a₀.flip v₀).is_true (v₀ : Int) then (v₀ : Int) else -(v₀ : Int))
      = satLit (a₀.flip v₀) v₀ := rfl
  set S₀ := F.get_occurrences (satLit (a₀.flip v₀) v₀) with hS₀
  set T₀ := F.get_occurrences (-satLit (a₀.flip v₀) v₀) with hT₀
  have hSmem : ∀ c ∈ S₀, c < F.clauses.length ∧
      satLit (a₀.flip v₀) v₀ ∈ F.clauses.getD c [] ∧ c ∉ T₀ := by
    intro c hcs
    obtain ⟨hc, hm⟩ := (mem_get_occurrences hwf).mp hcs
    refine ⟨hc, hm, fun hct => ?_⟩
    exact not_mem_both_occ hwf (neg_satLit_ne (a₀.flip v₀) hv1).symm
      (Int.natAbs_neg _).symm hcs hct
  have hTmem : ∀ c ∈ T₀, c < F.clauses.length ∧
      -satLit (a₀.flip v₀) v₀ ∈ F.clauses.getD c [] := by
    intro c hct
    obtain ⟨hc, hm⟩ := (mem_get_occurrences hwf).mp hct
    exact ⟨hc, hm⟩
  have hstart : MidInv F a₀ (a₀.flip v₀) S₀ T₀ st.ds st.falselist := by
    have hrel : ∀ c, c < F.clauses.length →
        trueCount (relA a₀ (a₀.flip v₀) S₀ T₀ c) (F.clauses.getD c [])
          = trueCount a₀ (F.clauses.getD c [])
        ∧ utv (relA a₀ (a₀.flip v₀) S₀ T₀ c) (F.clauses.getD c [])
          = utv a₀ (F.clauses.getD c []) := by
      intro c hc
      by_cases hcp : c ∈ S₀ ∨ c ∈ T₀
      · rw [relA_head hcp]
        exact ⟨rfl, rfl⟩
      · push_neg at hcp
        rw [relA_out hcp.1 hcp.2]
        have hclmem : F.clauses.getD c [] ∈ F.clauses := by
          rw [List.getD_eq_getElem _ _ hc]
          exact List.getElem_mem _
        have hclwf := hwf _ hclmem
        have h0cl : ∀ l ∈ F.clauses.getD c [], l ≠ 0 := fun l hl => (hclwf.1 l hl).1
        have hno : ∀ l ∈ F.clauses.getD c [], l.natAbs ≠ v₀ := by
          intro l hl habs
          rcases lit_eq_satLit_or (a₀.flip v₀) hv1 (h0cl l hl) habs with h | h
          · exact hcp.1 ((mem_get_occurrences hwf).mpr ⟨hc, h ▸ hl⟩)
          · exact hcp.2 ((mem_get_occurrences hwf).mpr ⟨hc, h ▸ hl⟩)
        exact ⟨trueCount_flip_no_var hv1 h0cl hno,
          utv_flip_no_var hv1 h0cl hno⟩
    refine ⟨hL1, hL2, ?_, ?_, hD, hE, hFw, hFm⟩
    · intro c hc
      rw [(hrel c hc).1]
      have h := hB c hc
      rwa [relA_nil] at h
    · intro c hc hcount
      rw [(hrel c hc).1] at hcount
      rw [(hrel c hc).2]
      have h := hC c hc
      rw [relA_nil] at h
      exact h hcount
  have h1 := scan1_fold hwf hv hlen S₀ (get_occurrences_nodup hwf _) hSmem hstart
  have h2 := scan2_fold hwf hv hlen T₀ (get_occurrences_nodup hwf _)
    (fun c hc => hTmem c hc) h1
  refine ⟨hlen', ?_⟩
  show MidInv F (a₀.flip v₀) (a₀.flip v₀) [] []
    ((F.get_occurrences (-satLit (a₀.flip v₀) v₀)).foldl
      (flipStep2 F v₀ (a₀.flip v₀))
      ((F.get_occurrences (satLit (a₀.flip v₀) v₀)).foldl
        (flipStep1 F v₀) (st.ds, st.falselist))).1
    ((F.get_occurrences (-satLit (a₀.flip v₀) v₀)).foldl
      (flipStep2 F v₀ (a₀.flip v₀))
      ((F.get_occurrences (satLit (a₀.flip v₀) v₀)).foldl
        (flipStep1 F v₀) (st.ds, st.falselist))).2
  obtain ⟨g1, g2, gB, gC, gD, gE, gFw, gFm⟩ := h2
  refine ⟨g1, g2, ?_, ?_, gD, gE, gFw, gFm⟩
  · intro c hc
    have h := gB c hc
    rwa [relA_nil] at h ⊢
  · intro c hc
    have h := gC c hc
    rw [relA_nil] at h ⊢
    exact h
end DiffScores

/-- The "last true variable" accumulator of `DiffScores.__init__` runs over
the filtered list. -/
theorem lastTrue_filter (a : Assignment) :
    ∀ (cl : List Int) (acc : Nat),
      cl.foldl (fun x l => if a.is_true l then l.natAbs else x) acc
        = (cl.filter (fun l => a.is_true l)).foldl (fun x l => l.natAbs) acc := by
  intro cl
  induction cl with
  | nil => intro acc; rfl
  | cons l t ih =>
    intro acc
    rw [List.foldl_cons, List.filter_cons]
    by_cases hp : a.is_true l
    · rw [if_pos hp, if_pos hp, List.foldl_cons, ih]
    · rw [if_neg hp, if_neg hp, ih]

/-- In a uniquely satisfied clause the last true variable is the critical
variable. -/
theorem lastTrue_eq_utv {a : Assignment} {cl : List Int}
    (h : trueCount a cl = 1) :
    cl.foldl (fun x l => if a.is_true l then l.natAbs else x) 0 = utv a cl := by
  obtain ⟨l, hf⟩ := trueLits_singleton h
  rw [lastTrue_filter, hf]
  unfold utv
  rw [hf]
  rfl

namespace DiffScores

theorem initStep_one {a : Assignment} {ds : DiffScores} {fl : Falselist}
    {idx : Nat} {cl : List Int} (h : cl.countP (fun l => a.is_true l) = 1) :
    initStep a (ds, fl) idx cl =
      (({ ds with
          crit_var := ds.crit_var ++
            [some (cl.foldl (fun acc l => if a.is_true l then l.natAbs else acc) 0)]
          num_true_lit := ds.num_true_lit ++ [(1 : Int)] }).decrement_score
        (cl.foldl (fun acc l => if a.is_true l then l.natAbs else acc) 0), fl) := by
  simp only [initStep, h]
  rw [if_pos trivial]
  norm_num

theorem initStep_zero {a : Assignment} {ds : DiffScores} {fl : Falselist}
    {idx : Nat} {cl : List Int} (h : cl.countP (fun l => a.is_true l) = 0) :
    initStep a (ds, fl) idx cl =
      (cl.foldl (fun d l => d.increment_score l.natAbs)
        { ds with
          crit_var := ds.crit_var ++ [none]
          num_true_lit := ds.num_true_lit ++ [(0 : Int)] }, fl.add idx) := by
  simp only [initStep, h]
  rw [if_neg (show ¬((0:Nat) = 1) by decide), if_pos trivial]
  norm_num

theorem initStep_other {a : Assignment} {ds : DiffScores} {fl : Falselist}
    {idx : Nat} {cl : List Int} (h1 : cl.countP (fun l => a.is_true l) ≠ 1)
    (h0 : cl.countP (fun l => a.is_true l) ≠ 0) :
    initStep a (ds, fl) idx cl =
      ({ ds with
          crit_var := ds.crit_var ++ [none]
          num_true_lit := ds.num_true_lit ++
            [(cl.countP (fun l => a.is_true l) : Int)] }, fl) := by
  simp only [initStep]
  rw [if_neg h1, if_neg h0, if_neg h1]

/-- The invariant of the `DiffScores.__init__` clause loop after the first
`k` clauses have been processed. -/
def InitInv (F : Formula) (a : Assignment) (k : Nat)
    (st : DiffScores × Falselist) : Prop :=
  st.1.num_true_lit.length = k ∧
  st.1.crit_var.length = k ∧
  (∀ c, c < k → st.1.getNtl c = (trueCount a (F.clauses.getD c []) : Int)) ∧
  (∀ c, c < k → trueCount a (F.clauses.getD c []) = 1 →
    st.1.getCrit c = some (utv a (F.clauses.getD c []))) ∧
  (∀ w ∈ Finset.Icc 1 F.num_vars, st.1.score w = specS F st.1 k w) ∧
  Canon F.num_vars st.1 ∧
  FlWf st.2 ∧
  (∀ x, x ∈ st.2.lst ↔ (x < k ∧ st.1.getNtl x = 0))

set_option maxHeartbeats 2000000 in
/-- One clause of the `DiffScores.__init__` loop extends the initialisation
invariant from `k` to `k + 1` clauses. -/
theorem initStep_initinv {F : Formula} (hwf : FormulaWf F) {a : Assignment}
    {k : Nat} {ds : DiffScores} {fl : Falselist}
    (hk : k < F.clauses.length) (hinv : InitInv F a k (ds, fl)) :
    InitInv F a (k + 1) (initStep a (ds, fl) k (F.clauses.getD k [])) := by
  obtain ⟨hL1, hL2, hB, hC, hD, hE, hFw, hFm⟩ := hinv
  have hclmem : F.clauses.getD k [] ∈ F.clauses := by
    rw [List.getD_eq_getElem _ _ hk]
    exact List.getElem_mem _
  have hclwf : ClauseWf F.num_vars (F.clauses.getD k []) := hwf _ hclmem
  have hvars : ∀ l ∈ F.clauses.getD k [], l.natAbs ∈ Finset.Icc 1 F.num_vars := by
    intro l hl
    have hpos : 0 < l.natAbs := Int.natAbs_pos.mpr (hclwf.1 l hl).1
    have hle := (hclwf.1 l hl).2
    rw [Finset.mem_Icc]
    omega
  by_cases ht1 : (F.clauses.getD k []).countP (fun l => a.is_true l) = 1
  · -- uniquely satisfied clause
    have htc : trueCount a (F.clauses.getD k []) = 1 := ht1
    have hcveq : (F.clauses.getD k []).foldl
        (fun acc l => if a.is_true l then l.natAbs else acc) 0
        = utv a (F.clauses.getD k []) := lastTrue_eq_utv htc
    have hcv : (F.clauses.getD k []).foldl
        (fun acc l => if a.is_true l then l.natAbs else acc) 0
        ∈ Finset.Icc 1 F.num_vars := by
      rw [hcveq]
      exact utv_mem_Icc hclwf htc
    rw [initStep_one ht1]
    set cv := (F.clauses.getD k []).foldl
      (fun acc l => if a.is_true l then l.natAbs else acc) 0 with hcvdef
    set ds1 : DiffScores :=
      { ds with
        crit_var := ds.crit_var ++ [some cv]
        num_true_lit := ds.num_true_lit ++ [(1 : Int)] } with hds1
    have hE1 : Canon F.num_vars ds1 := hE
    obtain ⟨hCA, hsA, hnA, hcrA⟩ := decrement_score_spec hE1 hcv
    set dsA := ds1.decrement_score cv with hdsA
    have hnA' : dsA.num_true_lit = ds.num_true_lit ++ [(1 : Int)] := hnA
    have hcrA' : dsA.crit_var = ds.crit_var ++ [some cv] := hcrA
    have hntl_lt : ∀ c, c < k → dsA.getNtl c = ds.getNtl c := by
      intro c hc
      show dsA.num_true_lit.getD c 0 = _
      rw [hnA', getD_append_lt (by rw [hL1]; exact hc)]
      rfl
    have hntl_k : dsA.getNtl k = 1 := by
      show dsA.num_true_lit.getD k 0 = 1
      rw [hnA', ← hL1, getD_append_len]
    have hcrit_lt : ∀ c, c < k → dsA.getCrit c = ds.getCrit c := by
      intro c hc
      show dsA.crit_var.getD c none = _
      rw [hcrA', getD_append_lt (by rw [hL2]; exact hc)]
      rfl
    have hcrit_k : dsA.getCrit k = some cv := by
      show dsA.crit_var.getD k none = some cv
      rw [hcrA', ← hL2, getD_append_len]
    refine ⟨?_, ?_, ?_, ?_, ?_, hCA, hFw, ?_⟩
    · rw [hnA', List.length_append, hL1]
      rfl
    · rw [hcrA', List.length_append, hL2]
      rfl
    · intro c hc
      rcases Nat.lt_succ_iff_lt_or_eq.mp hc with hlt | rfl
      · rw [hntl_lt c hlt]
        exact hB c hlt
      · rw [hntl_k, htc]
        rfl
    · intro c hc hcount
      rcases Nat.lt_succ_iff_lt_or_eq.mp hc with hlt | rfl
      · rw [hcrit_lt c hlt]
        exact hC c hlt hcount
      · rw [hcrit_k, hcveq]
    · intro w hw
      have hoff : ∀ x, x < k → specTerm F dsA w x = specTerm F ds w x := by
        intro x hx
        unfold specTerm
        rw [hntl_lt x hx, hcrit_lt x hx]
      have hterm_k : specTerm F dsA w k = -(if w = cv then 1 else 0) := by
        unfold specTerm
        rw [if_neg (show ¬(dsA.getNtl k = 0 ∧ (∃ l ∈ F.clauses.getD k [], l.natAbs = w))
          from fun hcc => by rw [hntl_k] at hcc; exact absurd hcc.1 (by decide))]
        by_cases hwv : w = cv
        · rw [if_pos (show dsA.getNtl k = 1 ∧ dsA.getCrit k = some w from
            ⟨hntl_k, by rw [hcrit_k, hwv]⟩), if_pos hwv]
          ring
        · rw [if_neg (show ¬(dsA.getNtl k = 1 ∧ dsA.getCrit k = some w) from
            fun hcc => hwv (by
              have h := hcc.2
              rw [hcrit_k] at h
              exact (Option.some.inj h).symm)), if_neg hwv]
          ring
      have hpre : specS F dsA k w = specS F ds k w := by
        unfold specS
        apply Finset.sum_congr rfl
        intro x hx
        exact hoff x (Finset.mem_range.mp hx)
      show dsA.score w = specS F dsA (k + 1) w
      unfold specS
      rw [Finset.sum_range_succ]
      have hsS : ∑ c in Finset.range k, specTerm F dsA w c = specS F ds k w := hpre
      rw [hsS, hterm_k, ← hD w hw, hsA]
      show Function.update ds.score cv (ds.score cv - 1) w = _
      by_cases hwv : w = cv
      · rw [hwv, Function.update_same, if_pos rfl]
        ring
      · rw [Function.update_noteq hwv, if_neg hwv]
        ring
    · intro x
      rw [hFm x]
      constructor
      · rintro ⟨hx1, hx2⟩
        refine ⟨by omega, ?_⟩
        rw [hntl_lt x hx1]
        exact hx2
      · rintro ⟨hx1, hx2⟩
        by_cases hxk : x = k
        · subst hxk
          rw [hntl_k] at hx2
          exact absurd hx2 (by decide)
        · have hx1' : x < k := by omega
          rw [hntl_lt x hx1'] at hx2
          exact ⟨hx1', hx2⟩
  · by_cases ht0 : (F.clauses.getD k []).countP (fun l => a.is_true l) = 0
    · -- falsified clause
      have htc : trueCount a (F.clauses.getD k []) = 0 := ht0
      rw [initStep_zero ht0]
      set ds1 : DiffScores :=
        { ds with
          crit_var := ds.crit_var ++ [none]
          num_true_lit := ds.num_true_lit ++ [(0 : Int)] } with hds1
      have hE1 : Canon F.num_vars ds1 := hE
      obtain ⟨hCA, hsA, hnA, hcrA⟩ := foldl_increment_spec hE1 hvars
      set dsB := (F.clauses.getD k []).foldl
        (fun d l => d.increment_score l.natAbs) ds1 with hdsB
      have hnA' : dsB.num_true_lit = ds.num_true_lit ++ [(0 : Int)] := hnA
      have hcrA' : dsB.crit_var = ds.crit_var ++ [none] := hcrA
      have hntl_lt : ∀ c, c < k → dsB.getNtl c = ds.getNtl c := by
        intro c hc
        show dsB.num_true_lit.getD c 0 = _
        rw [hnA', getD_append_lt (by rw [hL1]; exact hc)]
        rfl
      have hntl_k : dsB.getNtl k = 0 := by
        show dsB.num_true_lit.getD k 0 = 0
        rw [hnA', ← hL1, getD_append_len]
      have hcrit_lt : ∀ c, c < k → dsB.getCrit c = ds.getCrit c := by
        intro c hc
        show dsB.crit_var.getD c none = _
        rw [hcrA', getD_append_lt (by rw [hL2]; exact hc)]
        rfl
      have hcrit_k : dsB.getCrit k = none := by
        show dsB.crit_var.getD k none = none
        rw [hcrA', ← hL2, getD_append_len]
      have hkfl : k ∉ fl.lst := by
        intro hmem
        exact absurd ((hFm k).mp hmem).1 (by omega)
      obtain ⟨hFw', hlst'⟩ := flwf_add hFw hkfl
      refine ⟨?_, ?_, ?_, ?_, ?_, hCA, hFw', ?_⟩
      · rw [hnA', List.length_append, hL1]
        rfl
      · rw [hcrA', List.length_append, hL2]
        rfl
      · intro c hc
        rcases Nat.lt_succ_iff_lt_or_eq.mp hc with hlt | rfl
        · rw [hntl_lt c hlt]
          exact hB c hlt
        · rw [hntl_k, htc]
          rfl
      · intro c hc hcount
        rcases Nat.lt_succ_iff_lt_or_eq.mp hc with hlt | rfl
        · rw [hcrit_lt c hlt]
          exact hC c hlt hcount
        · rw [htc] at hcount
          exact absurd hcount (by decide)
      · intro w hw
        have hoff : ∀ x, x < k → specTerm F dsB w x = specTerm F ds w x := by
          intro x hx
          unfold specTerm
          rw [hntl_lt x hx, hcrit_lt x hx]
        have hterm_k : specTerm F dsB w k
            = (if ∃ l ∈ F.clauses.getD k [], l.natAbs = w then 1 else 0) := by
          unfold specTerm
          rw [if_neg (show ¬(dsB.getNtl k = 1 ∧ dsB.getCrit k = some w)
            from fun hcc => by rw [hntl_k] at hcc; exact absurd hcc.1 (by decide))]
          by_cases hex : ∃ l ∈ F.clauses.getD k [], l.natAbs = w
          · rw [if_pos ⟨hntl_k, hex⟩, if_pos hex]
            ring
          · rw [if_neg (fun h => hex h.2), if_neg hex]
            ring
        have hpre : specS F dsB k w = specS F ds k w := by
          unfold specS
          apply Finset.sum_congr rfl
          intro x hx
          exact hoff x (Finset.mem_range.mp hx)
        show dsB.score w = specS F dsB (k + 1) w
        unfold specS
        rw [Finset.sum_range_succ]
        have hsS : ∑ c in Finset.range k, specTerm F dsB w c = specS F ds k w := hpre
        rw [hsS, hterm_k, ← hD w hw]
        simp only [hsA]
        rw [countVar_eq hclwf w]
      · intro x
        rw [hlst', List.mem_append, List.mem_singleton, hFm x]
        constructor
        · rintro (⟨hx1, hx2⟩ | rfl)
          · refine ⟨by omega, ?_⟩
            rw [hntl_lt x hx1]
            exact hx2
          · exact ⟨by omega, hntl_k⟩
        · rintro ⟨hx1, hx2⟩
          by_cases hxk : x = k
          · exact Or.inr hxk
          · have hx1' : x < k := by omega
            rw [hntl_lt x hx1'] at hx2
            exact Or.inl ⟨hx1', hx2⟩
    · -- clause with at least two true literals
      have htc2 : 2 ≤ trueCount a (F.clauses.getD k []) := by
        have : trueCount a (F.clauses.getD k [])
            = (F.clauses.getD k []).countP (fun l => a.is_true l) := rfl
        omega
      rw [initStep_other ht1 ht0]
      set t := (F.clauses.getD k []).countP (fun l => a.is_true l) with htdef
      set ds1 : DiffScores :=
        { ds with
          crit_var := ds.crit_var ++ [none]
          num_true_lit := ds.num_true_lit ++ [(t : Int)] } with hds1
      have hntl_lt : ∀ c, c < k → ds1.getNtl c = ds.getNtl c := by
        intro c hc
        show ds1.num_true_lit.getD c 0 = _
        show (ds.num_true_lit ++ [(t : Int)]).getD c 0 = _
        rw [getD_append_lt (by rw [hL1]; exact hc)]
        rfl
      have hntl_k : ds1.getNtl k = (t : Int) := by
        show (ds.num_true_lit ++ [(t : Int)]).getD k 0 = _
        rw [← hL1, getD_append_len]
      have hcrit_lt : ∀ c, c < k → ds1.getCrit c = ds.getCrit c := by
        intro c hc
        show (ds.crit_var ++ [none]).getD c none = _
        rw [getD_append_lt (by rw [hL2]; exact hc)]
        rfl
      have ht2 : 2 ≤ t := by
        have : t = trueCount a (F.clauses.getD k []) := rfl
        omega
      refine ⟨?_, ?_, ?_, ?_, ?_, hE, hFw, ?_⟩
      · show (ds.num_true_lit ++ [(t : Int)]).length = k + 1
        rw [List.length_append, hL1]
        rfl
      · show (ds.crit_var ++ [none]).length = k + 1
        rw [List.length_append, hL2]
        rfl
      · intro c hc
        rcases Nat.lt_succ_iff_lt_or_eq.mp hc with hlt | rfl
        · rw [hntl_lt c hlt]
          exact hB c hlt
        · rw [hntl_k]
          rfl
      · intro c hc hcount
        rcases Nat.lt_succ_iff_lt_or_eq.mp hc with hlt | rfl
        · rw [hcrit_lt c hlt]
          exact hC c hlt hcount
        · omega
      · intro w hw
        have hoff : ∀ x, x < k → specTerm F ds1 w x = specTerm F ds w x := by
          intro x hx
          unfold specTerm
          rw [hntl_lt x hx, hcrit_lt x hx]
        have hterm_k : specTerm F ds1 w k = 0 := by
          unfold specTerm
          rw [if_neg (show ¬(ds1.getNtl k = 0 ∧ (∃ l ∈ F.clauses.getD k [], l.natAbs = w))
              from fun hcc => by
                have h := hcc.1
                rw [hntl_k] at h
                have : t = 0 := by exact_mod_cast h
                omega),
            if_neg (show ¬(ds1.getNtl k = 1 ∧ ds1.getCrit k = some w)
              from fun hcc => by
                have h := hcc.1
                rw [hntl_k] at h
                have : t = 1 := by exact_mod_cast h
                omega)]
          ring
        have hpre : specS F ds1 k w = specS F ds k w := by
          unfold specS
          apply Finset.sum_congr rfl
          intro x hx
          exact hoff x (Finset.mem_range.mp hx)
        show ds.score w = specS F ds1 (k + 1) w
        unfold specS
        rw [Finset.sum_range_succ]
        have hsS : ∑ c in Finset.range k, specTerm F ds1 w c = specS F ds k w := hpre
        rw [hsS, hterm_k, ← hD w hw]
        ring
      · intro x
        rw [hFm x]
        constructor
        · rintro ⟨hx1, hx2⟩
          refine ⟨by omega, ?_⟩
          rw [hntl_lt x hx1]
          exact hx2
        · rintro ⟨hx1, hx2⟩
          by_cases hxk : x = k
          · subst hxk
            rw [hntl_k] at hx2
            have : t = 0 := by exact_mod_cast hx2
            omega
          · have hx1' : x < k := by omega
            rw [hntl_lt x hx1'] at hx2
            exact ⟨hx1', hx2⟩

end DiffScores

namespace DiffScores

/-- Running the `DiffScores.__init__` loop over the remaining clauses carries
the initialisation invariant to the end. -/
theorem initLoop_initinv {F : Formula} (hwf : FormulaWf F) {a : Assignment} :
    ∀ (rest : List (List Int)) (k : Nat) (st : DiffScores × Falselist),
      F.clauses.drop k = rest → k ≤ F.clauses.length → InitInv F a k st →
      InitInv F a F.clauses.length (initLoop a rest k st) := by
  intro rest
  induction rest with
  | nil =>
    intro k st hdrop hk hinv
    have hge : F.clauses.length ≤ k := List.drop_eq_nil_iff.mp hdrop
    have hkk : k = F.clauses.length := by omega
    subst hkk
    exact hinv
  | cons cl rest ih =>
    intro k st hdrop hk hinv
    have hklt : k < F.clauses.length := by
      by_contra hge
      rw [List.drop_eq_nil_of_le (by omega)] at hdrop
      cases hdrop
    have hcl : F.clauses.getD k [] = cl := by
      have h0 : (F.clauses.drop k).getD 0 [] = cl := by rw [hdrop]; rfl
      rw [List.getD_eq_getElem _ _ (show 0 < (F.clauses.drop k).length by
        rw [hdrop]; exact Nat.succ_pos _), List.getElem_drop] at h0
      rw [List.getD_eq_getElem _ _ (by omega)]
      rw [← h0]
      congr 1
    have hrest : F.clauses.drop (k + 1) = rest := by
      have h := List.drop_drop 1 k F.clauses
      rw [hdrop] at h
      rw [← h]
      rfl
    show InitInv F a F.clauses.length (initLoop a rest (k + 1) (initStep a st k cl))
    have hstep : InitInv F a (k + 1) (initStep a st k cl) := by
      rw [← hcl]
      have hst : st = (st.1, st.2) := rfl
      rw [hst] at hinv ⊢
      exact initStep_initinv hwf hklt hinv
    exact ih (k + 1) _ hrest (by omega) hstep

/-- `DiffScores.__init__` establishes the scoreboard invariant (the formula
must have at least one variable for the bucket array to be non-degenerate,
exactly as in the Python constructor). -/
theorem inv_init {F : Formula} (hwf : FormulaWf F) {a : Assignment}
    (hN : 1 ≤ F.num_vars) (hlen : a.atoms.length = F.num_vars) :
    Inv F (initState F a) := by
  set ds0 : DiffScores :=
    { crit_var := []
      num_true_lit := []
      score := fun _ => 0
      best_score := 0
      buckets := fun s => if s = 0 then Finset.Icc 1 F.num_vars else ∅ } with hds0
  have hbase : InitInv F a 0 (ds0, Falselist.empty) := by
    refine ⟨rfl, rfl, ?_, ?_, ?_, ?_, ?_, ?_⟩
    · intro c hc
      omega
    · intro c hc
      omega
    · intro w hw
      show (0 : Int) = specS F ds0 0 w
      unfold specS
      rw [Finset.sum_range_zero]
    · refine ⟨?_, ⟨1, Finset.mem_Icc.mpr (by omega), rfl⟩, fun w _ => le_refl _⟩
      intro s
      show (if s = 0 then Finset.Icc 1 F.num_vars else ∅) = _
      by_cases hs : s = 0
      · rw [if_pos hs]
        subst hs
        apply Finset.ext
        intro w
        rw [Finset.mem_filter]
        exact ⟨fun h => ⟨h, rfl⟩, fun h => h.1⟩
      · rw [if_neg hs]
        apply Finset.ext
        intro w
        rw [Finset.mem_filter]
        constructor
        · intro h
          cases h
        · rintro ⟨-, h⟩
          exact absurd h.symm hs
    · exact ⟨List.nodup_nil, fun x => rfl⟩
    · intro x
      constructor
      · intro h
        cases h
      · rintro ⟨h, -⟩
        omega
  have hfin := initLoop_initinv hwf F.clauses 0 (ds0, Falselist.empty) rfl
    (Nat.zero_le _) hbase
  obtain ⟨k1, k2, kB, kC, kD, kE, kFw, kFm⟩ := hfin
  refine ⟨hlen, k1, k2, ?_, ?_, kD, kE, kFw, kFm⟩
  · intro c hc
    rw [relA_nil]
    exact kB c hc
  · intro c hc
    rw [relA_nil]
    exact kC c hc

end DiffScores

namespace DiffScores

/-- Any sequence of in-range flips preserves the scoreboard invariant. -/
theorem applyFlips_inv {F : Formula} (hwf : FormulaWf F) :
    ∀ (ws : List Nat) {st : SState},
      (∀ v ∈ ws, v ∈ Finset.Icc 1 F.num_vars) → Inv F st →
      Inv F (applyFlips F st ws) := by
  intro ws
  induction ws with
  | nil =>
    intro st _ hinv
    exact hinv
  | cons v ws ih =>
    intro st hws hinv
    show Inv F (applyFlips F (flip F v st) ws)
    exact ih (fun x hx => hws x (List.mem_cons_of_mem v hx))
      (flip_inv hwf (hws v (List.mem_cons_self v ws)) hinv)

end DiffScores

/-- Counting occurrence-list entries satisfying `p` as a `Finset` card over
the clause indices. -/
theorem countP_occ_eq {F : Formula} (hwf : FormulaWf F) (lit : Int) (p : Nat → Bool) :
    (F.get_occurrences lit).countP p
      = ((Finset.range F.clauses.length).filter
          (fun c => lit ∈ F.clauses.getD c [] ∧ p c = true)).card := by
  rw [List.countP_eq_length_filter,
    ← List.toFinset_card_of_nodup (List.Nodup.filter p (get_occurrences_nodup hwf lit))]
  congr 1
  apply Finset.ext
  intro x
  rw [List.mem_toFinset, List.mem_filter, mem_get_occurrences hwf,
    Finset.mem_filter, Finset.mem_range]
  tauto

namespace DiffScores

set_option maxHeartbeats 2000000 in
/-- The scoreboard invariant implies that the source's own consistency test
passes. -/
theorem inv_self_test {F : Formula} (hwf : FormulaWf F) {st : SState}
    (hinv : Inv F st) :
    self_test F st.assignment st.ds = true := by
  obtain ⟨hlen, hL1, hL2, hB', hC', hD, hE, hFw, hFm⟩ := hinv
  set a := st.assignment with ha
  set ds := st.ds with hds
  have hB : ∀ c, c < F.clauses.length →
      ds.getNtl c = (trueCount a (F.clauses.getD c []) : Int) := by
    intro c hc
    have h := hB' c hc
    rwa [relA_nil] at h
  have hC : ∀ c, c < F.clauses.length →
      trueCount a (F.clauses.getD c []) = 1 →
      ds.getCrit c = some (utv a (F.clauses.getD c [])) := by
    intro c hc
    have h := hC' c hc
    rwa [relA_nil] at h
  unfold self_test
  rw [Bool.and_eq_true]
  constructor
  · rw [List.all_eq_true]
    rintro ⟨i, cl⟩ hmem
    obtain ⟨hi, hx⟩ := List.mem_enum hmem
    show ((cl.countP (fun l => a.is_true l) : Int) == ds.getNtl i) = true
    rw [beq_iff_eq, hB i hi, hx, List.getD_eq_getElem _ _ hi]
    rfl
  · rw [List.all_eq_true]
    intro v hv
    obtain ⟨hv1, hv2⟩ := List.mem_range'_1.mp hv
    have hvI : v ∈ Finset.Icc 1 F.num_vars := Finset.mem_Icc.mpr ⟨hv1, by omega⟩
    have hsl : (if a.get_value v then (v : Int) else -(v : Int)) = satLit a v := by
      unfold satLit
      rw [a.is_true_coe hv1]
    show (let sat_lit : Int := if a.get_value v then (v : Int) else -(v : Int)
      let breaks := (F.get_occurrences sat_lit).countP
        (fun c => ds.getNtl c == 1 && ds.getCrit c == some v)
      let makes := (F.get_occurrences (-sat_lit)).countP (fun c => ds.getNtl c == 0)
      (((makes : Int) - (breaks : Int)) == ds.score v) &&
        decide (v ∈ ds.buckets (ds.score v))) = true
    rw [hsl]
    show (((((F.get_occurrences (-satLit a v)).countP
        (fun c => ds.getNtl c == 0) : Int)
      - ((F.get_occurrences (satLit a v)).countP
        (fun c => ds.getNtl c == 1 && ds.getCrit c == some v) : Int))
        == ds.score v) && decide (v ∈ ds.buckets (ds.score v))) = true
    rw [Bool.and_eq_true, beq_iff_eq, decide_eq_true_eq]
    have hscore : ds.score v
        = ((Finset.range F.clauses.length).filter
            (fun c => ds.getNtl c = 0 ∧ (∃ l ∈ F.clauses.getD c [], l.natAbs = v))).card
          - ((Finset.range F.clauses.length).filter
            (fun c => ds.getNtl c = 1 ∧ ds.getCrit c = some v)).card := by
      rw [hD v hvI]
      unfold specS specTerm
      rw [Finset.sum_sub_distrib, Finset.sum_boole, Finset.sum_boole]
    have hmakes : (F.get_occurrences (-satLit a v)).countP (fun c => ds.getNtl c == 0)
        = ((Finset.range F.clauses.length).filter
            (fun c => ds.getNtl c = 0 ∧ (∃ l ∈ F.clauses.getD c [], l.natAbs = v))).card := by
      rw [countP_occ_eq hwf]
      congr 1
      apply Finset.filter_congr
      intro c hc
      have hcM := Finset.mem_range.mp hc
      have hclmem : F.clauses.getD c [] ∈ F.clauses := by
        rw [List.getD_eq_getElem _ _ hcM]
        exact List.getElem_mem _
      have hclwf := hwf _ hclmem
      constructor
      · rintro ⟨hmem, hp⟩
        rw [beq_iff_eq] at hp
        exact ⟨hp, ⟨-satLit a v, hmem, by rw [Int.natAbs_neg, satLit_natAbs a hv1]⟩⟩
      · rintro ⟨hz, ⟨l, hlmem, habs⟩⟩
        have hcnt : trueCount a (F.clauses.getD c []) = 0 := by
          have h := hB c hcM
          rw [hz] at h
          exact_mod_cast h.symm
        have h0 : l ≠ 0 := (hclwf.1 l hlmem).1
        rcases lit_eq_satLit_or a hv1 h0 habs with rfl | rfl
        · exact absurd hcnt (by
            have := trueCount_pos_of_mem hlmem (is_true_satLit a hv1)
            omega)
        · exact ⟨hlmem, by rw [beq_iff_eq, hz]⟩
    have hbreaks : (F.get_occurrences (satLit a v)).countP
          (fun c => ds.getNtl c == 1 && ds.getCrit c == some v)
        = ((Finset.range F.clauses.length).filter
            (fun c => ds.getNtl c = 1 ∧ ds.getCrit c = some v)).card := by
      rw [countP_occ_eq hwf]
      congr 1
      apply Finset.filter_congr
      intro c hc
      have hcM := Finset.mem_range.mp hc
      have hclmem : F.clauses.getD c [] ∈ F.clauses := by
        rw [List.getD_eq_getElem _ _ hcM]
        exact List.getElem_mem _
      have hclwf := hwf _ hclmem
      constructor
      · rintro ⟨hmem, hp⟩
        rw [Bool.and_eq_true, beq_iff_eq, beq_iff_eq] at hp
        exact hp
      · rintro ⟨h1, hcrit⟩
        have hcnt : trueCount a (F.clauses.getD c []) = 1 := by
          have h := hB c hcM
          rw [h1] at h
          exact_mod_cast h.symm
        have hucrit := hC c hcM hcnt
        have hutv : utv a (F.clauses.getD c []) = v := by
          rw [hucrit] at hcrit
          exact Option.some.inj hcrit
        obtain ⟨lstar, hf⟩ := trueLits_singleton hcnt
        obtain ⟨hu, hmem, htrue, -⟩ := utv_spec hf
        have habs : lstar.natAbs = v := by rw [← hu, hutv]
        have h0 : lstar ≠ 0 := (hclwf.1 lstar hmem).1
        rcases lit_eq_satLit_or a hv1 h0 habs with rfl | rfl
        · refine ⟨hmem, ?_⟩
          rw [Bool.and_eq_true, beq_iff_eq, beq_iff_eq]
          exact ⟨h1, hcrit⟩
        · rw [is_true_neg_satLit a hv1] at htrue
          cases htrue
    refine ⟨?_, ?_⟩
    · rw [hmakes, hbreaks, hscore]
    · rw [hE.1 (ds.score v), Finset.mem_filter]
      exact ⟨hvI, rfl⟩

end DiffScores

/-! ## Claim theorems for the DIFF scoreboard (C1 - C3) -/

/-- Claim C1: for every formula whose clauses carry at most one literal per
variable, every initial assignment of width `N ≥ 1` and every finite sequence
of in-range flips applied through `DiffScores.flip`, after construction and
after each complete flip the scoreboard passes `self_test`: the true-literal
counters, the recomputed make−break scores, and the critical variables of
uniquely satisfied clauses all agree with the current assignment. -/
theorem claim_C1_self_test (F : Formula) (a₀ : Assignment) (ws : List Nat)
    (hwf : FormulaWf F) (hN : 1 ≤ F.num_vars)
    (hlen : a₀.atoms.length = F.num_vars)
    (hws : ∀ v ∈ ws, v ∈ Finset.Icc 1 F.num_vars) :
    DiffScores.self_test F
      (DiffScores.applyFlips F (DiffScores.initState F a₀) ws).assignment
      (DiffScores.applyFlips F (DiffScores.initState F a₀) ws).ds = true :=
  DiffScores.inv_self_test hwf
    (DiffScores.applyFlips_inv hwf ws hws (DiffScores.inv_init hwf hN hlen))

/-- Concrete 2-variable formula used by the witnesses. -/
def Fex : Formula := Formula.fromParts [[1, -2], [-1, 2]] 2 (Assignment.mk' 3 2)

/-- Concrete initial assignment used by the witnesses. -/
def aex : Assignment := Assignment.mk' 0 2

/-- Witness for C1 at a concrete formula, assignment and flip sequence. -/
theorem claim_C1_self_test_witness :
    (FormulaWf Fex ∧ 1 ≤ Fex.num_vars ∧ aex.atoms.length = Fex.num_vars ∧
      (∀ v ∈ [1, 2, 1], v ∈ Finset.Icc 1 Fex.num_vars)) ∧
    DiffScores.self_test Fex
      (DiffScores.applyFlips Fex (DiffScores.initState Fex aex) [1, 2, 1]).assignment
      (DiffScores.applyFlips Fex (DiffScores.initState Fex aex) [1, 2, 1]).ds = true :=
  ⟨⟨by decide, by decide, by decide, by decide⟩,
   claim_C1_self_test Fex aex [1, 2, 1] (by decide) (by decide) (by decide)
     (by decide)⟩

/-- Claim C2: at every flip boundary of the DIFF scoreboard (after
construction and after each complete `DiffScores.flip`), every variable
`v ∈ 1..N` lies in the bucket of its score and in no other bucket, all
buckets above `best_score` are empty, and the bucket of `best_score` is
non-empty. -/
theorem claim_C2_buckets (F : Formula) (a₀ : Assignment) (ws : List Nat)
    (hwf : FormulaWf F) (hN : 1 ≤ F.num_vars)
    (hlen : a₀.atoms.length = F.num_vars)
    (hws : ∀ v ∈ ws, v ∈ Finset.Icc 1 F.num_vars) :
    (∀ v ∈ Finset.Icc 1 F.num_vars,
      v ∈ (DiffScores.applyFlips F (DiffScores.initState F a₀) ws).ds.buckets
        ((DiffScores.applyFlips F (DiffScores.initState F a₀) ws).ds.score v) ∧
      (∀ s : Int,
        v ∈ (DiffScores.applyFlips F (DiffScores.initState F a₀) ws).ds.buckets s →
        s = (DiffScores.applyFlips F (DiffScores.initState F a₀) ws).ds.score v)) ∧
    (∀ s : Int,
      (DiffScores.applyFlips F (DiffScores.initState F a₀) ws).ds.best_score < s →
      (DiffScores.applyFlips F (DiffScores.initState F a₀) ws).ds.buckets s = ∅) ∧
    ((DiffScores.applyFlips F (DiffScores.initState F a₀) ws).ds.buckets
      (DiffScores.applyFlips F (DiffScores.initState F a₀) ws).ds.best_score).Nonempty := by
  obtain ⟨-, -, -, -, -, -, hE, -, -⟩ :=
    DiffScores.applyFlips_inv hwf ws hws (DiffScores.inv_init hwf hN hlen)
  obtain ⟨hBk, ⟨w₀, hw₀, hbest⟩, hmax⟩ := hE
  set ds := (DiffScores.applyFlips F (DiffScores.initState F a₀) ws).ds with hdsd
  refine ⟨?_, ?_, ?_⟩
  · intro v hv
    constructor
    · rw [hBk (ds.score v), Finset.mem_filter]
      exact ⟨hv, rfl⟩
    · intro s hs
      rw [hBk s, Finset.mem_filter] at hs
      exact hs.2.symm
  · intro s hgt
    rw [hBk s]
    rw [Finset.filter_eq_empty_iff]
    intro w hw
    have h := hmax w hw
    omega
  · refine ⟨w₀, ?_⟩
    rw [hBk ds.best_score, Finset.mem_filter]
    exact ⟨hw₀, hbest⟩

/-- Witness for C2 at a concrete formula, assignment and flip sequence. -/
theorem claim_C2_buckets_witness :
    (FormulaWf Fex ∧ 1 ≤ Fex.num_vars ∧ aex.atoms.length = Fex.num_vars ∧
      (∀ v ∈ [2, 1], v ∈ Finset.Icc 1 Fex.num_vars)) ∧
    ((∀ v ∈ Finset.Icc 1 Fex.num_vars,
      v ∈ (DiffScores.applyFlips Fex (DiffScores.initState Fex aex) [2, 1]).ds.buckets
        ((DiffScores.applyFlips Fex (DiffScores.initState Fex aex) [2, 1]).ds.score v) ∧
      (∀ s : Int,
        v ∈ (DiffScores.applyFlips Fex (DiffScores.initState Fex aex) [2, 1]).ds.buckets s →
        s = (DiffScores.applyFlips Fex (DiffScores.initState Fex aex) [2, 1]).ds.score v)) ∧
    (∀ s : Int,
      (DiffScores.applyFlips Fex (DiffScores.initState Fex aex) [2, 1]).ds.best_score < s →
      (DiffScores.applyFlips Fex (DiffScores.initState Fex aex) [2, 1]).ds.buckets s = ∅) ∧
    ((DiffScores.applyFlips Fex (DiffScores.initState Fex aex) [2, 1]).ds.buckets
      (DiffScores.applyFlips Fex (DiffScores.initState Fex aex) [2, 1]).ds.best_score).Nonempty) :=
  ⟨⟨by decide, by decide, by decide, by decide⟩,
   claim_C2_buckets Fex aex [2, 1] (by decide) (by decide) (by decide) (by decide)⟩

/-- Claim C3: for every formula whose clauses carry at most one literal per
variable, after construction and after each complete flip of an in-range
flip sequence, a clause index is on the falselist exactly when its
true-literal counter is zero, equivalently exactly when none of its literals
is true under the current assignment. -/
theorem claim_C3_falselist (F : Formula) (a₀ : Assignment) (ws : List Nat)
    (hwf : FormulaWf F) (hN : 1 ≤ F.num_vars)
    (hlen : a₀.atoms.length = F.num_vars)
    (hws : ∀ v ∈ ws, v ∈ Finset.Icc 1 F.num_vars) :
    ∀ c, c < F.clauses.length →
      ((c ∈ (DiffScores.applyFlips F (DiffScores.initState F a₀) ws).falselist.lst ↔
        (DiffScores.applyFlips F (DiffScores.initState F a₀) ws).ds.getNtl c = 0) ∧
      (c ∈ (DiffScores.applyFlips F (DiffScores.initState F a₀) ws).falselist.lst ↔
        (F.clauses.getD c []).all (fun l =>
          !(DiffScores.applyFlips F (DiffScores.initState F a₀) ws).assignment.is_true l)
          = true)) := by
  obtain ⟨-, -, -, hB, -, -, -, -, hFm⟩ :=
    DiffScores.applyFlips_inv hwf ws hws (DiffScores.inv_init hwf hN hlen)
  intro c hc
  have hBc := hB c hc
  rw [relA_nil] at hBc
  have h1 : c ∈ (DiffScores.applyFlips F (DiffScores.initState F a₀) ws).falselist.lst ↔
      (DiffScores.applyFlips F (DiffScores.initState F a₀) ws).ds.getNtl c = 0 := by
    rw [hFm c]
    constructor
    · rintro ⟨-, h⟩
      exact h
    · intro h
      exact ⟨hc, h⟩
  refine ⟨h1, h1.trans ?_⟩
  rw [hBc]
  have hz : ((trueCount (DiffScores.applyFlips F (DiffScores.initState F a₀) ws).assignment
      (F.clauses.getD c []) : Int) = 0) ↔
      trueCount (DiffScores.applyFlips F (DiffScores.initState F a₀) ws).assignment
        (F.clauses.getD c []) = 0 := by
    exact_mod_cast Iff.rfl
  rw [hz]
  unfold trueCount
  rw [List.countP_eq_zero, List.all_eq_true]
  constructor
  · intro h x hx
    have hb : (DiffScores.applyFlips F (DiffScores.initState F a₀) ws).assignment.is_true x
        = false := by
      cases hbx : (DiffScores.applyFlips F (DiffScores.initState F a₀) ws).assignment.is_true x
      · rfl
      · exact absurd hbx (h x hx)
    rw [hb]
    rfl
  · intro h x hx hbx
    have hx2 := h x hx
    rw [hbx] at hx2
    exact absurd hx2 (by decide)

/-- Witness for C3 at a concrete formula, assignment and flip sequence. -/
theorem claim_C3_falselist_witness :
    (FormulaWf Fex ∧ 1 ≤ Fex.num_vars ∧ aex.atoms.length = Fex.num_vars ∧
      (∀ v ∈ [1], v ∈ Finset.Icc 1 Fex.num_vars) ∧ 0 < Fex.clauses.length) ∧
    ((0 ∈ (DiffScores.applyFlips Fex (DiffScores.initState Fex aex) [1]).falselist.lst ↔
        (DiffScores.applyFlips Fex (DiffScores.initState Fex aex) [1]).ds.getNtl 0 = 0) ∧
      (0 ∈ (DiffScores.applyFlips Fex (DiffScores.initState Fex aex) [1]).falselist.lst ↔
        (Fex.clauses.getD 0 []).all (fun l =>
          !(DiffScores.applyFlips Fex (DiffScores.initState Fex aex) [1]).assignment.is_true l)
          = true)) :=
  ⟨⟨by decide, by decide, by decide, by decide, by decide⟩,
   claim_C3_falselist Fex aex [1] (by decide) (by decide) (by decide) (by decide)
     0 (by decide)⟩

namespace Assignment

/-- Flipping the same variable twice restores the assignment bit-exactly. -/
theorem flip_flip (a : Assignment) {v : Nat} (hv : v ≤ a.atoms.length) :
    (a.flip v).flip v = a := by
  obtain ⟨atoms, nv⟩ := a
  have hlt : v - 1 < atoms.length ∨ atoms.length = 0 := by
    rcases Nat.eq_zero_or_pos atoms.length with h | h
    · exact Or.inr h
    · exact Or.inl (by simp at hv ⊢; omega)
  rcases hlt with hlt | hnil
  · show Assignment.mk _ nv = Assignment.mk atoms nv
    congr 1
    show ((atoms.set (v - 1) (!atoms.getD (v - 1) false)).set (v - 1)
      (!(atoms.set (v - 1) (!atoms.getD (v - 1) false)).getD (v - 1) false)) = atoms
    rw [getD_set_eq hlt, Bool.not_not, List.set_set]
    apply List.ext_getElem (List.length_set _ _ _)
    intro n h₁ h₂
    rw [List.getElem_set]
    by_cases hn : v - 1 = n
    · rw [if_pos hn]
      subst hn
      exact List.getD_eq_getElem atoms false hlt
    · rw [if_neg hn]
  · have hend : atoms = [] := List.length_eq_zero.mp hnil
    subst hend
    rfl

end Assignment

namespace DiffScores

/-- `specS` only depends on the counters, and on the critical variables of
uniquely satisfied clauses. -/
theorem specS_congr {F : Formula} {ds₁ ds₂ : DiffScores}
    (hntl : ∀ c, c < F.clauses.length → ds₁.getNtl c = ds₂.getNtl c)
    (hcrit : ∀ c, c < F.clauses.length → ds₁.getNtl c = 1 →
      ds₁.getCrit c = ds₂.getCrit c)
    (w : Nat) :
    specS F ds₁ F.clauses.length w = specS F ds₂ F.clauses.length w := by
  unfold specS
  apply Finset.sum_congr rfl
  intro c hc
  have hcM := Finset.mem_range.mp hc
  unfold specTerm
  rw [hntl c hcM]
  by_cases h1 : ds₂.getNtl c = 1
  · rw [hcrit c hcM (by rw [hntl c hcM]; exact h1)]
  · rw [if_neg (show ¬(ds₂.getNtl c = 1 ∧ ds₁.getCrit c = some w) from
        fun hcc => h1 hcc.1),
      if_neg (show ¬(ds₂.getNtl c = 1 ∧ ds₂.getCrit c = some w) from
        fun hcc => h1 hcc.1)]

end DiffScores

/-- Claim C4 (amended): from any consistent scoreboard state, two
`DiffScores.flip(v)` in succession restore the assignment bit-exactly, the
true-literal counters, the scores of all variables, the buckets, the best
score, the membership of the falselist, and the critical variables of all
uniquely satisfied clauses.  (The internal order of the falselist list and
the stale `crit_var` entries of other clauses are NOT restored bit-exactly;
see the counterexample.) -/
theorem claim_C4_double_flip (F : Formula) (st : SState) (v : Nat)
    (hwf : FormulaWf F) (hv : v ∈ Finset.Icc 1 F.num_vars)
    (hinv : DiffScores.Inv F st) :
    (DiffScores.flip F v (DiffScores.flip F v st)).assignment = st.assignment ∧
    (DiffScores.flip F v (DiffScores.flip F v st)).ds.num_true_lit
      = st.ds.num_true_lit ∧
    (∀ w ∈ Finset.Icc 1 F.num_vars,
      (DiffScores.flip F v (DiffScores.flip F v st)).ds.score w = st.ds.score w) ∧
    (DiffScores.flip F v (DiffScores.flip F v st)).ds.buckets = st.ds.buckets ∧
    (DiffScores.flip F v (DiffScores.flip F v st)).ds.best_score
      = st.ds.best_score ∧
    (∀ c, c ∈ (DiffScores.flip F v (DiffScores.flip F v st)).falselist.lst ↔
      c ∈ st.falselist.lst) ∧
    (∀ c, c < F.clauses.length → st.ds.getNtl c = 1 →
      (DiffScores.flip F v (DiffScores.flip F v st)).ds.getCrit c
        = st.ds.getCrit c) := by
  obtain ⟨hv1, hv2⟩ := Finset.mem_Icc.mp hv
  have hinvA := DiffScores.flip_inv hwf hv (DiffScores.flip_inv hwf hv hinv)
  set stA := DiffScores.flip F v (DiffScores.flip F v st) with hstA
  have hassign : stA.assignment = st.assignment := by
    show (st.assignment.flip v).flip v = st.assignment
    exact Assignment.flip_flip st.assignment (by rw [hinv.1]; exact hv2)
  obtain ⟨hlenA, hL1A, hL2A, hBA', hCA', hDA, hEA, hFwA, hFmA⟩ := hinvA
  obtain ⟨hlen, hL1, hL2, hB', hC', hD, hE, hFw, hFm⟩ := hinv
  have hBA : ∀ c, c < F.clauses.length →
      stA.ds.getNtl c = (trueCount st.assignment (F.clauses.getD c []) : Int) := by
    intro c hc
    have h := hBA' c hc
    rwa [relA_nil, hassign] at h
  have hB : ∀ c, c < F.clauses.length →
      st.ds.getNtl c = (trueCount st.assignment (F.clauses.getD c []) : Int) := by
    intro c hc
    have h := hB' c hc
    rwa [relA_nil] at h
  have hCA : ∀ c, c < F.clauses.length →
      trueCount st.assignment (F.clauses.getD c []) = 1 →
      stA.ds.getCrit c = some (utv st.assignment (F.clauses.getD c [])) := by
    intro c hc hcnt
    have h := hCA' c hc
    rw [relA_nil, hassign] at h
    exact h hcnt
  have hC : ∀ c, c < F.clauses.length →
      trueCount st.assignment (F.clauses.getD c []) = 1 →
      st.ds.getCrit c = some (utv st.assignment (F.clauses.getD c [])) := by
    intro c hc hcnt
    have h := hC' c hc
    rw [relA_nil] at h
    exact h hcnt
  have hntl_pt : ∀ c, c < F.clauses.length → stA.ds.getNtl c = st.ds.getNtl c := by
    intro c hc
    rw [hBA c hc, hB c hc]
  have hcrit_pt : ∀ c, c < F.clauses.length → stA.ds.getNtl c = 1 →
      stA.ds.getCrit c = st.ds.getCrit c := by
    intro c hc h1
    have hcnt : trueCount st.assignment (F.clauses.getD c []) = 1 := by
      have h := hBA c hc
      rw [h1] at h
      exact_mod_cast h.symm
    rw [hCA c hc hcnt, hC c hc hcnt]
  have hscore : ∀ w ∈ Finset.Icc 1 F.num_vars,
      stA.ds.score w = st.ds.score w := by
    intro w hw
    rw [hDA w hw, hD w hw]
    exact DiffScores.specS_congr hntl_pt hcrit_pt w
  refine ⟨hassign, ?_, hscore, ?_, ?_, ?_, ?_⟩
  · apply List.ext_getElem (by rw [hL1A, hL1])
    intro n h₁ h₂
    have hnM : n < F.clauses.length := by rw [← hL1A]; exact h₁
    have hg := hntl_pt n hnM
    show stA.ds.num_true_lit[n] = st.ds.num_true_lit[n]
    have e1 : stA.ds.getNtl n = stA.ds.num_true_lit[n] :=
      List.getD_eq_getElem _ _ h₁
    have e2 : st.ds.getNtl n = st.ds.num_true_lit[n] :=
      List.getD_eq_getElem _ _ h₂
    rw [← e1, ← e2, hg]
  · funext s
    rw [hEA.1 s, hE.1 s]
    apply Finset.filter_congr
    intro w hw
    rw [hscore w hw]
  · obtain ⟨-, ⟨wA, hwA, hbA⟩, hmaxA⟩ := hEA
    obtain ⟨-, ⟨wB, hwB, hbB⟩, hmaxB⟩ := hE
    have h1 : stA.ds.best_score ≤ st.ds.best_score := by
      rw [← hbA, hscore wA hwA]
      exact hmaxB wA hwA
    have h2 : st.ds.best_score ≤ stA.ds.best_score := by
      rw [← hbB, ← hscore wB hwB]
      exact hmaxA wB hwB
    omega
  · intro c
    rw [hFmA c, hFm c]
    constructor
    · rintro ⟨hcl, hz⟩
      rw [hntl_pt c hcl] at hz
      exact ⟨hcl, hz⟩
    · rintro ⟨hcl, hz⟩
      rw [← hntl_pt c hcl] at hz
      exact ⟨hcl, hz⟩
  · intro c hc h1
    exact hcrit_pt c hc (by rw [hntl_pt c hc]; exact h1)

/-- Concrete formula refuting bit-exact falselist restoration under C4. -/
def F4 : Formula := Formula.fromParts [[1], [2]] 2 (Assignment.mk' 3 2)

/-- Concrete all-false assignment for the C4 counterexample. -/
def a4 : Assignment := Assignment.mk' 0 2

/-- Counterexample to C4 as stated: after two `flip(1)` calls from the
freshly constructed scoreboard for `F4` under the all-false assignment, the
falselist's internal list is `[1, 0]`, not the original `[0, 1]` — the
Falselist is not restored bit-exactly (its membership is; see the amended
theorem). -/
theorem claim_C4_counterexample :
    (DiffScores.flip F4 1 (DiffScores.flip F4 1
      (DiffScores.initState F4 a4))).falselist.lst
      ≠ (DiffScores.initState F4 a4).falselist.lst := by decide

/-- Witness for the amended C4 at a concrete consistent state. -/
theorem claim_C4_double_flip_witness :
    (FormulaWf F4 ∧ 1 ∈ Finset.Icc 1 F4.num_vars ∧
      DiffScores.Inv F4 (DiffScores.initState F4 a4)) ∧
    ((DiffScores.flip F4 1 (DiffScores.flip F4 1
        (DiffScores.initState F4 a4))).assignment
      = (DiffScores.initState F4 a4).assignment ∧
    (DiffScores.flip F4 1 (DiffScores.flip F4 1
        (DiffScores.initState F4 a4))).ds.num_true_lit
      = (DiffScores.initState F4 a4).ds.num_true_lit ∧
    (∀ w ∈ Finset.Icc 1 F4.num_vars,
      (DiffScores.flip F4 1 (DiffScores.flip F4 1
        (DiffScores.initState F4 a4))).ds.score w
      = (DiffScores.initState F4 a4).ds.score w) ∧
    (DiffScores.flip F4 1 (DiffScores.flip F4 1
        (DiffScores.initState F4 a4))).ds.buckets
      = (DiffScores.initState F4 a4).ds.buckets ∧
    (DiffScores.flip F4 1 (DiffScores.flip F4 1
        (DiffScores.initState F4 a4))).ds.best_score
      = (DiffScores.initState F4 a4).ds.best_score ∧
    (∀ c, c ∈ (DiffScores.flip F4 1 (DiffScores.flip F4 1
        (DiffScores.initState F4 a4))).falselist.lst ↔
      c ∈ (DiffScores.initState F4 a4).falselist.lst) ∧
    (∀ c, c < F4.clauses.length →
      (DiffScores.initState F4 a4).ds.getNtl c = 1 →
      (DiffScores.flip F4 1 (DiffScores.flip F4 1
        (DiffScores.initState F4 a4))).ds.getCrit c
      = (DiffScores.initState F4 a4).ds.getCrit c)) :=
  ⟨⟨by decide, by decide, DiffScores.inv_init (by decide) (by decide) rfl⟩,
   claim_C4_double_flip F4 (DiffScores.initState F4 a4) 1 (by decide) (by decide)
     (DiffScores.inv_init (by decide) (by decide) rfl)⟩

namespace Scores

/-- Canonical form of the BREAK_ONLY bucket structure: buckets are the break
fibers over `1..N`, and `best_score` is the minimum break score. -/
def CanonB (N : Nat) (sc : Scores) : Prop :=
  (∀ s : Int, sc.buckets s = (Finset.Icc 1 N).filter (fun w => sc.breaks w = s)) ∧
  (∃ w ∈ Finset.Icc 1 N, sc.breaks w = sc.best_score) ∧
  (∀ w ∈ Finset.Icc 1 N, sc.best_score ≤ sc.breaks w)

theorem increment_break_score_spec {N : Nat} {sc : Scores} {v : Nat}
    (hC : CanonB N sc) (hv : v ∈ Finset.Icc 1 N) :
    CanonB N (sc.increment_break_score v)
    ∧ (sc.increment_break_score v).breaks
        = Function.update sc.breaks v (sc.breaks v + 1)
    ∧ (sc.increment_break_score v).num_true_lit = sc.num_true_lit
    ∧ (sc.increment_break_score v).crit_var = sc.crit_var := by
  obtain ⟨hBk, ⟨w₀, hw₀, hbest⟩, hmin⟩ := hC
  refine ⟨⟨?_, ?_, ?_⟩, rfl, rfl, rfl⟩
  · intro s
    exact DiffScores.buckets_move sc.buckets sc.breaks hBk hv (by omega) s
  · show ∃ w ∈ Finset.Icc 1 N, Function.update sc.breaks v (sc.breaks v + 1) w
      = (if sc.best_score = sc.breaks v ∧ (sc.buckets (sc.breaks v)).erase v = ∅
         then sc.best_score + 1 else sc.best_score)
    by_cases hcond : sc.best_score = sc.breaks v ∧ (sc.buckets (sc.breaks v)).erase v = ∅
    · refine ⟨v, hv, ?_⟩
      rw [if_pos hcond, Function.update_same, ← hcond.1]
    · rw [if_neg hcond]
      by_cases heq : sc.best_score = sc.breaks v
      · have hne : ((sc.buckets (sc.breaks v)).erase v).Nonempty := by
          rcases Finset.eq_empty_or_nonempty ((sc.buckets (sc.breaks v)).erase v)
            with he | hne
          · exact absurd ⟨heq, he⟩ hcond
          · exact hne
        obtain ⟨u, hu⟩ := hne
        obtain ⟨huv, hub⟩ := Finset.mem_erase.mp hu
        rw [hBk, Finset.mem_filter] at hub
        refine ⟨u, hub.1, ?_⟩
        rw [Function.update_noteq huv, hub.2, heq]
      · have hwv : w₀ ≠ v := by
          intro h
          rw [h] at hbest
          exact heq hbest.symm
        refine ⟨w₀, hw₀, ?_⟩
        rw [Function.update_noteq hwv, hbest]
  · intro w hw
    show (if sc.best_score = sc.breaks v ∧ (sc.buckets (sc.breaks v)).erase v = ∅
         then sc.best_score + 1 else sc.best_score)
      ≤ Function.update sc.breaks v (sc.breaks v + 1) w
    by_cases hcond : sc.best_score = sc.breaks v ∧ (sc.buckets (sc.breaks v)).erase v = ∅
    · rw [if_pos hcond]
      rcases eq_or_ne w v with rfl | hwv
      · rw [Function.update_same]
        omega
      · rw [Function.update_noteq hwv]
        have hge := hmin w hw
        rcases lt_or_eq_of_le hge with hlt | heqw
        · omega
        · exfalso
          have hwin : w ∈ (sc.buckets (sc.breaks v)).erase v := by
            rw [Finset.mem_erase, hBk, Finset.mem_filter]
            exact ⟨hwv, hw, by omega⟩
          rw [hcond.2] at hwin
          cases hwin
    · rw [if_neg hcond]
      rcases eq_or_ne w v with rfl | hwv
      · rw [Function.update_same]
        have := hmin w hw
        omega
      · rw [Function.update_noteq hwv]
        exact hmin w hw

theorem decrement_break_score_spec {N : Nat} {sc : Scores} {v : Nat}
    (hC : CanonB N sc) (hv : v ∈ Finset.Icc 1 N) :
    CanonB N (sc.decrement_break_score v)
    ∧ (sc.decrement_break_score v).breaks
        = Function.update sc.breaks v (sc.breaks v - 1)
    ∧ (sc.decrement_break_score v).num_true_lit = sc.num_true_lit
    ∧ (sc.decrement_break_score v).crit_var = sc.crit_var := by
  obtain ⟨hBk, ⟨w₀, hw₀, hbest⟩, hmin⟩ := hC
  refine ⟨⟨?_, ?_, ?_⟩, rfl, rfl, rfl⟩
  · intro s
    exact DiffScores.buckets_move sc.buckets sc.breaks hBk hv (by omega) s
  · show ∃ w ∈ Finset.Icc 1 N, Function.update sc.breaks v (sc.breaks v - 1) w
      = (if sc.best_score = sc.breaks v then sc.best_score - 1 else sc.best_score)
    by_cases heq : sc.best_score = sc.breaks v
    · refine ⟨v, hv, ?_⟩
      rw [if_pos heq, Function.update_same, ← heq]
    · have hwv : w₀ ≠ v := by
        intro h
        rw [h] at hbest
        exact heq hbest.symm
      refine ⟨w₀, hw₀, ?_⟩
      rw [if_neg heq, Function.update_noteq hwv, hbest]
  · intro w hw
    show (if sc.best_score = sc.breaks v then sc.best_score - 1 else sc.best_score)
      ≤ Function.update sc.breaks v (sc.breaks v - 1) w
    by_cases heq : sc.best_score = sc.breaks v
    · rw [if_pos heq]
      rcases eq_or_ne w v with rfl | hwv
      · rw [Function.update_same]
        omega
      · rw [Function.update_noteq hwv]
        have := hmin w hw
        omega
    · rw [if_neg heq]
      rcases eq_or_ne w v with rfl | hwv
      · rw [Function.update_same]
        have := hmin w hw
        omega
      · rw [Function.update_noteq hwv]
        exact hmin w hw

end Scores

namespace Scores

theorem flipStep1B_zero {v₀ : Nat} {sc : Scores} {fl : Falselist}
    {c : Nat} (h : sc.getNtl c = 0) :
    flipStep1 v₀ (sc, fl) c =
      (let sc1 := sc.increment_break_score v₀
       ({ sc1 with
          crit_var := sc1.crit_var.set c v₀
          num_true_lit := sc1.num_true_lit.set c (sc.getNtl c + 1) }, fl.remove c)) := by
  simp only [flipStep1]
  rw [if_pos h]

theorem flipStep1B_one {v₀ : Nat} {sc : Scores} {fl : Falselist}
    {c : Nat} (h : sc.getNtl c = 1) :
    flipStep1 v₀ (sc, fl) c =
      (let sc1 := sc.decrement_break_score (sc.getCrit c)
       ({ sc1 with num_true_lit := sc1.num_true_lit.set c (sc.getNtl c + 1) }, fl)) := by
  simp only [flipStep1]
  rw [if_neg (by rw [h]; decide), if_pos h]

theorem flipStep1B_other {v₀ : Nat} {sc : Scores} {fl : Falselist}
    {c : Nat} (h0 : sc.getNtl c ≠ 0) (h1 : sc.getNtl c ≠ 1) :
    flipStep1 v₀ (sc, fl) c =
      ({ sc with num_true_lit := sc.num_true_lit.set c (sc.getNtl c + 1) }, fl) := by
  simp only [flipStep1]
  rw [if_neg h0, if_neg h1]

theorem flipStep2B_one {F : Formula} {v₀ : Nat} {a : Assignment} {sc : Scores}
    {fl : Falselist} {c : Nat} (h : sc.getNtl c = 1) :
    flipStep2 F v₀ a (sc, fl) c =
      (let sc1 := sc.decrement_break_score v₀
       ({ sc1 with
          crit_var := sc1.crit_var.set c v₀
          num_true_lit := sc1.num_true_lit.set c (sc.getNtl c - 1) }, fl.add c)) := by
  simp only [flipStep2]
  rw [if_pos h]

theorem flipStep2B_two {F : Formula} {v₀ : Nat} {a : Assignment} {sc : Scores}
    {fl : Falselist} {c : Nat} (h : sc.getNtl c = 2) :
    flipStep2 F v₀ a (sc, fl) c =
      (let sc1 := (F.clauses.getD c []).foldl
          (fun d l =>
            if a.is_true l then
              ({ d with crit_var := d.crit_var.set c l.natAbs }).increment_break_score
                l.natAbs
            else d) sc
       ({ sc1 with num_true_lit := sc1.num_true_lit.set c (sc.getNtl c - 1) }, fl)) := by
  simp only [flipStep2]
  rw [if_neg (by rw [h]; decide), if_pos h]

theorem flipStep2B_other {F : Formula} {v₀ : Nat} {a : Assignment} {sc : Scores}
    {fl : Falselist} {c : Nat} (h1 : sc.getNtl c ≠ 1) (h2 : sc.getNtl c ≠ 2) :
    flipStep2 F v₀ a (sc, fl) c =
      ({ sc with num_true_lit := sc.num_true_lit.set c (sc.getNtl c - 1) }, fl) := by
  simp only [flipStep2]
  rw [if_neg h1, if_neg h2]

/-- The mid-flip invariant of the BREAK_ONLY scoreboard: counters and
critical variables table the effective per-clause assignment, buckets and
best score are canonical, and the falselist matches the zero-counter
clauses. -/
def MidInvB (F : Formula) (a₀ a' : Assignment) (S T : List Nat)
    (sc : Scores) (fl : Falselist) : Prop :=
  sc.num_true_lit.length = F.clauses.length ∧
  sc.crit_var.length = F.clauses.length ∧
  (∀ c, c < F.clauses.length →
    sc.getNtl c = (trueCount (relA a₀ a' S T c) (F.clauses.getD c []) : Int)) ∧
  (∀ c, c < F.clauses.length →
    trueCount (relA a₀ a' S T c) (F.clauses.getD c []) = 1 →
    sc.getCrit c = utv (relA a₀ a' S T c) (F.clauses.getD c [])) ∧
  CanonB F.num_vars sc ∧
  FlWf fl ∧
  (∀ x, x ∈ fl.lst ↔ (x < F.clauses.length ∧ sc.getNtl x = 0))

end Scores

namespace Scores

set_option maxHeartbeats 1000000 in
/-- One clause step of the first scan of `Scores.flip` preserves the
mid-flip invariant. -/
theorem flipStep1B_midinv {F : Formula} (hwf : FormulaWf F) {a₀ : Assignment}
    {v₀ : Nat} (hv : v₀ ∈ Finset.Icc 1 F.num_vars)
    (hlen : a₀.atoms.length = F.num_vars)
    {S T : List Nat} {c : Nat} {sc : Scores} {fl : Falselist}
    (hc : c < F.clauses.length) (hcS : c ∉ S) (hcT : c ∉ T)
    (hsat : satLit (a₀.flip v₀) v₀ ∈ F.clauses.getD c [])
    (hinv : MidInvB F a₀ (a₀.flip v₀) (c :: S) T sc fl) :
    MidInvB F a₀ (a₀.flip v₀) S T
      (flipStep1 v₀ (sc, fl) c).1 (flipStep1 v₀ (sc, fl) c).2 := by
  obtain ⟨hL1, hL2, hB, hC, hE, hFw, hFm⟩ := hinv
  obtain ⟨hv1, hv2⟩ := Finset.mem_Icc.mp hv
  have hlenv : v₀ ≤ a₀.atoms.length := by rw [hlen]; exact hv2
  have hclmem : F.clauses.getD c [] ∈ F.clauses := by
    rw [List.getD_eq_getElem _ _ hc]
    exact List.getElem_mem _
  have hclwf : ClauseWf F.num_vars (F.clauses.getD c []) := hwf _ hclmem
  have h0cl : ∀ l ∈ F.clauses.getD c [], l ≠ 0 := fun l hl => (hclwf.1 l hl).1
  have hsat' : satLit (a₀.flip v₀) v₀ = -satLit a₀ v₀ := satLit_flip a₀ hv1 hlenv
  have hsat2 : -satLit a₀ v₀ ∈ F.clauses.getD c [] := by rw [← hsat']; exact hsat
  have hnotsat : satLit a₀ v₀ ∉ F.clauses.getD c [] := by
    intro hmem
    have habs : (-satLit a₀ v₀).natAbs = (satLit a₀ v₀).natAbs := Int.natAbs_neg _
    exact neg_satLit_ne a₀ hv1 (List.inj_on_of_nodup_map hclwf.2 hsat2 hmem habs)
  have hTC : (trueCount (a₀.flip v₀) (F.clauses.getD c []) : Int)
      = (trueCount a₀ (F.clauses.getD c []) : Int) + 1 := by
    rw [trueCount_flip a₀ hv1 hlenv h0cl hclwf.2, if_pos hsat2, if_neg hnotsat]
    ring
  have hBc : sc.getNtl c = (trueCount a₀ (F.clauses.getD c []) : Int) := by
    have h := hB c hc
    rwa [relA_head (Or.inl (List.mem_cons_self c S))] at h
  have hrel_out : relA a₀ (a₀.flip v₀) S T c = a₀.flip v₀ := relA_out hcS hcT
  by_cases ht0 : trueCount a₀ (F.clauses.getD c []) = 0
  · -- previously false clause: leaves the falselist, v₀ becomes critical
    have hn0 : sc.getNtl c = 0 := by rw [hBc, ht0]; rfl
    have hTC1 : trueCount (a₀.flip v₀) (F.clauses.getD c []) = 1 := by
      have h := hTC
      rw [ht0] at h
      push_cast at h
      omega
    rw [flipStep1B_zero hn0]
    obtain ⟨hC1, hb1, hn1, hcr1⟩ := increment_break_score_spec hE hv
    set scI := sc.increment_break_score v₀ with hscI
    set scF : Scores :=
      { scI with
        crit_var := scI.crit_var.set c v₀
        num_true_lit := scI.num_true_lit.set c (sc.getNtl c + 1) } with hscF
    have hntlF : scF.getNtl c = 1 := by
      show (scI.num_true_lit.set c (sc.getNtl c + 1)).getD c 0 = 1
      rw [getD_set_eq (by rw [hn1, hL1]; exact hc), hn0]
      decide
    have hntl_off : ∀ x, x ≠ c → scF.getNtl x = sc.getNtl x := by
      intro x hxc
      show (scI.num_true_lit.set c (sc.getNtl c + 1)).getD x 0 = _
      rw [getD_set_ne hxc, hn1]
      rfl
    have hcritF : scF.getCrit c = v₀ := by
      show (scI.crit_var.set c v₀).getD c 0 = v₀
      exact getD_set_eq (by rw [hcr1, hL2]; exact hc)
    have hcrit_off : ∀ x, x ≠ c → scF.getCrit x = sc.getCrit x := by
      intro x hxc
      show (scI.crit_var.set c v₀).getD x 0 = _
      rw [getD_set_ne hxc, hcr1]
      rfl
    have hcfl : c ∈ fl.lst := (hFm c).mpr ⟨hc, hn0⟩
    obtain ⟨hFw', hmem'⟩ := flwf_remove hFw hcfl
    refine ⟨?_, ?_, ?_, ?_, hC1, hFw', ?_⟩
    · show (scI.num_true_lit.set c (sc.getNtl c + 1)).length = F.clauses.length
      rw [List.length_set, hn1, hL1]
    · show (scI.crit_var.set c v₀).length = F.clauses.length
      rw [List.length_set, hcr1, hL2]
    · intro x hx
      by_cases hxc : x = c
      · subst hxc
        rw [hntlF, hrel_out, hTC1]
        rfl
      · rw [hntl_off x hxc, ← relA_pop hxc]
        exact hB x hx
    · intro x hx hcount
      by_cases hxc : x = c
      · subst hxc
        rw [hrel_out] at hcount ⊢
        rw [hcritF, utv_eq_of_true hcount hsat (is_true_satLit (a₀.flip v₀) hv1),
          satLit_natAbs (a₀.flip v₀) hv1]
      · rw [hcrit_off x hxc]
        rw [← relA_pop hxc] at hcount ⊢
        exact hC x hx hcount
    · intro x
      rw [hmem' x, hFm x]
      constructor
      · rintro ⟨⟨hx1, hx2⟩, hxc⟩
        refine ⟨hx1, ?_⟩
        rw [hntl_off x hxc]
        exact hx2
      · rintro ⟨hx1, hx2⟩
        by_cases hxc : x = c
        · subst hxc
          rw [hntlF] at hx2
          exact absurd hx2 (by decide)
        · rw [hntl_off x hxc] at hx2
          exact ⟨⟨hx1, hx2⟩, hxc⟩
  · by_cases ht1 : trueCount a₀ (F.clauses.getD c []) = 1
    · -- previously uniquely satisfied: its critical variable is relieved
      have hn1' : sc.getNtl c = 1 := by rw [hBc, ht1]; rfl
      have hcrit : sc.getCrit c = utv a₀ (F.clauses.getD c []) := by
        have h := hC c hc
        rw [relA_head (Or.inl (List.mem_cons_self c S))] at h
        exact h ht1
      have hcvI : sc.getCrit c ∈ Finset.Icc 1 F.num_vars := by
        rw [hcrit]
        exact utv_mem_Icc hclwf ht1
      have hTC2 : trueCount (a₀.flip v₀) (F.clauses.getD c []) = 2 := by
        have h := hTC
        rw [ht1] at h
        push_cast at h
        omega
      rw [flipStep1B_one hn1']
      obtain ⟨hC1, hb1, hn1, hcr1⟩ := decrement_break_score_spec hE hcvI
      set scI := sc.decrement_break_score (sc.getCrit c) with hscI
      set scF : Scores :=
        { scI with num_true_lit := scI.num_true_lit.set c (sc.getNtl c + 1) } with hscF
      have hntlF : scF.getNtl c = 2 := by
        show (scI.num_true_lit.set c (sc.getNtl c + 1)).getD c 0 = 2
        rw [getD_set_eq (by rw [hn1, hL1]; exact hc), hn1']
        decide
      have hntl_off : ∀ x, x ≠ c → scF.getNtl x = sc.getNtl x := by
        intro x hxc
        show (scI.num_true_lit.set c (sc.getNtl c + 1)).getD x 0 = _
        rw [getD_set_ne hxc, hn1]
        rfl
      have hcrit_all : ∀ x, scF.getCrit x = sc.getCrit x := by
        intro x
        show scI.crit_var.getD x 0 = _
        rw [hcr1]
        rfl
      refine ⟨?_, ?_, ?_, ?_, hC1, hFw, ?_⟩
      · show (scI.num_true_lit.set c (sc.getNtl c + 1)).length = F.clauses.length
        rw [List.length_set, hn1, hL1]
      · show scI.crit_var.length = F.clauses.length
        rw [hcr1, hL2]
      · intro x hx
        by_cases hxc : x = c
        · subst hxc
          rw [hntlF, hrel_out, hTC2]
          rfl
        · rw [hntl_off x hxc, ← relA_pop hxc]
          exact hB x hx
      · intro x hx hcount
        by_cases hxc : x = c
        · subst hxc
          rw [hrel_out] at hcount
          rw [hTC2] at hcount
          exact absurd hcount (by decide)
        · rw [hcrit_all x]
          rw [← relA_pop hxc] at hcount ⊢
          exact hC x hx hcount
      · intro x
        rw [hFm x]
        by_cases hxc : x = c
        · subst hxc
          rw [hntlF, hn1']
          constructor
          · rintro ⟨hx1, hx2⟩
            exact absurd hx2 (by decide)
          · rintro ⟨hx1, hx2⟩
            exact absurd hx2 (by decide)
        · rw [hntl_off x hxc]
    · -- two or more true literals before the flip: counter only
      have hge2 : 2 ≤ trueCount a₀ (F.clauses.getD c []) := by omega
      have hne0 : sc.getNtl c ≠ 0 := by
        rw [hBc]
        intro hcc
        have h : trueCount a₀ (F.clauses.getD c []) = 0 := by exact_mod_cast hcc
        omega
      have hne1 : sc.getNtl c ≠ 1 := by
        rw [hBc]
        intro hcc
        have h : trueCount a₀ (F.clauses.getD c []) = 1 := by exact_mod_cast hcc
        omega
      rw [flipStep1B_other hne0 hne1]
      set scF : Scores :=
        { sc with num_true_lit := sc.num_true_lit.set c (sc.getNtl c + 1) } with hscF
      have hntlF : scF.getNtl c = sc.getNtl c + 1 := by
        show (sc.num_true_lit.set c (sc.getNtl c + 1)).getD c 0 = _
        exact getD_set_eq (by rw [hL1]; exact hc)
      have hntl_off : ∀ x, x ≠ c → scF.getNtl x = sc.getNtl x := by
        intro x hxc
        show (sc.num_true_lit.set c (sc.getNtl c + 1)).getD x 0 = _
        rw [getD_set_ne hxc]
        rfl
      refine ⟨?_, hL2, ?_, ?_, hE, hFw, ?_⟩
      · show (sc.num_true_lit.set c (sc.getNtl c + 1)).length = F.clauses.length
        rw [List.length_set, hL1]
      · intro x hx
        by_cases hxc : x = c
        · subst hxc
          rw [hntlF, hrel_out, hBc, hTC]
        · rw [hntl_off x hxc, ← relA_pop hxc]
          exact hB x hx
      · intro x hx hcount
        by_cases hxc : x = c
        · subst hxc
          rw [hrel_out] at hcount
          have h := hTC
          rw [hcount] at h
          have hh : trueCount a₀ (F.clauses.getD x []) = 0 := by
            push_cast at h
            omega
          omega
        · show sc.getCrit x = _
          rw [← relA_pop hxc] at hcount ⊢
          exact hC x hx hcount
      · intro x
        rw [hFm x]
        by_cases hxc : x = c
        · subst hxc
          rw [hntlF]
          have hg := hBc
          constructor
          · rintro ⟨hx1, hx2⟩
            omega
          · rintro ⟨hx1, hx2⟩
            omega
        · rw [hntl_off x hxc]

end Scores

namespace Scores

set_option maxHeartbeats 1000000 in
/-- One clause step of the second scan of `Scores.flip` preserves the
mid-flip invariant. -/
theorem flipStep2B_midinv {F : Formula} (hwf : FormulaWf F) {a₀ : Assignment}
    {v₀ : Nat} (hv : v₀ ∈ Finset.Icc 1 F.num_vars)
    (hlen : a₀.atoms.length = F.num_vars)
    {T : List Nat} {c : Nat} {sc : Scores} {fl : Falselist}
    (hc : c < F.clauses.length) (hcT : c ∉ T)
    (huns : -satLit (a₀.flip v₀) v₀ ∈ F.clauses.getD c [])
    (hinv : MidInvB F a₀ (a₀.flip v₀) [] (c :: T) sc fl) :
    MidInvB F a₀ (a₀.flip v₀) [] T
      (flipStep2 F v₀ (a₀.flip v₀) (sc, fl) c).1
      (flipStep2 F v₀ (a₀.flip v₀) (sc, fl) c).2 := by
  obtain ⟨hL1, hL2, hB, hC, hE, hFw, hFm⟩ := hinv
  obtain ⟨hv1, hv2⟩ := Finset.mem_Icc.mp hv
  have hlenv : v₀ ≤ a₀.atoms.length := by rw [hlen]; exact hv2
  have hclmem : F.clauses.getD c [] ∈ F.clauses := by
    rw [List.getD_eq_getElem _ _ hc]
    exact List.getElem_mem _
  have hclwf : ClauseWf F.num_vars (F.clauses.getD c []) := hwf _ hclmem
  have h0cl : ∀ l ∈ F.clauses.getD c [], l ≠ 0 := fun l hl => (hclwf.1 l hl).1
  have hvars : ∀ l ∈ F.clauses.getD c [], l.natAbs ∈ Finset.Icc 1 F.num_vars := by
    intro l hl
    have hpos : 0 < l.natAbs := Int.natAbs_pos.mpr (hclwf.1 l hl).1
    have hle := (hclwf.1 l hl).2
    rw [Finset.mem_Icc]
    omega
  have hsat' : satLit (a₀.flip v₀) v₀ = -satLit a₀ v₀ := satLit_flip a₀ hv1 hlenv
  have huns' : -satLit (a₀.flip v₀) v₀ = satLit a₀ v₀ := by rw [hsat', neg_neg]
  have huns2 : satLit a₀ v₀ ∈ F.clauses.getD c [] := by rw [← huns']; exact huns
  have hnotuns : -satLit a₀ v₀ ∉ F.clauses.getD c [] := by
    intro hmem
    have habs : (-satLit a₀ v₀).natAbs = (satLit a₀ v₀).natAbs := Int.natAbs_neg _
    exact neg_satLit_ne a₀ hv1 (List.inj_on_of_nodup_map hclwf.2 hmem huns2 habs)
  have hTC : (trueCount (a₀.flip v₀) (F.clauses.getD c []) : Int)
      = (trueCount a₀ (F.clauses.getD c []) : Int) - 1 := by
    rw [trueCount_flip a₀ hv1 hlenv h0cl hclwf.2, if_neg hnotuns, if_pos huns2]
    ring
  have hTCpos : 1 ≤ trueCount a₀ (F.clauses.getD c []) :=
    trueCount_pos_of_mem huns2 (is_true_satLit a₀ hv1)
  have hBc : sc.getNtl c = (trueCount a₀ (F.clauses.getD c []) : Int) := by
    have h := hB c hc
    rwa [relA_head (Or.inr (List.mem_cons_self c T))] at h
  have hrel_out : relA a₀ (a₀.flip v₀) [] T c = a₀.flip v₀ :=
    relA_out (by simp) hcT
  by_cases h1 : trueCount a₀ (F.clauses.getD c []) = 1
  · -- uniquely satisfied by v₀, now false
    have hn1' : sc.getNtl c = 1 := by rw [hBc, h1]; rfl
    have hTC0 : trueCount (a₀.flip v₀) (F.clauses.getD c []) = 0 := by
      have h := hTC
      rw [h1] at h
      push_cast at h
      omega
    rw [flipStep2B_one hn1']
    obtain ⟨hC1, hb1, hn1, hcr1⟩ := decrement_break_score_spec hE hv
    set scI := sc.decrement_break_score v₀ with hscI
    set scF : Scores :=
      { scI with
        crit_var := scI.crit_var.set c v₀
        num_true_lit := scI.num_true_lit.set c (sc.getNtl c - 1) } with hscF
    have hntlF : scF.getNtl c = 0 := by
      show (scI.num_true_lit.set c (sc.getNtl c - 1)).getD c 0 = 0
      rw [getD_set_eq (by rw [hn1, hL1]; exact hc), hn1']
      decide
    have hntl_off : ∀ x, x ≠ c → scF.getNtl x = sc.getNtl x := by
      intro x hxc
      show (scI.num_true_lit.set c (sc.getNtl c - 1)).getD x 0 = _
      rw [getD_set_ne hxc, hn1]
      rfl
    have hcrit_off : ∀ x, x ≠ c → scF.getCrit x = sc.getCrit x := by
      intro x hxc
      show (scI.crit_var.set c v₀).getD x 0 = _
      rw [getD_set_ne hxc, hcr1]
      rfl
    have hcfl : c ∉ fl.lst := by
      intro hmem
      have h := (hFm c).mp hmem
      rw [hn1'] at h
      exact absurd h.2 (by decide)
    obtain ⟨hFw', hlst'⟩ := flwf_add hFw hcfl
    refine ⟨?_, ?_, ?_, ?_, hC1, hFw', ?_⟩
    · show (scI.num_true_lit.set c (sc.getNtl c - 1)).length = F.clauses.length
      rw [List.length_set, hn1, hL1]
    · show (scI.crit_var.set c v₀).length = F.clauses.length
      rw [List.length_set, hcr1, hL2]
    · intro x hx
      by_cases hxc : x = c
      · subst hxc
        rw [hntlF, hrel_out, hTC0]
        rfl
      · rw [hntl_off x hxc, ← relA_pop2 hxc]
        exact hB x hx
    · intro x hx hcount
      by_cases hxc : x = c
      · subst hxc
        rw [hrel_out] at hcount
        rw [hTC0] at hcount
        exact absurd hcount (by decide)
      · rw [hcrit_off x hxc]
        rw [← relA_pop2 hxc] at hcount ⊢
        exact hC x hx hcount
    · intro x
      rw [hlst', List.mem_append, List.mem_singleton, hFm x]
      constructor
      · rintro (⟨hx1, hx2⟩ | rfl)
        · have hxc : x ≠ c := by
            intro hcc
            rw [hcc, hn1'] at hx2
            exact absurd hx2 (by decide)
          refine ⟨hx1, ?_⟩
          rw [hntl_off x hxc]
          exact hx2
        · exact ⟨hc, hntlF⟩
      · rintro ⟨hx1, hx2⟩
        by_cases hxc : x = c
        · exact Or.inr hxc
        · rw [hntl_off x hxc] at hx2
          exact Or.inl ⟨hx1, hx2⟩
  · by_cases h2 : trueCount a₀ (F.clauses.getD c []) = 2
    · -- two true literals: the surviving one becomes critical and breaks
      have hn2' : sc.getNtl c = 2 := by rw [hBc, h2]; rfl
      have hTC1 : trueCount (a₀.flip v₀) (F.clauses.getD c []) = 1 := by
        have h := hTC
        rw [h2] at h
        push_cast at h
        omega
      obtain ⟨lstar, hf⟩ := trueLits_singleton hTC1
      obtain ⟨hutv, hmem, htrue, huniq⟩ := utv_spec hf
      have hw₂ : lstar.natAbs ∈ Finset.Icc 1 F.num_vars := hvars lstar hmem
      rw [flipStep2B_two hn2']
      have hfold : (F.clauses.getD c []).foldl
          (fun d l =>
            if (a₀.flip v₀).is_true l then
              ({ d with crit_var := d.crit_var.set c l.natAbs }).increment_break_score
                l.natAbs
            else d) sc
          = ({ sc with
                crit_var := sc.crit_var.set c lstar.natAbs }).increment_break_score
              lstar.natAbs := by
        refine (foldl_guard
          (fun d l =>
            ({ d with crit_var := d.crit_var.set c l.natAbs }).increment_break_score
              l.natAbs)
          (fun l => (a₀.flip v₀).is_true l) (F.clauses.getD c []) sc).trans ?_
        rw [hf]
        rfl
      rw [hfold]
      set scC : Scores :=
        { sc with crit_var := sc.crit_var.set c lstar.natAbs } with hscC
      have hEC : CanonB F.num_vars scC := hE
      obtain ⟨hC1, hb1, hn1, hcr1⟩ := increment_break_score_spec hEC hw₂
      set scI := scC.increment_break_score lstar.natAbs with hscI
      set scF : Scores :=
        { scI with num_true_lit := scI.num_true_lit.set c (sc.getNtl c - 1) } with hscF
      have hntlF : scF.getNtl c = 1 := by
        show (scI.num_true_lit.set c (sc.getNtl c - 1)).getD c 0 = 1
        rw [hn1]
        rw [getD_set_eq (show c < scC.num_true_lit.length by
          show c < sc.num_true_lit.length
          rw [hL1]; exact hc), hn2']
        decide
      have hntl_off : ∀ x, x ≠ c → scF.getNtl x = sc.getNtl x := by
        intro x hxc
        show (scI.num_true_lit.set c (sc.getNtl c - 1)).getD x 0 = _
        rw [hn1, getD_set_ne hxc]
        rfl
      have hcritF : scF.getCrit c = lstar.natAbs := by
        show scI.crit_var.getD c 0 = _
        rw [hcr1]
        show (sc.crit_var.set c lstar.natAbs).getD c 0 = _
        exact getD_set_eq (by rw [hL2]; exact hc)
      have hcrit_off : ∀ x, x ≠ c → scF.getCrit x = sc.getCrit x := by
        intro x hxc
        show scI.crit_var.getD x 0 = _
        rw [hcr1]
        show (sc.crit_var.set c lstar.natAbs).getD x 0 = _
        rw [getD_set_ne hxc]
        rfl
      refine ⟨?_, ?_, ?_, ?_, hC1, hFw, ?_⟩
      · show (scI.num_true_lit.set c (sc.getNtl c - 1)).length = F.clauses.length
        rw [List.length_set, hn1]
        exact hL1
      · show scI.crit_var.length = F.clauses.length
        rw [hcr1]
        show (sc.crit_var.set c lstar.natAbs).length = _
        rw [List.length_set]
        exact hL2
      · intro x hx
        by_cases hxc : x = c
        · subst hxc
          rw [hntlF, hrel_out, hTC1]
          rfl
        · rw [hntl_off x hxc, ← relA_pop2 hxc]
          exact hB x hx
      · intro x hx hcount
        by_cases hxc : x = c
        · subst hxc
          rw [hrel_out] at hcount ⊢
          rw [hcritF, hutv]
        · rw [hcrit_off x hxc]
          rw [← relA_pop2 hxc] at hcount ⊢
          exact hC x hx hcount
      · intro x
        rw [hFm x]
        by_cases hxc : x = c
        · subst hxc
          rw [hntlF, hn2']
          constructor
          · rintro ⟨hx1, hx2⟩
            exact absurd hx2 (by decide)
          · rintro ⟨hx1, hx2⟩
            exact absurd hx2 (by decide)
        · rw [hntl_off x hxc]
    · -- three or more true literals: counter only
      have hge3 : 3 ≤ trueCount a₀ (F.clauses.getD c []) := by omega
      have hne1 : sc.getNtl c ≠ 1 := by
        rw [hBc]
        intro hcc
        have h : trueCount a₀ (F.clauses.getD c []) = 1 := by exact_mod_cast hcc
        omega
      have hne2 : sc.getNtl c ≠ 2 := by
        rw [hBc]
        intro hcc
        have h : trueCount a₀ (F.clauses.getD c []) = 2 := by exact_mod_cast hcc
        omega
      rw [flipStep2B_other hne1 hne2]
      set scF : Scores :=
        { sc with num_true_lit := sc.num_true_lit.set c (sc.getNtl c - 1) } with hscF
      have hntlF : scF.getNtl c = sc.getNtl c - 1 := by
        show (sc.num_true_lit.set c (sc.getNtl c - 1)).getD c 0 = _
        exact getD_set_eq (by rw [hL1]; exact hc)
      have hntl_off : ∀ x, x ≠ c → scF.getNtl x = sc.getNtl x := by
        intro x hxc
        show (sc.num_true_lit.set c (sc.getNtl c - 1)).getD x 0 = _
        rw [getD_set_ne hxc]
        rfl
      have hge3' : (3:Int) ≤ sc.getNtl c := by
        rw [hBc]
        exact_mod_cast hge3
      refine ⟨?_, hL2, ?_, ?_, hE, hFw, ?_⟩
      · show (sc.num_true_lit.set c (sc.getNtl c - 1)).length = F.clauses.length
        rw [List.length_set, hL1]
      · intro x hx
        by_cases hxc : x = c
        · subst hxc
          rw [hntlF, hrel_out, hBc, hTC]
        · rw [hntl_off x hxc, ← relA_pop2 hxc]
          exact hB x hx
      · intro x hx hcount
        by_cases hxc : x = c
        · subst hxc
          rw [hrel_out] at hcount
          have h := hTC
          rw [hcount] at h
          have hh : trueCount a₀ (F.clauses.getD x []) = 2 := by
            push_cast at h
            omega
          omega
        · show sc.getCrit x = _
          rw [← relA_pop2 hxc] at hcount ⊢
          exact hC x hx hcount
      · intro x
        rw [hFm x]
        by_cases hxc : x = c
        · subst hxc
          rw [hntlF]
          constructor
          · rintro ⟨hx1, hx2⟩
            omega
          · rintro ⟨hx1, hx2⟩
            omega
        · rw [hntl_off x hxc]

end Scores

namespace Scores

/-- Folding the first scan over a pending list of satisfied-occurrence clause
indices discharges the whole pending list (BREAK_ONLY). -/
theorem scan1B_fold {F : Formula} (hwf : FormulaWf F) {a₀ : Assignment}
    {v₀ : Nat} (hv : v₀ ∈ Finset.Icc 1 F.num_vars)
    (hlen : a₀.atoms.length = F.num_vars) :
    ∀ (S : List Nat) {T : List Nat} {sc : Scores} {fl : Falselist},
      S.Nodup →
      (∀ c ∈ S, c < F.clauses.length ∧
        satLit (a₀.flip v₀) v₀ ∈ F.clauses.getD c [] ∧ c ∉ T) →
      MidInvB F a₀ (a₀.flip v₀) S T sc fl →
      MidInvB F a₀ (a₀.flip v₀) [] T
        (S.foldl (flipStep1 v₀) (sc, fl)).1
        (S.foldl (flipStep1 v₀) (sc, fl)).2 := by
  intro S
  induction S with
  | nil =>
    intro T sc fl _ _ hinv
    exact hinv
  | cons c S ih =>
    intro T sc fl hnd hmem hinv
    rw [List.foldl_cons]
    have hcS : c ∉ S := (List.nodup_cons.mp hnd).1
    obtain ⟨hc, hsat, hcT⟩ := hmem c (List.mem_cons_self c S)
    have h1 := flipStep1B_midinv hwf hv hlen hc hcS hcT hsat hinv
    exact ih (List.nodup_cons.mp hnd).2
      (fun x hx => hmem x (List.mem_cons_of_mem c hx)) h1

/-- Folding the second scan over a pending list of falsified-occurrence clause
indices discharges the whole pending list (BREAK_ONLY). -/
theorem scan2B_fold {F : Formula} (hwf : FormulaWf F) {a₀ : Assignment}
    {v₀ : Nat} (hv : v₀ ∈ Finset.Icc 1 F.num_vars)
    (hlen : a₀.atoms.length = F.num_vars) :
    ∀ (T : List Nat) {sc : Scores} {fl : Falselist},
      T.Nodup →
      (∀ c ∈ T, c < F.clauses.length ∧
        -satLit (a₀.flip v₀) v₀ ∈ F.clauses.getD c []) →
      MidInvB F a₀ (a₀.flip v₀) [] T sc fl →
      MidInvB F a₀ (a₀.flip v₀) [] []
        (T.foldl (flipStep2 F v₀ (a₀.flip v₀)) (sc, fl)).1
        (T.foldl (flipStep2 F v₀ (a₀.flip v₀)) (sc, fl)).2 := by
  intro T
  induction T with
  | nil =>
    intro sc fl _ _ hinv
    exact hinv
  | cons c T ih =>
    intro sc fl hnd hmem hinv
    rw [List.foldl_cons]
    have hcT : c ∉ T := (List.nodup_cons.mp hnd).1
    obtain ⟨hc, huns⟩ := hmem c (List.mem_cons_self c T)
    have h1 := flipStep2B_midinv hwf hv hlen hc hcT huns hinv
    exact ih (List.nodup_cons.mp hnd).2
      (fun x hx => (hmem x (List.mem_cons_of_mem c hx))) h1

/-- The BREAK_ONLY scoreboard invariant at rest. -/
def InvB (F : Formula) (st : BState) : Prop :=
  st.assignment.atoms.length = F.num_vars ∧
  MidInvB F st.assignment st.assignment [] [] st.sc st.falselist

/-- `Scores.flip` preserves the BREAK_ONLY scoreboard invariant. -/
theorem flipB_inv {F : Formula} (hwf : FormulaWf F) {v₀ : Nat}
    (hv : v₀ ∈ Finset.Icc 1 F.num_vars) {st : BState} (hinv : InvB F st) :
    InvB F (flip F v₀ st) := by
  obtain ⟨hlen, hL1, hL2, hB, hC, hE, hFw, hFm⟩ := hinv
  obtain ⟨hv1, hv2⟩ := Finset.mem_Icc.mp hv
  set a₀ := st.assignment with ha₀
  have hlenv : v₀ ≤ a₀.atoms.length := by rw [hlen]; exact hv2
  have hlen' : (a₀.flip v₀).atoms.length = F.num_vars := by
    show (a₀.atoms.set (v₀ - 1) _).length = F.num_vars
    rw [List.length_set]
    exact hlen
  set S₀ := F.get_occurrences (satLit (a₀.flip v₀) v₀) with hS₀
  set T₀ := F.get_occurrences (-satLit (a₀.flip v₀) v₀) with hT₀
  have hSmem : ∀ c ∈ S₀, c < F.clauses.length ∧
      satLit (a₀.flip v₀) v₀ ∈ F.clauses.getD c [] ∧ c ∉ T₀ := by
    intro c hcs
    obtain ⟨hc, hm⟩ := (mem_get_occurrences hwf).mp hcs
    refine ⟨hc, hm, fun hct => ?_⟩
    exact not_mem_both_occ hwf (neg_satLit_ne (a₀.flip v₀) hv1).symm
      (Int.natAbs_neg _).symm hcs hct
  have hTmem : ∀ c ∈ T₀, c < F.clauses.length ∧
      -satLit (a₀.flip v₀) v₀ ∈ F.clauses.getD c [] := by
    intro c hct
    obtain ⟨hc, hm⟩ := (mem_get_occurrences hwf).mp hct
    exact ⟨hc, hm⟩
  have hstart : MidInvB F a₀ (a₀.flip v₀) S₀ T₀ st.sc st.falselist := by
    have hrel : ∀ c, c < F.clauses.length →
        trueCount (relA a₀ (a₀.flip v₀) S₀ T₀ c) (F.clauses.getD c [])
          = trueCount a₀ (F.clauses.getD c [])
        ∧ utv (relA a₀ (a₀.flip v₀) S₀ T₀ c) (F.clauses.getD c [])
          = utv a₀ (F.clauses.getD c []) := by
      intro c hc
      by_cases hcp : c ∈ S₀ ∨ c ∈ T₀
      · rw [relA_head hcp]
        exact ⟨rfl, rfl⟩
      · push_neg at hcp
        rw [relA_out hcp.1 hcp.2]
        have hclmem : F.clauses.getD c [] ∈ F.clauses := by
          rw [List.getD_eq_getElem _ _ hc]
          exact List.getElem_mem _
        have hclwf := hwf _ hclmem
        have h0cl : ∀ l ∈ F.clauses.getD c [], l ≠ 0 := fun l hl => (hclwf.1 l hl).1
        have hno : ∀ l ∈ F.clauses.getD c [], l.natAbs ≠ v₀ := by
          intro l hl habs
          rcases lit_eq_satLit_or (a₀.flip v₀) hv1 (h0cl l hl) habs with h | h
          · exact hcp.1 ((mem_get_occurrences hwf).mpr ⟨hc, h ▸ hl⟩)
          · exact hcp.2 ((mem_get_occurrences hwf).mpr ⟨hc, h ▸ hl⟩)
        exact ⟨trueCount_flip_no_var hv1 h0cl hno,
          utv_flip_no_var hv1 h0cl hno⟩
    refine ⟨hL1, hL2, ?_, ?_, hE, hFw, hFm⟩
    · intro c hc
      rw [(hrel c hc).1]
      have h := hB c hc
      rwa [relA_nil] at h
    · intro c hc hcount
      rw [(hrel c hc).1] at hcount
      rw [(hrel c hc).2]
      have h := hC c hc
      rw [relA_nil] at h
      exact h hcount
  have h1 := scan1B_fold hwf hv hlen S₀ (get_occurrences_nodup hwf _) hSmem hstart
  have h2 := scan2B_fold hwf hv hlen T₀ (get_occurrences_nodup hwf _)
    (fun c hc => hTmem c hc) h1
  refine ⟨hlen', ?_⟩
  show MidInvB F (a₀.flip v₀) (a₀.flip v₀) [] []
    ((F.get_occurrences (-satLit (a₀.flip v₀) v₀)).foldl
      (flipStep2 F v₀ (a₀.flip v₀))
      ((F.get_occurrences (satLit (a₀.flip v₀) v₀)).foldl
        (flipStep1 v₀) (st.sc, st.falselist))).1
    ((F.get_occurrences (-satLit (a₀.flip v₀) v₀)).foldl
      (flipStep2 F v₀ (a₀.flip v₀))
      ((F.get_occurrences (satLit (a₀.flip v₀) v₀)).foldl
        (flipStep1 v₀) (st.sc, st.falselist))).2
  obtain ⟨g1, g2, gB, gC, gE, gFw, gFm⟩ := h2
  refine ⟨g1, g2, ?_, ?_, gE, gFw, gFm⟩
  · intro c hc
    have h := gB c hc
    rwa [relA_nil] at h ⊢
  · intro c hc
    have h := gC c hc
    rw [relA_nil] at h ⊢
    exact h

/-- Any sequence of in-range flips preserves the BREAK_ONLY invariant. -/
theorem applyFlipsB_inv {F : Formula} (hwf : FormulaWf F) :
    ∀ (ws : List Nat) {st : BState},
      (∀ v ∈ ws, v ∈ Finset.Icc 1 F.num_vars) → InvB F st →
      InvB F (applyFlips F st ws) := by
  intro ws
  induction ws with
  | nil =>
    intro st _ hinv
    exact hinv
  | cons v ws ih =>
    intro st hws hinv
    show InvB F (applyFlips F (flip F v st) ws)
    exact ih (fun x hx => hws x (List.mem_cons_of_mem v hx))
      (flipB_inv hwf (hws v (List.mem_cons_self v ws)) hinv)

end Scores

namespace Scores

theorem initStepB_one {a : Assignment} {sc : Scores} {fl : Falselist}
    {idx : Nat} {cl : List Int} (h : cl.countP (fun l => a.is_true l) = 1) :
    initStep a (sc, fl) idx cl =
      (({ sc with
          crit_var := sc.crit_var ++
            [cl.foldl (fun acc l => if a.is_true l then l.natAbs else acc) 0]
          num_true_lit := sc.num_true_lit ++ [(1 : Int)] }).increment_break_score
        (cl.foldl (fun acc l => if a.is_true l then l.natAbs else acc) 0), fl) := by
  simp only [initStep, h]
  rw [if_pos trivial]
  norm_num

theorem initStepB_zero {a : Assignment} {sc : Scores} {fl : Falselist}
    {idx : Nat} {cl : List Int} (h : cl.countP (fun l => a.is_true l) = 0) :
    initStep a (sc, fl) idx cl =
      ({ sc with
          crit_var := sc.crit_var ++ [0]
          num_true_lit := sc.num_true_lit ++ [(0 : Int)] }, fl.add idx) := by
  simp only [initStep, h]
  rw [if_neg (show ¬((0:Nat) = 1) by decide), if_pos trivial]
  norm_num

theorem initStepB_other {a : Assignment} {sc : Scores} {fl : Falselist}
    {idx : Nat} {cl : List Int} (h1 : cl.countP (fun l => a.is_true l) ≠ 1)
    (h0 : cl.countP (fun l => a.is_true l) ≠ 0) :
    initStep a (sc, fl) idx cl =
      ({ sc with
          crit_var := sc.crit_var ++ [0]
          num_true_lit := sc.num_true_lit ++
            [(cl.countP (fun l => a.is_true l) : Int)] }, fl) := by
  simp only [initStep]
  rw [if_neg h1, if_neg h0, if_neg h1]

/-- The invariant of the `Scores.__init__` clause loop after the first `k`
clauses. -/
def InitInvB (F : Formula) (a : Assignment) (k : Nat)
    (st : Scores × Falselist) : Prop :=
  st.1.num_true_lit.length = k ∧
  st.1.crit_var.length = k ∧
  (∀ c, c < k → st.1.getNtl c = (trueCount a (F.clauses.getD c []) : Int)) ∧
  (∀ c, c < k → trueCount a (F.clauses.getD c []) = 1 →
    st.1.getCrit c = utv a (F.clauses.getD c [])) ∧
  CanonB F.num_vars st.1 ∧
  FlWf st.2 ∧
  (∀ x, x ∈ st.2.lst ↔ (x < k ∧ st.1.getNtl x = 0))

set_option maxHeartbeats 1000000 in
/-- One clause of the `Scores.__init__` loop extends the initialisation
invariant from `k` to `k + 1` clauses. -/
theorem initStepB_initinv {F : Formula} (hwf : FormulaWf F) {a : Assignment}
    {k : Nat} {sc : Scores} {fl : Falselist}
    (hk : k < F.clauses.length) (hinv : InitInvB F a k (sc, fl)) :
    InitInvB F a (k + 1) (initStep a (sc, fl) k (F.clauses.getD k [])) := by
  obtain ⟨hL1, hL2, hB, hC, hE, hFw, hFm⟩ := hinv
  have hclmem : F.clauses.getD k [] ∈ F.clauses := by
    rw [List.getD_eq_getElem _ _ hk]
    exact List.getElem_mem _
  have hclwf : ClauseWf F.num_vars (F.clauses.getD k []) := hwf _ hclmem
  by_cases ht1 : (F.clauses.getD k []).countP (fun l => a.is_true l) = 1
  · -- uniquely satisfied clause: its critical variable gains a break
    have htc : trueCount a (F.clauses.getD k []) = 1 := ht1
    have hcveq : (F.clauses.getD k []).foldl
        (fun acc l => if a.is_true l then l.natAbs else acc) 0
        = utv a (F.clauses.getD k []) := lastTrue_eq_utv htc
    have hcv : (F.clauses.getD k []).foldl
        (fun acc l => if a.is_true l then l.natAbs else acc) 0
        ∈ Finset.Icc 1 F.num_vars := by
      rw [hcveq]
      exact utv_mem_Icc hclwf htc
    rw [initStepB_one ht1]
    set cv := (F.clauses.getD k []).foldl
      (fun acc l => if a.is_true l then l.natAbs else acc) 0 with hcvdef
    set sc1 : Scores :=
      { sc with
        crit_var := sc.crit_var ++ [cv]
        num_true_lit := sc.num_true_lit ++ [(1 : Int)] } with hsc1
    have hE1 : CanonB F.num_vars sc1 := hE
    obtain ⟨hCA, hbA, hnA, hcrA⟩ := increment_break_score_spec hE1 hcv
    set scA := sc1.increment_break_score cv with hscA
    have hnA' : scA.num_true_lit = sc.num_true_lit ++ [(1 : Int)] := hnA
    have hcrA' : scA.crit_var = sc.crit_var ++ [cv] := hcrA
    have hntl_lt : ∀ c, c < k → scA.getNtl c = sc.getNtl c := by
      intro c hc
      show scA.num_true_lit.getD c 0 = _
      rw [hnA', getD_append_lt (by rw [hL1]; exact hc)]
      rfl
    have hntl_k : scA.getNtl k = 1 := by
      show scA.num_true_lit.getD k 0 = 1
      rw [hnA', ← hL1, getD_append_len]
    have hcrit_lt : ∀ c, c < k → scA.getCrit c = sc.getCrit c := by
      intro c hc
      show scA.crit_var.getD c 0 = _
      rw [hcrA', getD_append_lt (by rw [hL2]; exact hc)]
      rfl
    have hcrit_k : scA.getCrit k = cv := by
      show scA.crit_var.getD k 0 = cv
      rw [hcrA', ← hL2, getD_append_len]
    refine ⟨?_, ?_, ?_, ?_, hCA, hFw, ?_⟩
    · rw [hnA', List.length_append, hL1]
      rfl
    · rw [hcrA', List.length_append, hL2]
      rfl
    · intro c hc
      rcases Nat.lt_succ_iff_lt_or_eq.mp hc with hlt | rfl
      · rw [hntl_lt c hlt]
        exact hB c hlt
      · rw [hntl_k, htc]
        rfl
    · intro c hc hcount
      rcases Nat.lt_succ_iff_lt_or_eq.mp hc with hlt | rfl
      · rw [hcrit_lt c hlt]
        exact hC c hlt hcount
      · rw [hcrit_k, hcveq]
    · intro x
      rw [hFm x]
      constructor
      · rintro ⟨hx1, hx2⟩
        refine ⟨by omega, ?_⟩
        rw [hntl_lt x hx1]
        exact hx2
      · rintro ⟨hx1, hx2⟩
        by_cases hxk : x = k
        · subst hxk
          rw [hntl_k] at hx2
          exact absurd hx2 (by decide)
        · have hx1' : x < k := by omega
          rw [hntl_lt x hx1'] at hx2
          exact ⟨hx1', hx2⟩
  · by_cases ht0 : (F.clauses.getD k []).countP (fun l => a.is_true l) = 0
    · -- falsified clause: goes onto the falselist
      have htc : trueCount a (F.clauses.getD k []) = 0 := ht0
      rw [initStepB_zero ht0]
      set sc1 : Scores :=
        { sc with
          crit_var := sc.crit_var ++ [0]
          num_true_lit := sc.num_true_lit ++ [(0 : Int)] } with hsc1
      have hntl_lt : ∀ c, c < k → sc1.getNtl c = sc.getNtl c := by
        intro c hc
        show (sc.num_true_lit ++ [(0 : Int)]).getD c 0 = _
        rw [getD_append_lt (by rw [hL1]; exact hc)]
        rfl
      have hntl_k : sc1.getNtl k = 0 := by
        show (sc.num_true_lit ++ [(0 : Int)]).getD k 0 = 0
        rw [← hL1, getD_append_len]
      have hcrit_lt : ∀ c, c < k → sc1.getCrit c = sc.getCrit c := by
        intro c hc
        show (sc.crit_var ++ [0]).getD c 0 = _
        rw [getD_append_lt (by rw [hL2]; exact hc)]
        rfl
      have hkfl : k ∉ fl.lst := by
        intro hmem
        exact absurd ((hFm k).mp hmem).1 (by omega)
      obtain ⟨hFw', hlst'⟩ := flwf_add hFw hkfl
      refine ⟨?_, ?_, ?_, ?_, hE, hFw', ?_⟩
      · show (sc.num_true_lit ++ [(0 : Int)]).length = k + 1
        rw [List.length_append, hL1]
        rfl
      · show (sc.crit_var ++ [0]).length = k + 1
        rw [List.length_append, hL2]
        rfl
      · intro c hc
        rcases Nat.lt_succ_iff_lt_or_eq.mp hc with hlt | rfl
        · rw [hntl_lt c hlt]
          exact hB c hlt
        · rw [hntl_k, htc]
          rfl
      · intro c hc hcount
        rcases Nat.lt_succ_iff_lt_or_eq.mp hc with hlt | rfl
        · rw [hcrit_lt c hlt]
          exact hC c hlt hcount
        · rw [htc] at hcount
          exact absurd hcount (by decide)
      · intro x
        rw [hlst', List.mem_append, List.mem_singleton, hFm x]
        constructor
        · rintro (⟨hx1, hx2⟩ | rfl)
          · refine ⟨by omega, ?_⟩
            rw [hntl_lt x hx1]
            exact hx2
          · exact ⟨by omega, hntl_k⟩
        · rintro ⟨hx1, hx2⟩
          by_cases hxk : x = k
          · exact Or.inr hxk
          · have hx1' : x < k := by omega
            rw [hntl_lt x hx1'] at hx2
            exact Or.inl ⟨hx1', hx2⟩
    · -- clause with at least two true literals
      rw [initStepB_other ht1 ht0]
      set t := (F.clauses.getD k []).countP (fun l => a.is_true l) with htdef
      have ht2 : 2 ≤ t := by
        have : t = trueCount a (F.clauses.getD k []) := rfl
        have h2 : trueCount a (F.clauses.getD k [])
            = (F.clauses.getD k []).countP (fun l => a.is_true l) := rfl
        omega
      set sc1 : Scores :=
        { sc with
          crit_var := sc.crit_var ++ [0]
          num_true_lit := sc.num_true_lit ++ [(t : Int)] } with hsc1
      have hntl_lt : ∀ c, c < k → sc1.getNtl c = sc.getNtl c := by
        intro c hc
        show (sc.num_true_lit ++ [(t : Int)]).getD c 0 = _
        rw [getD_append_lt (by rw [hL1]; exact hc)]
        rfl
      have hntl_k : sc1.getNtl k = (t : Int) := by
        show (sc.num_true_lit ++ [(t : Int)]).getD k 0 = _
        rw [← hL1, getD_append_len]
      have hcrit_lt : ∀ c, c < k → sc1.getCrit c = sc.getCrit c := by
        intro c hc
        show (sc.crit_var ++ [0]).getD c 0 = _
        rw [getD_append_lt (by rw [hL2]; exact hc)]
        rfl
      refine ⟨?_, ?_, ?_, ?_, hE, hFw, ?_⟩
      · show (sc.num_true_lit ++ [(t : Int)]).length = k + 1
        rw [List.length_append, hL1]
        rfl
      · show (sc.crit_var ++ [0]).length = k + 1
        rw [List.length_append, hL2]
        rfl
      · intro c hc
        rcases Nat.lt_succ_iff_lt_or_eq.mp hc with hlt | rfl
        · rw [hntl_lt c hlt]
          exact hB c hlt
        · rw [hntl_k]
          rfl
      · intro c hc hcount
        rcases Nat.lt_succ_iff_lt_or_eq.mp hc with hlt | rfl
        · rw [hcrit_lt c hlt]
          exact hC c hlt hcount
        · exfalso
          have h2 : trueCount a (F.clauses.getD c [])
              = (F.clauses.getD c []).countP (fun l => a.is_true l) := rfl
          omega
      · intro x
        rw [hFm x]
        constructor
        · rintro ⟨hx1, hx2⟩
          refine ⟨by omega, ?_⟩
          rw [hntl_lt x hx1]
          exact hx2
        · rintro ⟨hx1, hx2⟩
          by_cases hxk : x = k
          · subst hxk
            rw [hntl_k] at hx2
            have : t = 0 := by exact_mod_cast hx2
            omega
          · have hx1' : x < k := by omega
            rw [hntl_lt x hx1'] at hx2
            exact ⟨hx1', hx2⟩

/-- Running the `Scores.__init__` loop over the remaining clauses carries the
initialisation invariant to the end. -/
theorem initLoopB_initinv {F : Formula} (hwf : FormulaWf F) {a : Assignment} :
    ∀ (rest : List (List Int)) (k : Nat) (st : Scores × Falselist),
      F.clauses.drop k = rest → k ≤ F.clauses.length → InitInvB F a k st →
      InitInvB F a F.clauses.length (initLoop a rest k st) := by
  intro rest
  induction rest with
  | nil =>
    intro k st hdrop hk hinv
    have hge : F.clauses.length ≤ k := List.drop_eq_nil_iff.mp hdrop
    have hkk : k = F.clauses.length := by omega
    subst hkk
    exact hinv
  | cons cl rest ih =>
    intro k st hdrop hk hinv
    have hklt : k < F.clauses.length := by
      by_contra hge
      rw [List.drop_eq_nil_of_le (by omega)] at hdrop
      cases hdrop
    have hcl : F.clauses.getD k [] = cl := by
      have h0 : (F.clauses.drop k).getD 0 [] = cl := by rw [hdrop]; rfl
      rw [List.getD_eq_getElem _ _ (show 0 < (F.clauses.drop k).length by
        rw [hdrop]; exact Nat.succ_pos _), List.getElem_drop] at h0
      rw [List.getD_eq_getElem _ _ (by omega)]
      rw [← h0]
      congr 1
    have hrest : F.clauses.drop (k + 1) = rest := by
      have h := List.drop_drop 1 k F.clauses
      rw [hdrop] at h
      rw [← h]
      rfl
    show InitInvB F a F.clauses.length (initLoop a rest (k + 1) (initStep a st k cl))
    have hstep : InitInvB F a (k + 1) (initStep a st k cl) := by
      rw [← hcl]
      have hst : st = (st.1, st.2) := rfl
      rw [hst] at hinv ⊢
      exact initStepB_initinv hwf hklt hinv
    exact ih (k + 1) _ hrest (by omega) hstep

/-- `Scores.__init__` establishes the BREAK_ONLY scoreboard invariant. -/
theorem invB_init {F : Formula} (hwf : FormulaWf F) {a : Assignment}
    (hN : 1 ≤ F.num_vars) (hlen : a.atoms.length = F.num_vars) :
    InvB F (initState F a) := by
  set sc0 : Scores :=
    { crit_var := []
      num_true_lit := []
      breaks := fun _ => 0
      best_score := 0
      buckets := fun s => if s = 0 then Finset.Icc 1 F.num_vars else ∅ } with hsc0
  have hbase : InitInvB F a 0 (sc0, Falselist.empty) := by
    refine ⟨rfl, rfl, ?_, ?_, ?_, ?_, ?_⟩
    · intro c hc
      omega
    · intro c hc
      omega
    · refine ⟨?_, ⟨1, Finset.mem_Icc.mpr (by omega), rfl⟩, fun w _ => le_refl _⟩
      intro s
      show (if s = 0 then Finset.Icc 1 F.num_vars else ∅) = _
      by_cases hs : s = 0
      · rw [if_pos hs]
        subst hs
        apply Finset.ext
        intro w
        rw [Finset.mem_filter]
        exact ⟨fun h => ⟨h, rfl⟩, fun h => h.1⟩
      · rw [if_neg hs]
        apply Finset.ext
        intro w
        rw [Finset.mem_filter]
        constructor
        · intro h
          cases h
        · rintro ⟨-, h⟩
          exact absurd h.symm hs
    · exact ⟨List.nodup_nil, fun x => rfl⟩
    · intro x
      constructor
      · intro h
        cases h
      · rintro ⟨h, -⟩
        omega
  have hfin := initLoopB_initinv hwf F.clauses 0 (sc0, Falselist.empty) rfl
    (Nat.zero_le _) hbase
  obtain ⟨k1, k2, kB, kC, kE, kFw, kFm⟩ := hfin
  refine ⟨hlen, k1, k2, ?_, ?_, kE, kFw, kFm⟩
  · intro c hc
    rw [relA_nil]
    exact kB c hc
  · intro c hc
    rw [relA_nil]
    exact kC c hc

end Scores

/-- Claim C5: in the BREAK_ONLY scoreboard, after construction and after
each complete `Scores.flip` (clauses carrying at most one literal per
variable), every variable lies in the bucket of its break score, the bucket
of `best_score` is non-empty, every bucket below `best_score` is empty, and
the bucket of `best_score` is exactly the set of variables of minimum break
score. -/
theorem claim_C5_break_buckets (F : Formula) (a₀ : Assignment) (ws : List Nat)
    (hwf : FormulaWf F) (hN : 1 ≤ F.num_vars)
    (hlen : a₀.atoms.length = F.num_vars)
    (hws : ∀ v ∈ ws, v ∈ Finset.Icc 1 F.num_vars) :
    (∀ v ∈ Finset.Icc 1 F.num_vars,
      v ∈ (Scores.applyFlips F (Scores.initState F a₀) ws).sc.buckets
        ((Scores.applyFlips F (Scores.initState F a₀) ws).sc.breaks v)) ∧
    ((Scores.applyFlips F (Scores.initState F a₀) ws).sc.buckets
      (Scores.applyFlips F (Scores.initState F a₀) ws).sc.best_score).Nonempty ∧
    (∀ s : Int, s < (Scores.applyFlips F (Scores.initState F a₀) ws).sc.best_score →
      (Scores.applyFlips F (Scores.initState F a₀) ws).sc.buckets s = ∅) ∧
    (∀ v ∈ Finset.Icc 1 F.num_vars,
      (v ∈ (Scores.applyFlips F (Scores.initState F a₀) ws).sc.buckets
        (Scores.applyFlips F (Scores.initState F a₀) ws).sc.best_score ↔
      ∀ w ∈ Finset.Icc 1 F.num_vars,
        (Scores.applyFlips F (Scores.initState F a₀) ws).sc.breaks v
          ≤ (Scores.applyFlips F (Scores.initState F a₀) ws).sc.breaks w)) := by
  obtain ⟨-, -, -, -, -, hE, -, -⟩ :=
    Scores.applyFlipsB_inv hwf ws hws (Scores.invB_init hwf hN hlen)
  obtain ⟨hBk, ⟨w₀, hw₀, hbest⟩, hmin⟩ := hE
  set sc := (Scores.applyFlips F (Scores.initState F a₀) ws).sc with hscd
  refine ⟨?_, ?_, ?_, ?_⟩
  · intro v hv
    rw [hBk (sc.breaks v), Finset.mem_filter]
    exact ⟨hv, rfl⟩
  · refine ⟨w₀, ?_⟩
    rw [hBk sc.best_score, Finset.mem_filter]
    exact ⟨hw₀, hbest⟩
  · intro s hlt
    rw [hBk s, Finset.filter_eq_empty_iff]
    intro w hw
    have h := hmin w hw
    omega
  · intro v hv
    rw [hBk sc.best_score, Finset.mem_filter]
    constructor
    · rintro ⟨-, hveq⟩
      intro w hw
      rw [hveq]
      exact hmin w hw
    · intro hall
      refine ⟨hv, ?_⟩
      have h1 := hall w₀ hw₀
      have h2 := hmin v hv
      omega

/-- Witness for C5 at a concrete formula, assignment and flip sequence. -/
theorem claim_C5_break_buckets_witness :
    (FormulaWf Fex ∧ 1 ≤ Fex.num_vars ∧ aex.atoms.length = Fex.num_vars ∧
      (∀ v ∈ [1, 2], v ∈ Finset.Icc 1 Fex.num_vars)) ∧
    ((∀ v ∈ Finset.Icc 1 Fex.num_vars,
      v ∈ (Scores.applyFlips Fex (Scores.initState Fex aex) [1, 2]).sc.buckets
        ((Scores.applyFlips Fex (Scores.initState Fex aex) [1, 2]).sc.breaks v)) ∧
    ((Scores.applyFlips Fex (Scores.initState Fex aex) [1, 2]).sc.buckets
      (Scores.applyFlips Fex (Scores.initState Fex aex) [1, 2]).sc.best_score).Nonempty ∧
    (∀ s : Int, s < (Scores.applyFlips Fex (Scores.initState Fex aex) [1, 2]).sc.best_score →
      (Scores.applyFlips Fex (Scores.initState Fex aex) [1, 2]).sc.buckets s = ∅) ∧
    (∀ v ∈ Finset.Icc 1 Fex.num_vars,
      (v ∈ (Scores.applyFlips Fex (Scores.initState Fex aex) [1, 2]).sc.buckets
        (Scores.applyFlips Fex (Scores.initState Fex aex) [1, 2]).sc.best_score ↔
      ∀ w ∈ Finset.Icc 1 Fex.num_vars,
        (Scores.applyFlips Fex (Scores.initState Fex aex) [1, 2]).sc.breaks v
          ≤ (Scores.applyFlips Fex (Scores.initState Fex aex) [1, 2]).sc.breaks w))) :=
  ⟨⟨by decide, by decide, by decide, by decide⟩,
   claim_C5_break_buckets Fex aex [1, 2] (by decide) (by decide) (by decide)
     (by decide)⟩

namespace Assignment

/-- Bit `i` of the raw conversion (no padding) is bit `i` of the number. -/
theorem afiAux_getD : ∀ (fuel n : Nat), n ≤ fuel → ∀ i,
    (atomsFromIntegerAux fuel n).getD i false = ((n / 2 ^ i) % 2 == 1) := by
  intro fuel
  induction fuel with
  | zero =>
    intro n hn i
    have hn0 : n = 0 := by omega
    subst hn0
    show false = ((0 / 2 ^ i) % 2 == 1)
    rw [Nat.zero_div]
    rfl
  | succ fuel ih =>
    intro n hn i
    by_cases hz : n = 0
    · subst hz
      show List.getD (if 0 = 0 then [] else _) i false = ((0 / 2 ^ i) % 2 == 1)
      rw [if_pos rfl, Nat.zero_div]
      rfl
    · show List.getD (if n = 0 then [] else
        (n % 2 == 1) :: atomsFromIntegerAux fuel (n / 2)) i false = _
      rw [if_neg hz]
      cases i with
      | zero =>
        show (n % 2 == 1) = ((n / 2 ^ 0) % 2 == 1)
        rw [pow_zero, Nat.div_one]
      | succ i =>
        show (atomsFromIntegerAux fuel (n / 2)).getD i false = _
        rw [ih (n / 2) (by omega) i]
        have harith : n / 2 / 2 ^ i = n / 2 ^ (i + 1) := by
          rw [Nat.div_div_eq_div_mul, pow_succ, Nat.mul_comm]
        rw [harith]

/-- The raw conversion represents a number below `2 ^ length`. -/
theorem afiAux_lt : ∀ (fuel n : Nat), n ≤ fuel →
    n < 2 ^ (atomsFromIntegerAux fuel n).length := by
  intro fuel
  induction fuel with
  | zero =>
    intro n hn
    have hn0 : n = 0 := by omega
    subst hn0
    show 0 < 2 ^ ([] : List Bool).length
    exact Nat.one_pos
  | succ fuel ih =>
    intro n hn
    by_cases hz : n = 0
    · subst hz
      show 0 < 2 ^ (if 0 = 0 then ([] : List Bool) else _).length
      rw [if_pos rfl]
      exact Nat.one_pos
    · show n < 2 ^ (if n = 0 then ([] : List Bool) else
        (n % 2 == 1) :: atomsFromIntegerAux fuel (n / 2)).length
      rw [if_neg hz]
      have h := ih (n / 2) (by omega)
      show n < 2 ^ ((atomsFromIntegerAux fuel (n / 2)).length + 1)
      rw [pow_succ]
      omega

/-- The raw conversion has at most `k` bits when the number is below `2 ^ k`. -/
theorem afiAux_length_le : ∀ (fuel n k : Nat), n ≤ fuel → n < 2 ^ k →
    (atomsFromIntegerAux fuel n).length ≤ k := by
  intro fuel
  induction fuel with
  | zero =>
    intro n k hn hk
    have hn0 : n = 0 := by omega
    subst hn0
    show ([] : List Bool).length ≤ k
    exact Nat.zero_le k
  | succ fuel ih =>
    intro n k hn hk
    by_cases hz : n = 0
    · subst hz
      show (if 0 = 0 then ([] : List Bool) else _).length ≤ k
      rw [if_pos rfl]
      exact Nat.zero_le k
    · show (if n = 0 then ([] : List Bool) else
        (n % 2 == 1) :: atomsFromIntegerAux fuel (n / 2)).length ≤ k
      rw [if_neg hz]
      show (atomsFromIntegerAux fuel (n / 2)).length + 1 ≤ k
      cases k with
      | zero =>
        exfalso
        rw [pow_zero] at hk
        omega
      | succ k =>
        have hdiv : n / 2 < 2 ^ k := by
          rw [pow_succ] at hk
          omega
        have h := ih (n / 2) k (by omega) hdiv
        omega

end Assignment

/-- Claim C10 (amended): `Assignment(number, N)` has bit `i` equal to
`(number >> i) & 1` for every `i < N`; its atom list has length exactly `N`
provided `number < 2^N` (for larger numbers the list is longer than `N`; see
the counterexample). -/
theorem claim_C10_assignment_bits (number N : Nat) (h : number < 2 ^ N) :
    (Assignment.mk' number N).atoms.length = N ∧
    (∀ i, i < N →
      ((Assignment.mk' number N).atoms.getD i false = true ↔
        (number / 2 ^ i) % 2 = 1)) := by
  have hlen : (Assignment.atoms_from_integer number).length ≤ N :=
    Assignment.afiAux_length_le number number N (le_refl _) h
  have hlentot : (Assignment.mk' number N).atoms.length = N := by
    show ((Assignment.atoms_from_integer number)
      ++ List.replicate (N - (Assignment.atoms_from_integer number).length)
        false).length = N
    rw [List.length_append, List.length_replicate]
    omega
  refine ⟨hlentot, ?_⟩
  intro i hi
  have hbit : (Assignment.mk' number N).atoms.getD i false
      = ((number / 2 ^ i) % 2 == 1) := by
    show ((Assignment.atoms_from_integer number)
      ++ List.replicate (N - (Assignment.atoms_from_integer number).length)
        false).getD i false = _
    by_cases hil : i < (Assignment.atoms_from_integer number).length
    · rw [List.getD_eq_getElem?_getD, List.getElem?_append_left hil,
        ← List.getD_eq_getElem?_getD]
      exact Assignment.afiAux_getD number number (le_refl _) i
    · have hle : 2 ^ (Assignment.atoms_from_integer number).length ≤ 2 ^ i :=
        Nat.pow_le_pow_right (by omega) (by omega)
      have hnum : number < 2 ^ i :=
        Nat.lt_of_lt_of_le
          (Assignment.afiAux_lt number number (le_refl _)) hle
      have hzero : number / 2 ^ i = 0 := Nat.div_eq_of_lt hnum
      rw [hzero]
      rw [List.getD_eq_getElem?_getD, List.getElem?_append_right (by omega)]
      have hrep : (List.replicate (N - (Assignment.atoms_from_integer number).length)
          false)[(i - (Assignment.atoms_from_integer number).length)]?
          = if i - (Assignment.atoms_from_integer number).length
              < N - (Assignment.atoms_from_integer number).length
            then some false else none := by
        rw [List.getElem?_replicate]
      rw [hrep]
      by_cases hcase : i - (Assignment.atoms_from_integer number).length
          < N - (Assignment.atoms_from_integer number).length
      · rw [if_pos hcase]
        rfl
      · rw [if_neg hcase]
        rfl
  rw [hbit]
  constructor
  · intro hb
    exact beq_iff_eq.mp hb
  · intro hb
    rw [hb]
    rfl

/-- Counterexample to C10 as stated: `Assignment(4, 1)` has three atoms, not
one — the constructor does not truncate numbers wider than `num_vars`. -/
theorem claim_C10_counterexample : (Assignment.mk' 4 1).atoms.length ≠ 1 := by
  decide

/-- Witness for the amended C10 at a concrete number and width. -/
theorem claim_C10_assignment_bits_witness :
    5 < 2 ^ 3 ∧
    ((Assignment.mk' 5 3).atoms.length = 3 ∧
    (∀ i, i < 3 →
      ((Assignment.mk' 5 3).atoms.getD i false = true ↔
        (5 / 2 ^ i) % 2 = 1))) :=
  ⟨by decide, claim_C10_assignment_bits 5 3 (by decide)⟩

/-! ## DIMACS serialization and parsing (`Formula.__str__` / `Formula.__init__`)

`str.splitlines` is modelled on `'\n'` (the only terminator the serializer
emits).  The two regex scans (`-?\d+` composed with `int`, and
`-?0x[0-9a-fA-F]+` composed with `int(_, 16)`) are modelled as left-to-right
scanner state machines returning the converted integers.  Failure paths of
the Python constructor (IndexError on an empty line, unpack errors when a
scan does not yield the expected number of matches, the NameError when a
`p` line is reached with no `c assgn` line seen, the ZeroDivisionError of
`self.ratio` when `num_vars` is 0, and the IndexError of the occurrence
table for out-of-range literals) are modelled as `none`; inputs whose header
numbers or witness value are negative fall outside the embedding (the
structure fields are `Nat`) and are also mapped to `none` — the serializer
never produces them. -/

/-- `str.splitlines` (on `'\n'`): a trailing newline produces no extra empty
line, but text after the last newline does produce a final line. -/
def pySplitlinesAux : List Char → List Char → List (List Char)
  | [], acc => if acc.isEmpty then [] else [acc.reverse]
  | c :: t, acc =>
    if c = '\n' then acc.reverse :: pySplitlinesAux t []
    else pySplitlinesAux t (c :: acc)

def pySplitlines (s : String) : List (List Char) :=
  pySplitlinesAux s.data []

/-- Decimal digit character. -/
def digitChar (n : Nat) : Char := Char.ofNat (48 + n)

/-- Little-endian decimal digits (fuel-based). -/
def natDecAux : Nat → Nat → List Char
  | 0, _ => []
  | fuel + 1, n => if n = 0 then [] else digitChar (n % 10) :: natDecAux fuel (n / 10)

/-- Decimal representation of a natural number. -/
def natDecChars (n : Nat) : List Char :=
  if n = 0 then ['0'] else (natDecAux n n).reverse

/-- Python `str` of an int. -/
def intDecChars (i : Int) : List Char :=
  if i < 0 then '-' :: natDecChars i.natAbs else natDecChars i.natAbs

/-- Lowercase hexadecimal digit character. -/
def hexDigitChar (d : Nat) : Char :=
  Char.ofNat (if d < 10 then 48 + d else 87 + d)

/-- Little-endian hexadecimal digits (fuel-based). -/
def natHexAux : Nat → Nat → List Char
  | 0, _ => []
  | fuel + 1, n => if n = 0 then [] else hexDigitChar (n % 16) :: natHexAux fuel (n / 16)

/-- Python `hex` of a natural number: `0x` followed by lowercase digits. -/
def pyHexChars (n : Nat) : List Char :=
  '0' :: 'x' :: (if n = 0 then ['0'] else (natHexAux n n).reverse)

/-- `str(assignment)`: `hex(integer_from_atoms(atoms))`. -/
def pyStrAssignment (a : Assignment) : List Char :=
  pyHexChars (Assignment.integer_from_atoms a.atoms)

/-- `str` applied to the optional witness; `str(None)` is `"None"`. -/
def pyStrOptAssgn : Option Assignment → List Char
  | none => 'N' :: 'o' :: 'n' :: 'e' :: []
  | some a => pyStrAssignment a

/-- One clause line: each literal followed by a space, then `0` and a
newline. -/
def clauseChars (cl : List Int) : List Char :=
  cl.foldr (fun l acc => intDecChars l ++ ' ' :: acc) ('0' :: '\n' :: [])

/-- `Formula.__str__`: comments are emitted verbatim — they carry no
newline of their own, so consecutive comments (and the following `c assgn`
header) are glued onto one line. -/
def serializeChars (F : Formula) : List Char :=
  (F.comments.foldr (fun c acc => c.data ++ acc) []) ++
  ('c' :: ' ' :: 'a' :: 's' :: 's' :: 'g' :: 'n' :: ' ' :: []) ++
  pyStrOptAssgn F.satisfying_assignment ++ '\n' :: [] ++
  ('p' :: ' ' :: 'c' :: 'n' :: 'f' :: ' ' :: []) ++
  natDecChars F.num_vars ++ ' ' :: [] ++ natDecChars F.num_clauses ++ '\n' :: [] ++
  (F.clauses.foldr (fun cl acc => clauseChars cl ++ acc) [])

def serialize (F : Formula) : String := String.mk (serializeChars F)

/-- Head-of-list digit test. -/
def headIsDigit : List Char → Bool
  | [] => false
  | c :: _ => c.isDigit

/-- The scanner for `list(map(int, re.findall(r'-?\d+', line)))`: the state
carries the sign and accumulated value of the number being read. -/
def scanIntsAux : List Char → Option (Bool × Nat) → List Int
  | [], none => []
  | [], some (neg, v) => [if neg then -(v : Int) else (v : Int)]
  | c :: t, none =>
    if c.isDigit then scanIntsAux t (some (false, c.toNat - 48))
    else if c = '-' ∧ headIsDigit t then scanIntsAux t (some (true, 0))
    else scanIntsAux t none
  | c :: t, some (neg, v) =>
    if c.isDigit then scanIntsAux t (some (neg, 10 * v + (c.toNat - 48)))
    else (if neg then -(v : Int) else (v : Int)) ::
      (if c = '-' ∧ headIsDigit t then scanIntsAux t (some (true, 0))
       else scanIntsAux t none)

def scanInts (l : List Char) : List Int := scanIntsAux l none

def isHexDigit (c : Char) : Bool :=
  c.isDigit || ('a' ≤ c && c ≤ 'f') || ('A' ≤ c && c ≤ 'F')

def headIsHex : List Char → Bool
  | [] => false
  | c :: _ => isHexDigit c

/-- Maximal run of hexadecimal digits and the remaining input. -/
def hexRun : List Char → List Char × List Char
  | [] => ([], [])
  | c :: t =>
    if isHexDigit c then
      let p := hexRun t
      (c :: p.1, p.2)
    else ([], c :: t)

/-- Value of a hexadecimal digit character. -/
def hexCharVal (c : Char) : Nat :=
  if c.isDigit then c.toNat - 48
  else if 'a' ≤ c && c ≤ 'f' then c.toNat - 87
  else c.toNat - 55

def hexDigitsVal (l : List Char) : Nat :=
  l.foldl (fun n c => 16 * n + hexCharVal c) 0

def digitsVal (l : List Char) : Nat :=
  l.foldl (fun n c => 10 * n + (c.toNat - 48)) 0

/-- The scanner for `re.findall(r'-?0x[0-9a-fA-F]+', line)` composed with
`int(_, 16)`; a failed match advances one position, like the regex engine. -/
def scanHexAux : Nat → List Char → List Int
  | 0, _ => []
  | _ + 1, [] => []
  | fuel + 1, c :: t =>
    if c = '-' then
      match t with
      | '0' :: 'x' :: u =>
        if headIsHex u then
          -(hexDigitsVal (hexRun u).1 : Int) :: scanHexAux fuel (hexRun u).2
        else scanHexAux fuel t
      | _ => scanHexAux fuel t
    else if c = '0' then
      match t with
      | 'x' :: u =>
        if headIsHex u then
          (hexDigitsVal (hexRun u).1 : Int) :: scanHexAux fuel (hexRun u).2
        else scanHexAux fuel t
      | _ => scanHexAux fuel t
    else scanHexAux fuel t

def scanHex (l : List Char) : List Int := scanHexAux l.length l

/-- `line.startswith('c assgn')`. -/
def startsCAssgn : List Char → Bool
  | 'c' :: ' ' :: 'a' :: 's' :: 's' :: 'g' :: 'n' :: _ => true
  | _ => false

/-- Parser state of the line loop of `Formula.__init__`. -/
structure PState where
  clauses : List (List Int)
  num_clauses : Int
  num_vars : Int
  comments : List String
  sat : Option Assignment
  hexVal : Option Int
deriving DecidableEq

/-- One line of the `Formula.__init__` DIMACS loop. -/
def parseLine (st : PState) (line : List Char) : Option PState :=
  match line with
  | [] => none
  | c0 :: _ =>
    if c0 = 'c' then
      if startsCAssgn line then
        match scanHex line with
        | [h] => some { st with hexVal := some h }
        | _ => none
      else some { st with comments := st.comments ++ [String.mk line] }
    else if c0 = 'p' then
      match scanInts line with
      | [n, m] =>
        match st.hexVal with
        | none => none
        | some h =>
          if 0 ≤ h ∧ 0 ≤ n then
            some { st with
              num_vars := n
              num_clauses := m
              sat := some (Assignment.mk' h.toNat n.toNat) }
          else none
      | _ => none
    else
      some { st with clauses := st.clauses ++ [(scanInts line).dropLast] }

/-- The DIMACS branch of `Formula.__init__`. -/
def parse (dimacs : String) : Option Formula :=
  match (pySplitlines dimacs).foldlM parseLine
      (⟨[], 0, 0, [], none, none⟩ : PState) with
  | none => none
  | some st =>
    if 0 < st.num_vars ∧ 0 ≤ st.num_clauses ∧
        st.clauses.all (fun cl => cl.all (fun lit =>
          -(3 * st.num_vars + 1) ≤ lit ∧ lit ≤ st.num_vars)) then
      some ⟨st.clauses, st.num_clauses.toNat, st.num_vars.toNat, st.comments, st.sat⟩
    else none

/-- `Formula.__eq__`: equal variable counts, equal clause lists, and equal
stringified witnesses. -/
def Formula.eqb (F G : Formula) : Bool :=
  (F.num_vars == G.num_vars) && (F.clauses == G.clauses) &&
    (pyStrOptAssgn F.satisfying_assignment == pyStrOptAssgn G.satisfying_assignment)

/-- Claim C8: the source says the witness comment is optional, but parsing
DIMACS text with ordinary comments, a header and clauses yet no `c assgn`
line fails: the header handler reads the never-assigned hex value (a
NameError in the source, `none` here). -/
theorem claim_C8_no_witness_comment :
    parse "c foo\np cnf 2 1\n1 -2 0\n" = none := by decide

/-- Counterexample to C7 as stated: the formula parsed from DIMACS text with
the comment `c hi` serializes with the comment glued to the `c assgn` line
(comments are stored without their newline), so re-parsing its serialization
fails instead of round-tripping. -/
theorem claim_C7_counterexample :
    parse "c hi\nc assgn 0x1\np cnf 1 1\n1 0\n"
      = some ⟨[[1]], 1, 1, ["c hi"], some (Assignment.mk' 1 1)⟩ ∧
    parse (serialize ⟨[[1]], 1, 1, ["c hi"], some (Assignment.mk' 1 1)⟩)
      = none := by decide

/-! ### Round-trip lemmas for the DIMACS printer and parser -/

/-- Join lines with a newline after each (the shape of the serializer output
when there are no comments). -/
def joinN (lines : List (List Char)) : List Char :=
  lines.foldr (fun l acc => l ++ '\n' :: acc) []

theorem pySplitlinesAux_append {rest : List Char} :
    ∀ (l acc : List Char), '\n' ∉ l →
      pySplitlinesAux (l ++ '\n' :: rest) acc
        = (acc.reverse ++ l) :: pySplitlinesAux rest [] := by
  intro l
  induction l with
  | nil =>
    intro acc _
    show pySplitlinesAux ('\n' :: rest) acc = _
    show (if '\n' = '\n' then acc.reverse :: pySplitlinesAux rest []
      else pySplitlinesAux rest ('\n' :: acc)) = _
    rw [if_pos rfl, List.append_nil]
  | cons c t ih =>
    intro acc hnl
    have hc : c ≠ '\n' := fun h => hnl (h ▸ List.mem_cons_self c t)
    show (if c = '\n' then acc.reverse :: pySplitlinesAux (t ++ '\n' :: rest) []
      else pySplitlinesAux (t ++ '\n' :: rest) (c :: acc)) = _
    rw [if_neg hc, ih (c :: acc) (fun h => hnl (List.mem_cons_of_mem c h))]
    show ((c :: acc).reverse ++ t) :: _ = _
    rw [List.reverse_cons, List.append_assoc]
    rfl

/-- Splitting the newline-join of newline-free lines recovers the lines. -/
theorem pySplitlines_joinN :
    ∀ (lines : List (List Char)), (∀ l ∈ lines, '\n' ∉ l) →
      pySplitlinesAux (joinN lines) [] = lines := by
  intro lines
  induction lines with
  | nil =>
    intro _
    rfl
  | cons l t ih =>
    intro h
    show pySplitlinesAux (l ++ '\n' :: joinN t) [] = l :: t
    rw [pySplitlinesAux_append l [] (h l (List.mem_cons_self l t))]
    rw [ih (fun x hx => h x (List.mem_cons_of_mem l hx))]
    rfl

theorem digitChar_toNat {d : Nat} (h : d < 10) : (digitChar d).toNat = 48 + d := by
  interval_cases d <;> decide

theorem digitChar_isDigit {d : Nat} (h : d < 10) : (digitChar d).isDigit = true := by
  interval_cases d <;> decide

theorem hexDigitChar_val {d : Nat} (h : d < 16) :
    hexCharVal (hexDigitChar d) = d := by
  interval_cases d <;> decide

theorem hexDigitChar_isHex {d : Nat} (h : d < 16) :
    isHexDigit (hexDigitChar d) = true := by
  interval_cases d <;> decide

theorem isDigit_ne_newline {c : Char} (h : c.isDigit = true) : c ≠ '\n' := by
  intro hc
  rw [hc] at h
  cases h

theorem isHexDigit_ne_newline {c : Char} (h : isHexDigit c = true) : c ≠ '\n' := by
  intro hc
  rw [hc] at h
  cases h

theorem natDecAux_digits : ∀ (fuel n : Nat), n ≤ fuel →
    ∀ c ∈ natDecAux fuel n, c.isDigit = true := by
  intro fuel
  induction fuel with
  | zero =>
    intro n hn c hc
    cases hc
  | succ fuel ih =>
    intro n hn c hc
    by_cases hz : n = 0
    · subst hz
      show c.isDigit = true
      rw [show natDecAux (fuel + 1) 0 = [] from rfl] at hc
      cases hc
    · rw [show natDecAux (fuel + 1) n
        = if n = 0 then [] else digitChar (n % 10) :: natDecAux fuel (n / 10)
        from rfl, if_neg hz] at hc
      rcases List.mem_cons.mp hc with rfl | hc
      · exact digitChar_isDigit (Nat.mod_lt _ (by omega))
      · exact ih (n / 10) (by omega) c hc

theorem natDecChars_digits (n : Nat) : ∀ c ∈ natDecChars n, c.isDigit = true := by
  intro c hc
  unfold natDecChars at hc
  by_cases hz : n = 0
  · rw [if_pos hz] at hc
    rcases List.mem_singleton.mp hc with rfl
    decide
  · rw [if_neg hz, List.mem_reverse] at hc
    exact natDecAux_digits n n (le_refl _) c hc

theorem natDecChars_ne_nil (n : Nat) : natDecChars n ≠ [] := by
  unfold natDecChars
  by_cases hz : n = 0
  · rw [if_pos hz]
    exact fun h => by cases h
  · rw [if_neg hz]
    intro h
    rw [List.reverse_eq_nil_iff] at h
    have : n ≤ n := le_refl n
    cases hn : n with
    | zero => exact hz hn
    | succ m =>
      rw [hn] at h
      rw [show natDecAux (m + 1) (m + 1)
        = if m + 1 = 0 then []
          else digitChar ((m + 1) % 10) :: natDecAux m ((m + 1) / 10)
        from rfl, if_neg (by omega)] at h
      cases h

theorem natHexAux_hex : ∀ (fuel n : Nat), n ≤ fuel →
    ∀ c ∈ natHexAux fuel n, isHexDigit c = true := by
  intro fuel
  induction fuel with
  | zero =>
    intro n hn c hc
    cases hc
  | succ fuel ih =>
    intro n hn c hc
    by_cases hz : n = 0
    · subst hz
      rw [show natHexAux (fuel + 1) 0 = [] from rfl] at hc
      cases hc
    · rw [show natHexAux (fuel + 1) n
        = if n = 0 then [] else hexDigitChar (n % 16) :: natHexAux fuel (n / 16)
        from rfl, if_neg hz] at hc
      rcases List.mem_cons.mp hc with rfl | hc
      · exact hexDigitChar_isHex (Nat.mod_lt _ (by omega))
      · exact ih (n / 16) (by omega) c hc

/-- The hexadecimal digits in `hex(n)` (past the `0x`). -/
def hexBody (n : Nat) : List Char :=
  if n = 0 then ['0'] else (natHexAux n n).reverse

theorem hexBody_hex (n : Nat) : ∀ c ∈ hexBody n, isHexDigit c = true := by
  intro c hc
  unfold hexBody at hc
  by_cases hz : n = 0
  · rw [if_pos hz] at hc
    rcases List.mem_singleton.mp hc with rfl
    decide
  · rw [if_neg hz, List.mem_reverse] at hc
    exact natHexAux_hex n n (le_refl _) c hc

theorem hexBody_ne_nil (n : Nat) : hexBody n ≠ [] := by
  unfold hexBody
  by_cases hz : n = 0
  · rw [if_pos hz]
    exact fun h => by cases h
  · rw [if_neg hz]
    intro h
    rw [List.reverse_eq_nil_iff] at h
    cases hn : n with
    | zero => exact hz hn
    | succ m =>
      rw [hn] at h
      rw [show natHexAux (m + 1) (m + 1)
        = if m + 1 = 0 then []
          else hexDigitChar ((m + 1) % 16) :: natHexAux m ((m + 1) / 16)
        from rfl, if_neg (by omega)] at h
      cases h

theorem pyHexChars_eq (n : Nat) : pyHexChars n = '0' :: 'x' :: hexBody n := rfl

/-- Decimal digits evaluate back to the number (with any accumulator). -/
theorem natDecAux_val : ∀ (fuel n : Nat), n ≤ fuel → ∀ (v : Nat),
    (natDecAux fuel n).reverse.foldl (fun a c => 10 * a + (c.toNat - 48)) v
      = v * 10 ^ (natDecAux fuel n).length + n := by
  intro fuel
  induction fuel with
  | zero =>
    intro n hn v
    have hz : n = 0 := by omega
    subst hz
    show v = v * 10 ^ 0 + 0
    rw [pow_zero]
    omega
  | succ fuel ih =>
    intro n hn v
    by_cases hz : n = 0
    · subst hz
      show v = v * 10 ^ ([] : List Char).length + 0
      rw [List.length_nil, pow_zero]
      omega
    · rw [show natDecAux (fuel + 1) n
        = if n = 0 then [] else digitChar (n % 10) :: natDecAux fuel (n / 10)
        from rfl, if_neg hz]
      rw [List.reverse_cons, List.foldl_append]
      rw [ih (n / 10) (by omega) v]
      show 10 * (v * 10 ^ (natDecAux fuel (n / 10)).length + n / 10)
          + ((digitChar (n % 10)).toNat - 48)
        = v * 10 ^ (digitChar (n % 10) :: natDecAux fuel (n / 10)).length + n
      rw [digitChar_toNat (Nat.mod_lt _ (by omega)), List.length_cons, pow_succ]
      have hnn : 10 * (n / 10) + n % 10 = n := Nat.div_add_mod n 10
      ring_nf
      omega

theorem digitsVal_natDecChars (n : Nat) : digitsVal (natDecChars n) = n := by
  unfold digitsVal natDecChars
  by_cases hz : n = 0
  · rw [if_pos hz, hz]
    rfl
  · rw [if_neg hz]
    have h := natDecAux_val n n (le_refl _) 0
    rw [h]
    omega

/-- Hexadecimal digits evaluate back to the number. -/
theorem natHexAux_val : ∀ (fuel n : Nat), n ≤ fuel → ∀ (v : Nat),
    (natHexAux fuel n).reverse.foldl (fun a c => 16 * a + hexCharVal c) v
      = v * 16 ^ (natHexAux fuel n).length + n := by
  intro fuel
  induction fuel with
  | zero =>
    intro n hn v
    have hz : n = 0 := by omega
    subst hz
    show v = v * 16 ^ 0 + 0
    rw [pow_zero]
    omega
  | succ fuel ih =>
    intro n hn v
    by_cases hz : n = 0
    · subst hz
      show v = v * 16 ^ ([] : List Char).length + 0
      rw [List.length_nil, pow_zero]
      omega
    · rw [show natHexAux (fuel + 1) n
        = if n = 0 then [] else hexDigitChar (n % 16) :: natHexAux fuel (n / 16)
        from rfl, if_neg hz]
      rw [List.reverse_cons, List.foldl_append]
      rw [ih (n / 16) (by omega) v]
      show 16 * (v * 16 ^ (natHexAux fuel (n / 16)).length + n / 16)
          + hexCharVal (hexDigitChar (n % 16))
        = v * 16 ^ (hexDigitChar (n % 16) :: natHexAux fuel (n / 16)).length + n
      rw [hexDigitChar_val (Nat.mod_lt _ (by omega)), List.length_cons, pow_succ]
      have hnn : 16 * (n / 16) + n % 16 = n := Nat.div_add_mod n 16
      ring_nf
      omega

theorem hexDigitsVal_hexBody (n : Nat) : hexDigitsVal (hexBody n) = n := by
  unfold hexDigitsVal hexBody
  by_cases hz : n = 0
  · rw [if_pos hz, hz]
    rfl
  · rw [if_neg hz]
    have h := natHexAux_val n n (le_refl _) 0
    rw [h]
    omega

theorem scanIntsAux_skip {c : Char} {t : List Char}
    (h1 : c.isDigit = false) (h2 : ¬(c = '-' ∧ headIsDigit t = true)) :
    scanIntsAux (c :: t) none = scanIntsAux t none := by
  show (if c.isDigit then scanIntsAux t (some (false, c.toNat - 48))
    else if c = '-' ∧ headIsDigit t then scanIntsAux t (some (true, 0))
    else scanIntsAux t none) = scanIntsAux t none
  rw [if_neg (by rw [h1]; exact Bool.false_ne_true), if_neg h2]

theorem scanIntsAux_enter {c : Char} {t : List Char} (h : c.isDigit = true) :
    scanIntsAux (c :: t) none = scanIntsAux t (some (false, c.toNat - 48)) := by
  show (if c.isDigit then scanIntsAux t (some (false, c.toNat - 48))
    else if c = '-' ∧ headIsDigit t then scanIntsAux t (some (true, 0))
    else scanIntsAux t none) = _
  rw [if_pos h]

theorem scanIntsAux_enter_neg {t : List Char} (h : headIsDigit t = true) :
    scanIntsAux ('-' :: t) none = scanIntsAux t (some (true, 0)) := by
  show (if ('-').isDigit then scanIntsAux t (some (false, ('-').toNat - 48))
    else if '-' = '-' ∧ headIsDigit t then scanIntsAux t (some (true, 0))
    else scanIntsAux t none) = _
  rw [if_neg (by decide), if_pos ⟨rfl, h⟩]

theorem scanIntsAux_acc {c : Char} {t : List Char} {neg : Bool} {v : Nat}
    (h : c.isDigit = true) :
    scanIntsAux (c :: t) (some (neg, v))
      = scanIntsAux t (some (neg, 10 * v + (c.toNat - 48))) := by
  show (if c.isDigit then scanIntsAux t (some (neg, 10 * v + (c.toNat - 48)))
    else _) = _
  rw [if_pos h]

theorem scanIntsAux_emit {c : Char} {t : List Char} {neg : Bool} {v : Nat}
    (h1 : c.isDigit = false) (h2 : ¬(c = '-' ∧ headIsDigit t = true)) :
    scanIntsAux (c :: t) (some (neg, v))
      = (if neg then -(v : Int) else (v : Int)) :: scanIntsAux t none := by
  show (if c.isDigit then scanIntsAux t (some (neg, 10 * v + (c.toNat - 48)))
    else (if neg then -(v : Int) else (v : Int)) ::
      (if c = '-' ∧ headIsDigit t then scanIntsAux t (some (true, 0))
       else scanIntsAux t none)) = _
  rw [if_neg (by rw [h1]; exact Bool.false_ne_true), if_neg h2]

/-- A run of digit characters accumulates into the state. -/
theorem scanIntsAux_run : ∀ (ds : List Char), (∀ c ∈ ds, c.isDigit = true) →
    ∀ (t : List Char) (neg : Bool) (v : Nat),
      scanIntsAux (ds ++ t) (some (neg, v))
        = scanIntsAux t (some (neg, ds.foldl (fun a c => 10 * a + (c.toNat - 48)) v)) := by
  intro ds
  induction ds with
  | nil =>
    intro _ t neg v
    rfl
  | cons c dtl ih =>
    intro h t neg v
    rw [List.cons_append, scanIntsAux_acc (h c (List.mem_cons_self c dtl)),
      ih (fun x hx => h x (List.mem_cons_of_mem c hx))]
    rfl

/-- Scanning a decimal token followed by a non-number boundary yields the
value and continues after the boundary character. -/
theorem scanInts_token {n : Nat} {c : Char} {t : List Char}
    (h1 : c.isDigit = false) (h2 : ¬(c = '-' ∧ headIsDigit t = true)) :
    scanIntsAux (natDecChars n ++ c :: t) none
      = (n : Int) :: scanIntsAux t none := by
  obtain ⟨d, ds, hds⟩ : ∃ d ds, natDecChars n = d :: ds := by
    cases h : natDecChars n with
    | nil => exact absurd h (natDecChars_ne_nil n)
    | cons d ds => exact ⟨d, ds, rfl⟩
  have hdig := natDecChars_digits n
  rw [hds] at hdig
  rw [hds, List.cons_append,
    scanIntsAux_enter (hdig d (List.mem_cons_self d ds)),
    scanIntsAux_run ds (fun x hx => hdig x (List.mem_cons_of_mem d hx)),
    scanIntsAux_emit h1 h2]
  have hval : ds.foldl (fun a c => 10 * a + (c.toNat - 48)) (10 * 0 + (d.toNat - 48)) = n := by
    have h := digitsVal_natDecChars n
    unfold digitsVal at h
    rw [hds, List.foldl_cons] at h
    exact h
  simp only [Nat.mul_zero, Nat.zero_add] at hval
  rw [if_neg (show ¬(false = true) by decide), hval]

theorem scanInts_token_end {n : Nat} :
    scanIntsAux (natDecChars n) none = [(n : Int)] := by
  obtain ⟨d, ds, hds⟩ : ∃ d ds, natDecChars n = d :: ds := by
    cases h : natDecChars n with
    | nil => exact absurd h (natDecChars_ne_nil n)
    | cons d ds => exact ⟨d, ds, rfl⟩
  have hdig := natDecChars_digits n
  rw [hds] at hdig
  have happ : d :: ds = (d :: ds) ++ [] := by rw [List.append_nil]
  rw [hds, happ, List.cons_append,
    scanIntsAux_enter (hdig d (List.mem_cons_self d ds)),
    scanIntsAux_run ds (fun x hx => hdig x (List.mem_cons_of_mem d hx))]
  have hval : ds.foldl (fun a c => 10 * a + (c.toNat - 48)) (10 * 0 + (d.toNat - 48)) = n := by
    have h := digitsVal_natDecChars n
    unfold digitsVal at h
    rw [hds, List.foldl_cons] at h
    exact h
  simp only [Nat.mul_zero, Nat.zero_add] at hval
  rw [hval]
  rfl

theorem headIsDigit_natDecChars (n : Nat) (t : List Char) :
    headIsDigit (natDecChars n ++ t) = true := by
  obtain ⟨d, ds, hds⟩ : ∃ d ds, natDecChars n = d :: ds := by
    cases h : natDecChars n with
    | nil => exact absurd h (natDecChars_ne_nil n)
    | cons d ds => exact ⟨d, ds, rfl⟩
  rw [hds]
  show d.isDigit = true
  exact natDecChars_digits n d (hds ▸ List.mem_cons_self d ds)

/-- Scanning a literal token (as printed) followed by a boundary character
yields the literal. -/
theorem scanInts_lit {l : Int} {c : Char} {t : List Char}
    (h1 : c.isDigit = false) (h2 : ¬(c = '-' ∧ headIsDigit t = true)) :
    scanIntsAux (intDecChars l ++ c :: t) none = l :: scanIntsAux t none := by
  unfold intDecChars
  by_cases hneg : l < 0
  · rw [if_pos hneg, List.cons_append,
      scanIntsAux_enter_neg (headIsDigit_natDecChars l.natAbs (c :: t))]
    obtain ⟨d, ds, hds⟩ : ∃ d ds, natDecChars l.natAbs = d :: ds := by
      cases h : natDecChars l.natAbs with
      | nil => exact absurd h (natDecChars_ne_nil _)
      | cons d ds => exact ⟨d, ds, rfl⟩
    have hdig := natDecChars_digits l.natAbs
    rw [hds] at hdig
    rw [hds, scanIntsAux_run (d :: ds) hdig, scanIntsAux_emit h1 h2]
    have hval : (d :: ds).foldl (fun a c => 10 * a + (c.toNat - 48)) 0 = l.natAbs := by
      have h := digitsVal_natDecChars l.natAbs
      unfold digitsVal at h
      rw [hds] at h
      exact h
    rw [if_pos rfl, hval]
    congr 1
    omega
  · rw [if_neg hneg, scanInts_token h1 h2]
    congr 1
    omega

/-- One clause line (before its newline) scans to the literals plus the
terminating `0`. -/
theorem scanInts_clauseLine :
    ∀ (cl : List Int),
      scanIntsAux (cl.foldr (fun l acc => intDecChars l ++ ' ' :: acc) ['0']) none
        = cl ++ [(0 : Int)] := by
  intro cl
  induction cl with
  | nil => decide
  | cons l t ih =>
    show scanIntsAux (intDecChars l ++ ' ' ::
      (t.foldr (fun l acc => intDecChars l ++ ' ' :: acc) ['0'])) none = _
    rw [scanInts_lit (by decide) (fun h => absurd h.1 (by decide)), ih]
    rfl

/-- The header line scans to the two header numbers. -/
theorem scanInts_pLine (N M : Nat) :
    scanIntsAux (('p' :: ' ' :: 'c' :: 'n' :: 'f' :: ' ' :: [])
      ++ natDecChars N ++ ' ' :: natDecChars M) none = [(N : Int), (M : Int)] := by
  show scanIntsAux ('p' :: ' ' :: 'c' :: 'n' :: 'f' :: ' ' ::
    (natDecChars N ++ ' ' :: natDecChars M)) none = _
  rw [scanIntsAux_skip (by decide) (fun h => absurd h.1 (by decide)),
    scanIntsAux_skip (by decide) (fun h => absurd h.1 (by decide)),
    scanIntsAux_skip (by decide) (fun h => absurd h.1 (by decide)),
    scanIntsAux_skip (by decide) (fun h => absurd h.1 (by decide)),
    scanIntsAux_skip (by decide) (fun h => absurd h.1 (by decide)),
    scanIntsAux_skip (by decide) (fun h => absurd h.1 (by decide))]
  rw [scanInts_token (by decide) (fun h => absurd h.1 (by decide)),
    scanInts_token_end]

theorem scanHexAux_skip {c : Char} {t : List Char} {fuel : Nat}
    (h1 : c ≠ '-') (h2 : c ≠ '0') :
    scanHexAux (fuel + 1) (c :: t) = scanHexAux fuel t := by
  show (if c = '-' then _ else if c = '0' then _ else scanHexAux fuel t) = _
  rw [if_neg h1, if_neg h2]

theorem scanHexAux_nil (fuel : Nat) : scanHexAux fuel [] = [] := by
  cases fuel with
  | zero => rfl
  | succ f => rfl

theorem scanHexAux_skip_many :
    ∀ (cs : List Char), (∀ c ∈ cs, c ≠ '-' ∧ c ≠ '0') →
      ∀ (fuel : Nat) (t : List Char),
        scanHexAux (cs.length + fuel) (cs ++ t) = scanHexAux fuel t := by
  intro cs
  induction cs with
  | nil =>
    intro _ fuel t
    rw [List.nil_append, List.length_nil, Nat.zero_add]
  | cons c cs ih =>
    intro h fuel t
    have hl : (c :: cs).length + fuel = (cs.length + fuel) + 1 := by
      rw [List.length_cons]
      omega
    rw [hl, List.cons_append,
      scanHexAux_skip (h c (List.mem_cons_self c cs)).1
        (h c (List.mem_cons_self c cs)).2,
      ih (fun x hx => h x (List.mem_cons_of_mem c hx))]

theorem scanHexAux_match {u : List Char} {fuel : Nat}
    (h : headIsHex u = true) :
    scanHexAux (fuel + 1) ('0' :: 'x' :: u)
      = (hexDigitsVal (hexRun u).1 : Int) :: scanHexAux fuel (hexRun u).2 := by
  show (if ('0' : Char) = '-' then _
    else if ('0' : Char) = '0' then
      (if headIsHex u then
        (hexDigitsVal (hexRun u).1 : Int) :: scanHexAux fuel (hexRun u).2
       else scanHexAux fuel ('x' :: u))
    else _) = _
  rw [if_neg (by decide), if_pos rfl, if_pos h]

theorem hexRun_all : ∀ (ds : List Char), (∀ c ∈ ds, isHexDigit c = true) →
    hexRun ds = (ds, []) := by
  intro ds
  induction ds with
  | nil => intro _; rfl
  | cons c t ih =>
    intro h
    show (if isHexDigit c then ((c :: (hexRun t).1, (hexRun t).2) : _ × _)
      else ([], c :: t)) = _
    rw [if_pos (h c (List.mem_cons_self c t)),
      ih (fun x hx => h x (List.mem_cons_of_mem c hx))]

/-- The witness comment line scans to exactly the witness value. -/
theorem scanHex_cAssgn (v : Nat) :
    scanHex (('c' :: ' ' :: 'a' :: 's' :: 's' :: 'g' :: 'n' :: ' ' :: [])
      ++ pyHexChars v) = [(v : Int)] := by
  unfold scanHex
  have hlen : ((('c' :: ' ' :: 'a' :: 's' :: 's' :: 'g' :: 'n' :: ' ' :: [])
      ++ pyHexChars v)).length
      = ('c' :: ' ' :: 'a' :: 's' :: 's' :: 'g' :: 'n' :: ' ' :: []).length
        + (((hexBody v).length + 1) + 1) := by
    rw [List.length_append, pyHexChars_eq]
    rfl
  rw [hlen, scanHexAux_skip_many _ (by
    intro c hc
    fin_cases hc <;> exact ⟨by decide, by decide⟩) _ _]
  rw [pyHexChars_eq]
  obtain ⟨d, ds, hds⟩ : ∃ d ds, hexBody v = d :: ds := by
    cases h : hexBody v with
    | nil => exact absurd h (hexBody_ne_nil v)
    | cons d ds => exact ⟨d, ds, rfl⟩
  have hhex := hexBody_hex v
  have hhead : headIsHex (hexBody v) = true := by
    rw [hds]
    exact hhex d (hds ▸ List.mem_cons_self d ds)
  rw [scanHexAux_match hhead, hexRun_all (hexBody v) hhex]
  rw [hexDigitsVal_hexBody, scanHexAux_nil]

/-- A clause line without its newline. -/
def clauseLine (cl : List Int) : List Char :=
  cl.foldr (fun l acc => intDecChars l ++ ' ' :: acc) ['0']

theorem clauseChars_eq (cl : List Int) :
    clauseChars cl = clauseLine cl ++ '\n' :: [] := by
  unfold clauseChars clauseLine
  induction cl with
  | nil => rfl
  | cons l t ih =>
    rw [List.foldr_cons, List.foldr_cons, ih, List.append_assoc]
    rfl

theorem clausesFold_eq (cls : List (List Int)) :
    cls.foldr (fun cl acc => clauseChars cl ++ acc) []
      = joinN (cls.map clauseLine) := by
  induction cls with
  | nil => rfl
  | cons cl t ih =>
    show clauseChars cl ++ _ = _
    rw [ih, clauseChars_eq, List.append_assoc]
    rfl

theorem intDecChars_no_newline (l : Int) : '\n' ∉ intDecChars l := by
  unfold intDecChars
  by_cases hneg : l < 0
  · rw [if_pos hneg]
    intro hmem
    rcases List.mem_cons.mp hmem with h | h
    · cases h
    · exact isDigit_ne_newline (natDecChars_digits l.natAbs _ h) rfl
  · rw [if_neg hneg]
    intro hmem
    exact isDigit_ne_newline (natDecChars_digits l.natAbs _ hmem) rfl

theorem clauseLine_no_newline (cl : List Int) : '\n' ∉ clauseLine cl := by
  unfold clauseLine
  induction cl with
  | nil =>
    intro h
    rcases List.mem_singleton.mp h
  | cons l t ih =>
    intro h
    rcases List.mem_append.mp h with h | h
    · exact intDecChars_no_newline l h
    · rcases List.mem_cons.mp h with h | h
      · cases h
      · exact ih h

theorem cAssgnLine_no_newline (v : Nat) :
    '\n' ∉ 'c' :: ' ' :: 'a' :: 's' :: 's' :: 'g' :: 'n' :: ' ' :: pyHexChars v := by
  intro h
  rcases List.mem_cons.mp h with h | h
  · cases h
  rcases List.mem_cons.mp h with h | h
  · cases h
  rcases List.mem_cons.mp h with h | h
  · cases h
  rcases List.mem_cons.mp h with h | h
  · cases h
  rcases List.mem_cons.mp h with h | h
  · cases h
  rcases List.mem_cons.mp h with h | h
  · cases h
  rcases List.mem_cons.mp h with h | h
  · cases h
  rcases List.mem_cons.mp h with h | h
  · cases h
  rw [pyHexChars_eq] at h
  rcases List.mem_cons.mp h with h | h
  · cases h
  rcases List.mem_cons.mp h with h | h
  · cases h
  exact isHexDigit_ne_newline (hexBody_hex v _ h) rfl

theorem pLine_no_newline (N M : Nat) :
    '\n' ∉ 'p' :: ' ' :: 'c' :: 'n' :: 'f' :: ' ' ::
      (natDecChars N ++ ' ' :: natDecChars M) := by
  intro h
  rcases List.mem_cons.mp h with h | h
  · cases h
  rcases List.mem_cons.mp h with h | h
  · cases h
  rcases List.mem_cons.mp h with h | h
  · cases h
  rcases List.mem_cons.mp h with h | h
  · cases h
  rcases List.mem_cons.mp h with h | h
  · cases h
  rcases List.mem_cons.mp h with h | h
  · cases h
  rcases List.mem_append.mp h with h | h
  · exact isDigit_ne_newline (natDecChars_digits N _ h) rfl
  · rcases List.mem_cons.mp h with h | h
    · cases h
    · exact isDigit_ne_newline (natDecChars_digits M _ h) rfl

/-- Shape of the serializer output when there are no comments and a witness
is present. -/
theorem serializeChars_shape (F : Formula) (a : Assignment)
    (hcom : F.comments = []) (hsat : F.satisfying_assignment = some a) :
    serializeChars F = joinN
      (('c' :: ' ' :: 'a' :: 's' :: 's' :: 'g' :: 'n' :: ' '
          :: pyHexChars (Assignment.integer_from_atoms a.atoms))
        :: ('p' :: ' ' :: 'c' :: 'n' :: 'f' :: ' '
          :: (natDecChars F.num_vars ++ ' ' :: natDecChars F.num_clauses))
        :: F.clauses.map clauseLine) := by
  unfold serializeChars
  rw [hcom, hsat]
  show ([] : List Char) ++ _ = _
  rw [List.nil_append]
  rw [clausesFold_eq]
  show 'c' :: ' ' :: 'a' :: 's' :: 's' :: 'g' :: 'n' :: ' ' ::
    ((pyStrAssignment a ++ '\n' :: []) ++
      ('p' :: ' ' :: 'c' :: 'n' :: 'f' :: ' ' :: []) ++
      natDecChars F.num_vars ++ ' ' :: [] ++ natDecChars F.num_clauses ++ '\n' :: [] ++
      joinN (F.clauses.map clauseLine)) = _
  show _ = 'c' :: ' ' :: 'a' :: 's' :: 's' :: 'g' :: 'n' :: ' ' ::
    (pyStrAssignment a ++ '\n' ::
      (('p' :: ' ' :: 'c' :: 'n' :: 'f' :: ' ' ::
        (natDecChars F.num_vars ++ ' ' :: natDecChars F.num_clauses)) ++ '\n' ::
        joinN (F.clauses.map clauseLine)))
  simp only [List.append_assoc, List.cons_append, List.nil_append]

theorem parseLine_cAssgn (st : PState) (v : Nat) :
    parseLine st
      ('c' :: ' ' :: 'a' :: 's' :: 's' :: 'g' :: 'n' :: ' ' :: pyHexChars v)
      = some { st with hexVal := some (v : Int) } := by
  have hs : scanHex
      ('c' :: ' ' :: 'a' :: 's' :: 's' :: 'g' :: 'n' :: ' ' :: pyHexChars v)
      = [(v : Int)] := scanHex_cAssgn v
  unfold parseLine
  show (if ('c' : Char) = 'c' then _ else _) = _
  rw [if_pos (show ('c' : Char) = 'c' from rfl)]
  rw [if_pos (show startsCAssgn
    ('c' :: ' ' :: 'a' :: 's' :: 's' :: 'g' :: 'n' :: ' ' :: pyHexChars v) = true
    from rfl)]
  rw [hs]

theorem parseLine_pLine (st : PState) (N M : Nat) {h : Int}
    (hst : st.hexVal = some h) (hh : 0 ≤ h) :
    parseLine st ('p' :: ' ' :: 'c' :: 'n' :: 'f' :: ' ' ::
        (natDecChars N ++ ' ' :: natDecChars M))
      = some { st with
          num_vars := (N : Int)
          num_clauses := (M : Int)
          sat := some (Assignment.mk' h.toNat N) } := by
  have hs : scanInts ('p' :: ' ' :: 'c' :: 'n' :: 'f' :: ' ' ::
      (natDecChars N ++ ' ' :: natDecChars M)) = [(N : Int), (M : Int)] :=
    scanInts_pLine N M
  unfold parseLine
  show (if ('p' : Char) = 'c' then _ else if ('p' : Char) = 'p' then _ else _) = _
  rw [if_neg (show ¬(('p' : Char) = 'c') by decide),
    if_pos (show ('p' : Char) = 'p' from rfl)]
  rw [hs, hst]
  show (if 0 ≤ h ∧ 0 ≤ (N : Int) then _ else _) = _
  rw [if_pos ⟨hh, Int.natCast_nonneg N⟩]
  rw [Int.toNat_natCast]

theorem parseLine_other (st : PState) (c0 : Char) (rest : List Char)
    (hnc : c0 ≠ 'c') (hnp : c0 ≠ 'p') :
    parseLine st (c0 :: rest)
      = some { st with clauses := st.clauses ++ [(scanInts (c0 :: rest)).dropLast] } := by
  unfold parseLine
  show (if c0 = 'c' then _ else if c0 = 'p' then _
    else some { st with clauses := st.clauses ++ [(scanInts (c0 :: rest)).dropLast] }) = _
  rw [if_neg hnc, if_neg hnp]

theorem parseLine_clause (st : PState) (cl : List Int) :
    parseLine st (clauseLine cl) = some { st with clauses := st.clauses ++ [cl] } := by
  have hs : scanInts (clauseLine cl) = cl ++ [(0 : Int)] := scanInts_clauseLine cl
  obtain ⟨c0, rest, hshape, hc0⟩ : ∃ c0 rest, clauseLine cl = c0 :: rest ∧
      (c0.isDigit = true ∨ c0 = '-') := by
    cases cl with
    | nil => exact ⟨'0', [], rfl, Or.inl (by decide)⟩
    | cons l t =>
      show ∃ c0 rest, intDecChars l ++ ' ' ::
        (t.foldr (fun l acc => intDecChars l ++ ' ' :: acc) ['0']) = c0 :: rest ∧ _
      unfold intDecChars
      by_cases hneg : l < 0
      · rw [if_pos hneg]
        exact ⟨'-', _, rfl, Or.inr rfl⟩
      · rw [if_neg hneg]
        obtain ⟨d, ds, hds⟩ : ∃ d ds, natDecChars l.natAbs = d :: ds := by
          cases h : natDecChars l.natAbs with
          | nil => exact absurd h (natDecChars_ne_nil _)
          | cons d ds => exact ⟨d, ds, rfl⟩
        rw [hds]
        exact ⟨d, _, rfl, Or.inl (natDecChars_digits l.natAbs d
          (hds ▸ List.mem_cons_self d ds))⟩
  have hnc : c0 ≠ 'c' := by
    rcases hc0 with h | h
    · intro hc
      rw [hc] at h
      cases h
    · intro hc
      rw [hc] at h
      cases h
  have hnp : c0 ≠ 'p' := by
    rcases hc0 with h | h
    · intro hc
      rw [hc] at h
      cases h
    · intro hc
      rw [hc] at h
      cases h
  rw [hshape, parseLine_other st c0 rest hnc hnp, ← hshape, hs,
    List.dropLast_concat]

/-- Folding the parser over the clause lines appends the clauses. -/
theorem foldlM_clauseLines :
    ∀ (cls : List (List Int)) (st : PState),
      (cls.map clauseLine).foldlM parseLine st
        = some { st with clauses := st.clauses ++ cls } := by
  intro cls
  induction cls with
  | nil =>
    intro st
    rw [List.map_nil, List.foldlM_nil, List.append_nil]
    rfl
  | cons cl t ih =>
    intro st
    rw [List.map_cons, List.foldlM_cons, parseLine_clause]
    show (t.map clauseLine).foldlM parseLine { st with clauses := st.clauses ++ [cl] }
      = _
    rw [ih]
    show some { st with clauses := (st.clauses ++ [cl]) ++ t } = _
    rw [List.append_assoc]
    rfl

namespace Assignment

theorem integer_from_atoms_append_false (l : List Bool) (k : Nat) :
    integer_from_atoms (l ++ List.replicate k false) = integer_from_atoms l := by
  unfold integer_from_atoms
  rw [List.foldr_append]
  have hz : (List.replicate k false).foldr
      (fun b n => 2 * n + (if b then 1 else 0)) 0 = 0 := by
    induction k with
    | zero => rfl
    | succ k ih =>
      show 2 * ((List.replicate k false).foldr _ 0) + (if false then 1 else 0) = 0
      rw [ih]
      rfl
  rw [hz]

theorem integer_from_atoms_afiAux : ∀ (fuel n : Nat), n ≤ fuel →
    integer_from_atoms (atomsFromIntegerAux fuel n) = n := by
  intro fuel
  induction fuel with
  | zero =>
    intro n hn
    have hz : n = 0 := by omega
    subst hz
    rfl
  | succ fuel ih =>
    intro n hn
    by_cases hz : n = 0
    · subst hz
      rfl
    · show integer_from_atoms (if n = 0 then []
        else (n % 2 == 1) :: atomsFromIntegerAux fuel (n / 2)) = n
      rw [if_neg hz]
      show 2 * integer_from_atoms (atomsFromIntegerAux fuel (n / 2))
        + (if n % 2 == 1 then 1 else 0) = n
      rw [ih (n / 2) (by omega)]
      have hmod : n % 2 = 0 ∨ n % 2 = 1 := by omega
      rcases hmod with h | h
      · rw [h]
        show 2 * (n / 2) + (if (0 == 1 : Bool) then 1 else 0) = n
        show 2 * (n / 2) + 0 = n
        omega
      · rw [h]
        show 2 * (n / 2) + (if (1 == 1 : Bool) then 1 else 0) = n
        show 2 * (n / 2) + 1 = n
        omega

theorem integer_from_atoms_mk (v N : Nat) :
    integer_from_atoms (mk' v N).atoms = v := by
  show integer_from_atoms (atoms_from_integer v
    ++ List.replicate (N - (atoms_from_integer v).length) false) = v
  rw [integer_from_atoms_append_false]
  exact integer_from_atoms_afiAux v v (le_refl _)

end Assignment

set_option maxHeartbeats 1000000 in
/-- Claim C7 (amended): for every well-formed formula with at least one
variable, no comment lines, and an embedded witness — in particular every
formula built through the parts constructor — parsing the serialization
succeeds and yields a formula equal to the original under the source's
equality (same variable count, same clauses, same stringified witness).
With comments present the round-trip fails; see the counterexample. -/
theorem claim_C7_roundtrip (F : Formula) (a : Assignment)
    (hwf : FormulaWf F) (hN : 1 ≤ F.num_vars) (hcom : F.comments = [])
    (hsat : F.satisfying_assignment = some a) :
    ∃ G, parse (serialize F) = some G ∧ Formula.eqb F G = true := by
  set v := Assignment.integer_from_atoms a.atoms with hv
  have hlines : pySplitlines (serialize F)
      = ('c' :: ' ' :: 'a' :: 's' :: 's' :: 'g' :: 'n' :: ' ' :: pyHexChars v)
        :: ('p' :: ' ' :: 'c' :: 'n' :: 'f' :: ' '
          :: (natDecChars F.num_vars ++ ' ' :: natDecChars F.num_clauses))
        :: F.clauses.map clauseLine := by
    show pySplitlinesAux (serialize F).data [] = _
    have hdata : (serialize F).data = serializeChars F := rfl
    rw [hdata, serializeChars_shape F a hcom hsat]
    apply pySplitlines_joinN
    intro l hl
    rcases List.mem_cons.mp hl with rfl | hl
    · exact cAssgnLine_no_newline v
    rcases List.mem_cons.mp hl with rfl | hl
    · exact pLine_no_newline _ _
    · obtain ⟨cl, -, rfl⟩ := List.mem_map.mp hl
      exact clauseLine_no_newline cl
  set st1 : PState := ⟨[], 0, 0, [], none, some (v : Int)⟩ with hst1
  set st2 : PState := ⟨[], (F.num_clauses : Int), (F.num_vars : Int), [],
    some (Assignment.mk' (v : Int).toNat F.num_vars), some (v : Int)⟩ with hst2
  have hfold : (pySplitlines (serialize F)).foldlM parseLine
      (⟨[], 0, 0, [], none, none⟩ : PState)
      = some { st2 with clauses := F.clauses } := by
    rw [hlines, List.foldlM_cons,
      parseLine_cAssgn (⟨[], 0, 0, [], none, none⟩ : PState) v]
    show (('p' :: ' ' :: 'c' :: 'n' :: 'f' :: ' '
        :: (natDecChars F.num_vars ++ ' ' :: natDecChars F.num_clauses))
        :: F.clauses.map clauseLine).foldlM parseLine st1 = _
    rw [List.foldlM_cons,
      parseLine_pLine st1 F.num_vars F.num_clauses rfl (Int.natCast_nonneg v)]
    show (F.clauses.map clauseLine).foldlM parseLine st2 = _
    rw [foldlM_clauseLines]
    show some { st2 with clauses := [] ++ F.clauses } = _
    rw [List.nil_append]
  refine ⟨⟨F.clauses, (F.num_clauses : Int).toNat, (F.num_vars : Int).toNat, [],
    some (Assignment.mk' (v : Int).toNat F.num_vars)⟩, ?_, ?_⟩
  · unfold parse
    rw [hfold]
    show (if 0 < ((F.num_vars : Int)) ∧ 0 ≤ ((F.num_clauses : Int)) ∧
        F.clauses.all (fun cl => cl.all (fun lit =>
          decide (-(3 * (F.num_vars : Int) + 1) ≤ lit ∧ lit ≤ (F.num_vars : Int))))
      then _ else none) = _
    rw [if_pos ?_]
    refine ⟨by exact_mod_cast hN, Int.natCast_nonneg _, ?_⟩
    rw [List.all_eq_true]
    intro cl hcl
    rw [List.all_eq_true]
    intro lit hlit
    rw [decide_eq_true_eq]
    have hclwf := hwf cl hcl
    have habs := (hclwf.1 lit hlit).2
    have h1 : lit ≤ (lit.natAbs : Int) := Int.le_natAbs
    have h2 : -(lit.natAbs : Int) ≤ lit := by
      rcases Int.natAbs_eq lit with h | h <;> omega
    have h3 : ((lit.natAbs : Int)) ≤ ((F.num_vars : Int)) := by exact_mod_cast habs
    constructor <;> omega
  · unfold Formula.eqb
    rw [Bool.and_eq_true, Bool.and_eq_true]
    refine ⟨⟨?_, ?_⟩, ?_⟩
    · rw [Int.toNat_natCast]
      exact beq_self_eq_true F.num_vars
    · exact beq_self_eq_true F.clauses
    · rw [hsat]
      show (pyHexChars (Assignment.integer_from_atoms a.atoms)
        == pyHexChars (Assignment.integer_from_atoms
          (Assignment.mk' (v : Int).toNat F.num_vars).atoms)) = true
      rw [Int.toNat_natCast, Assignment.integer_from_atoms_mk, ← hv]
      exact beq_self_eq_true _

/-- Witness for the amended C7 at a concrete comment-free formula with a
witness assignment. -/
theorem claim_C7_roundtrip_witness :
    (FormulaWf Fex ∧ 1 ≤ Fex.num_vars ∧ Fex.comments = [] ∧
      Fex.satisfying_assignment = some (Assignment.mk' 3 2)) ∧
    (∃ G, parse (serialize Fex) = some G ∧ Formula.eqb Fex G = true) :=
  ⟨⟨by decide, by decide, rfl, rfl⟩,
   claim_C7_roundtrip Fex (Assignment.mk' 3 2) (by decide) (by decide) rfl rfl⟩

/-! ## The planted-satisfiable generator
(`Formula.generate_satisfiable_formula`, `Assignment.generate_random_assignment`)

The Python code draws from the global `random` module, which lives outside
this repository.  It is modelled as an abstract pseudo-random interface: a
state type `σ` with the four operations the generator uses (`seed`,
`randrange(0, 2**n)`, `sample(range(1, n+1), k)` and
`choices(cs, weights)`), together with the contract `RNGSpec` stating what
the library guarantees about their outputs.  The generator itself is a
faithful translation threading the state; Python's falsy test `if seed:`
becomes `seed ≠ 0`. -/

structure RNG (σ : Type) where
  seed : Int → σ → σ
  randrange : Nat → σ → Nat × σ
  sample : Nat → Nat → σ → List Nat × σ
  choices : List (List Int) → List Rat → σ → Option (List Int) × σ

/-- What `random.seed/randrange/sample/choices` guarantee: seeding wipes any
previous state, `randrange(0, n)` is below `n`, `sample(range(1, n+1), k)`
gives `k` distinct in-range values, and `choices` picks a member of a
non-empty population. -/
def RNGSpec {σ : Type} (R : RNG σ) : Prop :=
  (∀ s st st', R.seed s st = R.seed s st') ∧
  (∀ n st, 0 < n → (R.randrange n st).1 < n) ∧
  (∀ n k st, k ≤ n →
    (R.sample n k st).1.length = k ∧ (R.sample n k st).1.Nodup ∧
    ∀ x ∈ (R.sample n k st).1, 1 ≤ x ∧ x ≤ n) ∧
  (∀ cs ws st, cs ≠ [] → ∃ c, (R.choices cs ws st).1 = some c ∧ c ∈ cs)

namespace Assignment

/-- `Assignment.generate_random_assignment(num_vars, seed)`. -/
def generate_random_assignment {σ : Type} (R : RNG σ) (num_vars : Nat)
    (seed : Int) (st : σ) : Assignment × σ :=
  let st1 := if seed ≠ 0 then R.seed seed st else st
  let p := R.randrange (2 ^ num_vars) st1
  (Assignment.mk' p.1 num_vars, p.2)

end Assignment

namespace Formula

/-- The clause-weight table `p = {1: 0.191, 2: 0.118, 3: 0.073}`. -/
def pTab (x : Nat) : Rat :=
  if x = 1 then 191 / 1000 else if x = 2 then 118 / 1000
  else if x = 3 then 73 / 1000 else 0

/-- One loop iteration of the generator: sample three variables, enumerate
the sign patterns, keep those satisfied by the witness, and draw one by the
weights. -/
def genClause {σ : Type} (R : RNG σ) (sat : Assignment) (num_vars : Nat)
    (st : σ) : Option (List Int × σ) :=
  let sp := R.sample num_vars 3 st
  let acc := sp.1.foldl
    (fun acc var =>
      acc.map (fun xs => (var : Int) :: xs) ++ acc.map (fun xs => -(var : Int) :: xs))
    [[]]
  let csws := acc.filterMap (fun clause =>
    let x := clause.countP (fun lit => sat.is_true lit)
    if 0 < x then some (clause, pTab x) else none)
  let ch := R.choices (csws.map (fun q => q.1)) (csws.map (fun q => q.2)) sp.2
  match ch with
  | (some c, st2) => some (c, st2)
  | (none, _) => none

/-- The generator's clause loop (`for i in range(0, num_clauses + 1)`). -/
def genClauses {σ : Type} (R : RNG σ) (sat : Assignment) (num_vars : Nat) :
    Nat → σ → Option (List (List Int) × σ)
  | 0, st => some ([], st)
  | k + 1, st =>
    match genClause R sat num_vars st with
    | none => none
    | some (c, st1) =>
      match genClauses R sat num_vars k st1 with
      | none => none
      | some (cls, st2) => some (c :: cls, st2)

/-- `Formula.generate_satisfiable_formula(num_vars, ratio, 3, seed)`; the
final `is_satisfied_by` check raising RuntimeError is `none`. -/
def generate_satisfiable_formula {σ : Type} (R : RNG σ) (num_vars : Nat)
    (rat : Rat) (seed : Int) (st : σ) : Option (Formula × σ) :=
  let st1 := if seed ≠ 0 then R.seed seed st else st
  let pa := Assignment.generate_random_assignment R num_vars seed st1
  let num_clauses : Nat := (rat * num_vars).floor.toNat
  match genClauses R pa.1 num_vars (num_clauses + 1) pa.2 with
  | none => none
  | some (clauses, st2) =>
    let F := Formula.fromParts clauses num_vars pa.1
    if F.is_satisfied_by pa.1 then some (F, st2) else none

end Formula

namespace Formula

/-- Every sign pattern in the generator's accumulator ranges over the
sampled variables. -/
theorem acc_fold_mem :
    ∀ (vars : List Nat) (acc : List (List Int)) (xs : List Int),
      xs ∈ vars.foldl
        (fun acc var =>
          acc.map (fun xs => (var : Int) :: xs)
            ++ acc.map (fun xs => -(var : Int) :: xs)) acc →
      ∃ ys ∈ acc, xs.map Int.natAbs = vars.reverse ++ ys.map Int.natAbs := by
  intro vars
  induction vars with
  | nil =>
    intro acc xs hx
    exact ⟨xs, hx, by rw [List.reverse_nil, List.nil_append]⟩
  | cons v vs ih =>
    intro acc xs hx
    rw [List.foldl_cons] at hx
    obtain ⟨ys', hys', heq⟩ := ih _ xs hx
    rcases List.mem_append.mp hys' with h | h
    · obtain ⟨ys, hys, rfl⟩ := List.mem_map.mp h
      refine ⟨ys, hys, ?_⟩
      rw [heq]
      show vs.reverse ++ (((v : Int)).natAbs :: ys.map Int.natAbs) = _
      rw [Int.natAbs_ofNat, List.reverse_cons, List.append_assoc]
      rfl
    · obtain ⟨ys, hys, rfl⟩ := List.mem_map.mp h
      refine ⟨ys, hys, ?_⟩
      rw [heq]
      show vs.reverse ++ ((-(v : Int)).natAbs :: ys.map Int.natAbs) = _
      rw [Int.natAbs_neg, Int.natAbs_ofNat, List.reverse_cons, List.append_assoc]
      rfl

/-- The accumulator always keeps a sign pattern fully satisfied by the
witness. -/
theorem acc_fold_true (sat : Assignment) :
    ∀ (vars : List Nat), (∀ v ∈ vars, 1 ≤ v) →
      ∀ (acc : List (List Int)),
        (∃ ys ∈ acc, ∀ l ∈ ys, sat.is_true l = true) →
        ∃ xs ∈ vars.foldl
          (fun acc var =>
            acc.map (fun xs => (var : Int) :: xs)
              ++ acc.map (fun xs => -(var : Int) :: xs)) acc,
          ∀ l ∈ xs, sat.is_true l = true := by
  intro vars
  induction vars with
  | nil =>
    intro _ acc h
    exact h
  | cons v vs ih =>
    intro hv acc h
    obtain ⟨ys, hys, hall⟩ := h
    rw [List.foldl_cons]
    apply ih (fun x hx => hv x (List.mem_cons_of_mem v hx))
    have hv1 : 1 ≤ v := hv v (List.mem_cons_self v vs)
    by_cases ht : sat.is_true (v : Int) = true
    · refine ⟨(v : Int) :: ys, List.mem_append.mpr (Or.inl
        (List.mem_map.mpr ⟨ys, hys, rfl⟩)), ?_⟩
      intro l hl
      rcases List.mem_cons.mp hl with rfl | hl
      · exact ht
      · exact hall l hl
    · refine ⟨-(v : Int) :: ys, List.mem_append.mpr (Or.inr
        (List.mem_map.mpr ⟨ys, hys, rfl⟩)), ?_⟩
      intro l hl
      rcases List.mem_cons.mp hl with rfl | hl
      · rw [sat.is_true_neg_coe hv1]
        rw [sat.is_true_coe hv1] at ht
        have hf : sat.get_value v = false := by
          cases h : sat.get_value v
          · rfl
          · exact absurd h ht
        rw [hf]
        rfl
      · exact hall l hl

/-- One generator iteration succeeds and yields a witness-satisfied 3-clause
over distinct in-range variables. -/
theorem genClause_spec {σ : Type} (R : RNG σ) (hR : RNGSpec R)
    (sat : Assignment) (N : Nat) (hN : 3 ≤ N) (st : σ) :
    ∃ c st', genClause R sat N st = some (c, st') ∧
      c.length = 3 ∧ (c.map Int.natAbs).Nodup ∧
      (∀ l ∈ c, 1 ≤ l.natAbs ∧ l.natAbs ≤ N) ∧
      0 < c.countP (fun l => sat.is_true l) := by
  obtain ⟨-, -, hsam, hch⟩ := hR
  obtain ⟨hslen, hsnd, hsran⟩ := hsam N 3 st hN
  set vars := (R.sample N 3 st).1 with hvars
  set acc := vars.foldl
    (fun acc var =>
      acc.map (fun xs => (var : Int) :: xs)
        ++ acc.map (fun xs => -(var : Int) :: xs)) [[]] with hacc
  set csws := acc.filterMap (fun clause =>
    if 0 < clause.countP (fun lit => sat.is_true lit) then
      some (clause, pTab (clause.countP (fun lit => sat.is_true lit)))
    else none) with hcsws
  have hnonempty : csws.map (fun q => q.1) ≠ [] := by
    obtain ⟨xs, hxs, hall⟩ := acc_fold_true sat vars
      (fun v hv => (hsran v hv).1) [[]] ⟨[], List.mem_singleton_self [], by
        intro l hl
        cases hl⟩
    obtain ⟨ys, hys, hmap⟩ := acc_fold_mem vars [[]] xs hxs
    rcases List.mem_singleton.mp hys with rfl
    have hxlen : xs.length = 3 := by
      have h := congrArg List.length hmap
      rw [List.length_map, List.length_append, List.length_reverse, hslen] at h
      simpa using h
    have hcnt : 0 < xs.countP (fun lit => sat.is_true lit) := by
      have h : xs.countP (fun lit => sat.is_true lit) = xs.length := by
        rw [List.countP_eq_length]
        intro l hl
        exact hall l hl
      omega
    intro hemp
    have hmem : (xs, pTab (xs.countP (fun lit => sat.is_true lit)))
        ∈ csws := by
      rw [hcsws]
      apply List.mem_filterMap.mpr
      exact ⟨xs, hxs, by rw [if_pos hcnt]⟩
    have : xs ∈ csws.map (fun q => q.1) := List.mem_map.mpr ⟨_, hmem, rfl⟩
    rw [hemp] at this
    cases this
  obtain ⟨c, hcc, hcmem⟩ := hch (csws.map (fun q => q.1))
    (csws.map (fun q => q.2)) (R.sample N 3 st).2 hnonempty
  obtain ⟨q, hq, rfl⟩ := List.mem_map.mp hcmem
  obtain ⟨clause, hclause, hfq⟩ := List.mem_filterMap.mp (hcsws ▸ hq)
  have hcnt : 0 < clause.countP (fun lit => sat.is_true lit) := by
    by_contra hcon
    rw [if_neg hcon] at hfq
    cases hfq
  rw [if_pos hcnt] at hfq
  obtain rfl : q = (clause, pTab (clause.countP (fun lit => sat.is_true lit))) :=
    (Option.some.inj hfq).symm
  obtain ⟨ys, hys, hmap⟩ := acc_fold_mem vars [[]] clause hclause
  rcases List.mem_singleton.mp hys with rfl
  rw [List.map_nil, List.append_nil] at hmap
  refine ⟨clause, (R.choices (csws.map (fun q => q.1))
      (csws.map (fun q => q.2)) (R.sample N 3 st).2).2, ?_, ?_, ?_, ?_, hcnt⟩
  · show genClause R sat N st = _
    unfold genClause
    show (match R.choices (csws.map (fun q => q.1)) (csws.map (fun q => q.2))
        (R.sample N 3 st).2 with
      | (some c, st2) => some (c, st2)
      | (none, _) => none) = _
    have hpair : R.choices (csws.map (fun q => q.1)) (csws.map (fun q => q.2))
        (R.sample N 3 st).2
        = (some clause, (R.choices (csws.map (fun q => q.1))
            (csws.map (fun q => q.2)) (R.sample N 3 st).2).2) := by
      have h2 := hcc
      exact Prod.ext h2 rfl
    rw [hpair]
  · have h := congrArg List.length hmap
    rw [List.length_map, List.length_reverse, hslen] at h
    exact h
  · rw [hmap]
    exact (List.nodup_reverse.mpr hsnd)
  · intro l hl
    have : l.natAbs ∈ clause.map Int.natAbs := List.mem_map_of_mem _ hl
    rw [hmap, List.mem_reverse] at this
    exact ⟨(hsran _ this).1, (hsran _ this).2⟩

end Formula

namespace Formula

/-- The generator's loop succeeds and yields exactly `k` clauses, each
witness-satisfied over three distinct in-range variables. -/
theorem genClauses_spec {σ : Type} (R : RNG σ) (hR : RNGSpec R)
    (sat : Assignment) (N : Nat) (hN : 3 ≤ N) :
    ∀ (k : Nat) (st : σ), ∃ cls st',
      genClauses R sat N k st = some (cls, st') ∧
      cls.length = k ∧
      (∀ cl ∈ cls, cl.length = 3 ∧ (cl.map Int.natAbs).Nodup ∧
        (∀ l ∈ cl, 1 ≤ l.natAbs ∧ l.natAbs ≤ N) ∧
        0 < cl.countP (fun l => sat.is_true l)) := by
  intro k
  induction k with
  | zero =>
    intro st
    refine ⟨[], st, rfl, rfl, ?_⟩
    intro cl hcl
    cases hcl
  | succ k ih =>
    intro st
    obtain ⟨c, st1, hgc, hclen, hcnd, hcran, hccnt⟩ :=
      genClause_spec R hR sat N hN st
    obtain ⟨cls, st2, hgcs, hlen, hfacts⟩ := ih st1
    refine ⟨c :: cls, st2, ?_, by rw [List.length_cons, hlen], ?_⟩
    · show genClauses R sat N (k + 1) st = _
      unfold genClauses
      rw [hgc]
      show (match genClauses R sat N k st1 with
        | none => none
        | some (cls, st2) => some (c :: cls, st2)) = _
      rw [hgcs]
    · intro cl hcl
      rcases List.mem_cons.mp hcl with rfl | hcl
      · exact ⟨hclen, hcnd, hcran, hccnt⟩
      · exact hfacts cl hcl

end Formula

/-- Claim C6: for every pseudo-random implementation meeting the library
contract, every `num_vars ≥ 3`, every positive ratio and every seed, the
generator succeeds (the final consistency check never aborts) and returns a
formula with exactly `⌊ratio·num_vars⌋ + 1` clauses, each over three
distinct in-range variables, whose embedded witness satisfies it. -/
theorem claim_C6_generator {σ : Type} (R : RNG σ) (hR : RNGSpec R)
    (N : Nat) (rat : Rat) (seed : Int) (st : σ)
    (hN : 3 ≤ N) (hr : 0 < rat) :
    ∃ F st', Formula.generate_satisfiable_formula R N rat seed st
        = some (F, st') ∧
      F.num_clauses = (rat * N).floor.toNat + 1 ∧
      F.clauses.length = (rat * N).floor.toNat + 1 ∧
      (∀ cl ∈ F.clauses, cl.length = 3 ∧ (cl.map Int.natAbs).Nodup ∧
        (∀ l ∈ cl, 1 ≤ l.natAbs ∧ l.natAbs ≤ N)) ∧
      (∃ a, F.satisfying_assignment = some a ∧ F.is_satisfied_by a = true) := by
  set st1 := if seed ≠ 0 then R.seed seed st else st with hst1
  set pa := Assignment.generate_random_assignment R N seed st1 with hpa
  obtain ⟨cls, st2, hgcs, hlen, hfacts⟩ :=
    Formula.genClauses_spec R hR pa.1 N hN ((rat * N).floor.toNat + 1) pa.2
  have hsat : (Formula.fromParts cls N pa.1).is_satisfied_by pa.1 = true := by
    unfold Formula.is_satisfied_by
    rw [List.all_eq_true]
    intro cl hcl
    have hcnt := (hfacts cl hcl).2.2.2
    rw [List.any_eq_true]
    have h := List.countP_pos_iff.mp hcnt
    obtain ⟨l, hl, hp⟩ := h
    exact ⟨l, hl, hp⟩
  refine ⟨Formula.fromParts cls N pa.1, st2, ?_, ?_, ?_, ?_, ?_⟩
  · unfold Formula.generate_satisfiable_formula
    rw [← hst1]
    show (match Formula.genClauses R pa.1 N ((rat * (N : Rat)).floor.toNat + 1) pa.2 with
      | none => none
      | some (clauses, cst) =>
        if (Formula.fromParts clauses N pa.1).is_satisfied_by pa.1 = true then
          some (Formula.fromParts clauses N pa.1, cst) else none) = _
    rw [hgcs]
    show (if (Formula.fromParts cls N pa.1).is_satisfied_by pa.1 = true then
      some (Formula.fromParts cls N pa.1, st2) else none) = _
    rw [if_pos hsat]
  · show cls.length = _
    exact hlen
  · exact hlen
  · intro cl hcl
    exact ⟨(hfacts cl hcl).1, (hfacts cl hcl).2.1, (hfacts cl hcl).2.2.1⟩
  · exact ⟨pa.1, rfl, hsat⟩

/-- A minimal deterministic implementation of the pseudo-random interface,
used by the witnesses and the C9 counterexample: its state is a bare
counter that seeds to zero, and `randrange` exposes the state. -/
def R0 : RNG Nat :=
  ⟨fun _ _ => 0, fun n st => (st % n, st), fun _ k st => (List.range' 1 k, st),
   fun cs _ st => (cs.head?, st)⟩

theorem rngSpec_R0 : RNGSpec R0 := by
  refine ⟨fun _ _ _ => rfl, ?_, ?_, ?_⟩
  · intro n st hn
    exact Nat.mod_lt st hn
  · intro n k st hk
    refine ⟨List.length_range' 1 1 k, List.nodup_range' 1 k, ?_⟩
    intro x hx
    have h := List.mem_range'_1.mp hx
    omega
  · intro cs ws st hne
    cases cs with
    | nil => exact absurd rfl hne
    | cons c t => exact ⟨c, rfl, List.mem_cons_self c t⟩

/-- Witness for C6 with the concrete implementation `R0`. -/
theorem claim_C6_generator_witness :
    (RNGSpec R0 ∧ 3 ≤ 3 ∧ (0 : Rat) < 1) ∧
    (∃ F st', Formula.generate_satisfiable_formula R0 3 1 42 0
        = some (F, st') ∧
      F.num_clauses = ((1 : Rat) * 3).floor.toNat + 1 ∧
      F.clauses.length = ((1 : Rat) * 3).floor.toNat + 1 ∧
      (∀ cl ∈ F.clauses, cl.length = 3 ∧ (cl.map Int.natAbs).Nodup ∧
        (∀ l ∈ cl, 1 ≤ l.natAbs ∧ l.natAbs ≤ 3)) ∧
      (∃ a, F.satisfying_assignment = some a ∧ F.is_satisfied_by a = true)) :=
  ⟨⟨rngSpec_R0, by decide, by norm_num⟩,
   claim_C6_generator R0 rngSpec_R0 3 1 42 0 (by decide) (by norm_num)⟩

/-- Claim C9 (amended): with a NON-ZERO seed the generator's output — the
formula and the final state — is entirely determined by the arguments,
independent of the pseudo-random state before the call, because seeding
wipes that state.  Seed 0 is falsy in the source's `if seed:` test and does
not reseed; see the counterexample. -/
theorem claim_C9_seed_determinism {σ : Type} (R : RNG σ)
    (hseed : ∀ s st st', R.seed s st = R.seed s st')
    (N : Nat) (rat : Rat) (seed : Int) (hs : seed ≠ 0) (st st' : σ) :
    Formula.generate_satisfiable_formula R N rat seed st
      = Formula.generate_satisfiable_formula R N rat seed st' := by
  unfold Formula.generate_satisfiable_formula
  rw [if_pos hs, if_pos hs, hseed seed st st']

/-- Unfolding of the generator with the clause count precomputed (rational
arithmetic does not reduce definitionally, so concrete runs rewrite the
clause count first). -/
theorem generate_eq_of_floor {σ : Type} (R : RNG σ) (N : Nat) (rat : Rat)
    (seed : Int) (st : σ) (M : Nat) (hM : (rat * (N : Rat)).floor.toNat = M) :
    Formula.generate_satisfiable_formula R N rat seed st
      = (let st1 := if seed ≠ 0 then R.seed seed st else st
         let pa := Assignment.generate_random_assignment R N seed st1
         match Formula.genClauses R pa.1 N (M + 1) pa.2 with
         | none => none
         | some (clauses, cst) =>
           if (Formula.fromParts clauses N pa.1).is_satisfied_by pa.1 = true then
             some (Formula.fromParts clauses N pa.1, cst) else none) := by
  unfold Formula.generate_satisfiable_formula
  rw [hM]

/-- Counterexample to C9 as stated: with seed 0 the source does not reseed,
so two calls from different pseudo-random states return different
formulas. -/
theorem claim_C9_counterexample :
    (Formula.generate_satisfiable_formula R0 3 1 0 0).map Prod.fst
      ≠ (Formula.generate_satisfiable_formula R0 3 1 0 1).map Prod.fst := by
  rw [generate_eq_of_floor R0 3 1 0 0 3 (by norm_num; decide),
    generate_eq_of_floor R0 3 1 0 1 3 (by norm_num; decide)]
  decide

/-- Witness for the amended C9 at the concrete implementation `R0`. -/
theorem claim_C9_seed_determinism_witness :
    ((7 : Int) ≠ 0) ∧
    Formula.generate_satisfiable_formula R0 3 1 7 0
      = Formula.generate_satisfiable_formula R0 3 1 7 1 :=
  ⟨by decide,
   claim_C9_seed_determinism R0 (fun _ _ _ => rfl) 3 1 7 (by decide) 0 1⟩

end SlsVerify
